import Mathlib

/-!
# yay: dependency check (`depCheck.go`) and menus (`print.go`)

A shallow embedding of the missing-dependency walker (`_checkMissing`,
`CheckMissing`) and of the conflict detector (the inner, forward and reverse
passes and `CheckConflicts`) of `depCheck.go`, and of `providerMenu`,
`Base.String` and `depOrder.Print` of `print.go`.

Conventions of the embedding.

* Strings are `String`; Go maps with string keys are association lists with
  unique keys (`mapGet`, `mapSet`); a `generic.StringSet` is a list used as a
  set.
* The `stack []string` argument of `_checkMissing` is a Go slice: a view
  `(array, len, cap)` of a backing array that lives on the heap.  `append`
  writes in place when `len < cap` and allocates a new array otherwise, so the
  heap is part of the state that is threaded through the walk, and the chains
  kept in `missing.Missing` are slices that are read through the heap.
* What the source calls but does not define (`satisfiesAur`, `satisfiesRepo`,
  alpm's `FindSatisfier`, the capacity that the Go runtime picks when `append`
  reallocates) is a field of `Env`.
* The recursion of `_checkMissing` is driven by a fuel argument that bounds the
  recursion depth; `walkFuel` is a depth that always suffices.
* `dp.Aur` and `dp.Repo` are Go maps, and every `range` over a map yields its
  entries in an order that the runtime draws anew.  The loops of
  `checkReverseConflict` carry the variable `name` from one entry to the next,
  so they run over the order that `Env` gives for that call; the other loops
  over the two maps only add to a set and run over the entries as listed.
-/

namespace Yay

/-! ## Data model -/

/-- The fields of `rpc.Pkg` (a source package) that the dependency check reads. -/
structure AurPkg where
  Name : String
  Version : String
  Provides : List String
  Depends : List String
  MakeDepends : List String
  CheckDepends : List String
  Conflicts : List String
deriving DecidableEq

/-- The fields of `alpm.Package` (a binary package) that the dependency check
reads; `Depends` and `Conflicts` hold the `String()` form of each entry. -/
structure RepoPkg where
  Name : String
  Version : String
  Provides : List String
  Depends : List String
  Conflicts : List String
deriving DecidableEq

/-- What `depCheck.go` calls without defining it. -/
structure Env where
  /-- The test `satisfiesAur(dep, pkg)`. -/
  satisfiesAur : String → AurPkg → Bool
  /-- The test `satisfiesRepo(dep, pkg)`. -/
  satisfiesRepo : String → RepoPkg → Bool
  /-- The test by which alpm's `PkgCache().FindSatisfier(dep)` accepts an
  installed package. -/
  alpmSatisfies : String → RepoPkg → Bool
  /-- The capacity the Go runtime gives the new array when `append` has to
  reallocate a full slice of the given capacity. -/
  growslice : Nat → Nat
  /-- The order in which the Go runtime yields the entries of the map `dp.Aur`
  to the `range` of the call of `checkReverseConflict` with the given number:
  some arrangement of the entries, each of them once. -/
  rangeAur : Nat → (entries : List AurPkg) → { order : List AurPkg // order.Perm entries }
  /-- The order in which the Go runtime yields the entries of the map `dp.Repo`
  to the `range` of the call of `checkReverseConflict` with the given number. -/
  rangeRepo : Nat → (entries : List RepoPkg) → { order : List RepoPkg // order.Perm entries }

/-- The `depPool`: the targets (as their `DepString()`), the entries of the map
`Aur` of source packages and of the map `Repo` of binary packages, listed in
the order in which the satisfier search scans them, and the installed packages
of `LocalDB`. -/
structure depPool where
  Targets : List String
  Aur : List AurPkg
  Repo : List RepoPkg
  LocalDB : List RepoPkg

/-- Modelled from the spec: `findSatisfierAur` is not in the sources at hand;
the spec has it scan the source entries and return the first that satisfies the
expression. -/
def depPool.findSatisfierAur (env : Env) (dp : depPool) (dep : String) : Option AurPkg :=
  dp.Aur.find? (fun pkg => env.satisfiesAur dep pkg)

/-- Modelled from the spec: `findSatisfierRepo` is not in the sources at hand;
the spec has it scan the binary entries and return the first that satisfies the
expression. -/
def depPool.findSatisfierRepo (env : Env) (dp : depPool) (dep : String) : Option RepoPkg :=
  dp.Repo.find? (fun pkg => env.satisfiesRepo dep pkg)

/-- The call `dp.LocalDB.PkgCache().FindSatisfier(dep)`: the first installed
package that alpm accepts for `dep`; `none` stands for `err != nil`. -/
def depPool.localFindSatisfier (env : Env) (dp : depPool) (dep : String) : Option RepoPkg :=
  dp.LocalDB.find? (fun pkg => env.alpmSatisfies dep pkg)

/-! ## Go maps and slices -/

/-- The lookup `m[k]` with its `ok` flag. -/
def mapGet {β : Type} : List (String × β) → String → Option β
  | [], _ => none
  | (k, v) :: rest, key => if k = key then some v else mapGet rest key

/-- The assignment `m[k] = v`. -/
def mapSet {β : Type} (m : List (String × β)) (key : String) (v : β) : List (String × β) :=
  (key, v) :: m.filter (fun e => !decide (e.1 = key))

/-- The keys of a map. -/
def mapKeys {β : Type} (m : List (String × β)) : List String :=
  m.map Prod.fst

/-- A Go slice of strings whose view starts at the first cell of its backing
array: the index of the array on the heap, the length and the capacity. -/
structure Slice where
  arr : Nat
  len : Nat
  cap : Nat
deriving DecidableEq

/-- The heap: the backing arrays allocated so far. -/
abbrev Heap := List (List String)

/-- The elements `s[0], ..., s[len-1]` of a slice. -/
def readSlice (heap : Heap) (s : Slice) : List String :=
  (heap.getD s.arr []).take s.len

/-- The slice `make([]string, 0)`: no cell, no capacity. -/
def emptySlice : Slice := ⟨0, 0, 0⟩

/-- Go's `append(s, x)`: when `len(s) < cap(s)` the value is written into cell
`len(s)` of the backing array of `s`, which every other slice on that array
sees; otherwise a new array (of the capacity the runtime picks, at least
`len(s) + 1`) receives a copy of the elements of `s` followed by `x`. -/
def appendSlice (env : Env) (heap : Heap) (s : Slice) (x : String) : Heap × Slice :=
  if s.len < s.cap then
    (heap.set s.arr ((heap.getD s.arr []).set s.len x), { s with len := s.len + 1 })
  else
    let c := max (s.len + 1) (env.growslice s.cap)
    (heap ++ [readSlice heap s ++ x :: List.replicate (c - (s.len + 1)) ""],
      ⟨heap.length, s.len + 1, c⟩)

/-- Modelled from the spec: `generic.StringSliceEqual` is not in the sources at
hand; two slices are equal when they hold the same elements in the same order. -/
def StringSliceEqual (heap : Heap) (a b : Slice) : Bool :=
  decide (readSlice heap a = readSlice heap b)

/-! ## The walker -/

/-- The struct `missing` (the set `Good` and the map `Missing` from an
expression to its chains), together with the heap that holds the backing arrays
of the chains. -/
structure missing where
  heap : Heap
  Good : List String
  Missing : List (String × List Slice)

/-- The call `missing.Good.Set(dep)`. -/
def missing.setGood (m : missing) (dep : String) : missing :=
  { m with Good := if dep ∈ m.Good then m.Good else dep :: m.Good }

/-- The loop over one dependency list of the chosen package `name` (lines
230-237 and 246-254): an expression with an installed satisfier is marked Good,
any other is walked with `append(stack, name)`. -/
def eachDep (env : Env) (dp : depPool) (visit : String → Slice → missing → Option missing)
    (name : String) (stack : Slice) : List String → missing → Option missing
  | [], m => some m
  | d :: rest, m =>
    if (dp.localFindSatisfier env d).isSome then
      eachDep env dp visit name stack rest (m.setGood d)
    else
      let r := appendSlice env m.heap stack name
      match visit d r.2 { m with heap := r.1 } with
      | none => none
      | some m1 => eachDep env dp visit name stack rest m1

/-- The function `_checkMissing(dep, stack, missing)`; `none` means that the
fuel (the recursion depth allowed) ran out. -/
def _checkMissing (env : Env) (dp : depPool) : Nat → String → Slice → missing → Option missing
  | 0, _, _, _ => none
  | fuel + 1, dep, stack, m =>
    if dep ∈ m.Good then some m
    else
      match mapGet m.Missing dep with
      | some trees =>
        if trees.any (fun tree => StringSliceEqual m.heap tree stack) then some m
        else some { m with Missing := mapSet m.Missing dep (trees ++ [stack]) }
      | none =>
        match dp.findSatisfierAur env dep with
        | some aurPkg =>
          (eachDep env dp (_checkMissing env dp fuel) aurPkg.Name stack aurPkg.Depends
              (m.setGood dep)).bind fun m1 =>
            (eachDep env dp (_checkMissing env dp fuel) aurPkg.Name stack aurPkg.MakeDepends
              m1).bind fun m2 =>
              eachDep env dp (_checkMissing env dp fuel) aurPkg.Name stack aurPkg.CheckDepends m2
        | none =>
          match dp.findSatisfierRepo env dep with
          | some repoPkg =>
            eachDep env dp (_checkMissing env dp fuel) repoPkg.Name stack repoPkg.Depends
              (m.setGood dep)
          | none => some { m with Missing := mapSet m.Missing dep [stack] }

/-- The loop of `CheckMissing` over the targets (lines 268-270): each target is
walked with a new empty stack. -/
def walkTargets (env : Env) (dp : depPool) (fuel : Nat) : List String → missing → Option missing
  | [], m => some m
  | t :: rest, m =>
    match _checkMissing env dp fuel t emptySlice m with
    | none => none
    | some m1 => walkTargets env dp fuel rest m1

/-- The state of the walk when `CheckMissing` has finished its loop. -/
def checkMissingState (env : Env) (dp : depPool) (fuel : Nat) : Option missing :=
  walkTargets env dp fuel dp.Targets ⟨[], [], []⟩

/-- The result of `CheckMissing`: `false` for `nil`, `true` for the error. -/
def CheckMissing (env : Env) (dp : depPool) (fuel : Nat) : Option Bool :=
  (checkMissingState env dp fuel).map fun m => decide (m.Missing.length ≠ 0)

/-- The chains kept under `Missing[e]`, read through the heap. -/
def missing.chains (m : missing) (e : String) : List (List String) :=
  ((mapGet m.Missing e).getD []).map (readSlice m.heap)

/-- Every dependency expression a source package declares: the three lists that
`_checkMissing` walks for it. -/
def AurPkg.declared (p : AurPkg) : List String :=
  p.Depends ++ p.MakeDepends ++ p.CheckDepends

/-- Every dependency expression declared by a package of the pool. -/
def depPool.declared (dp : depPool) : List String :=
  (dp.Aur.map AurPkg.declared).flatten ++ (dp.Repo.map RepoPkg.Depends).flatten

/-- A recursion depth that suffices for every walk over the pool. -/
def walkFuel (dp : depPool) : Nat :=
  dp.declared.length + 2

/-- The expression has a satisfier in the source or binary pool. -/
def depPool.hasPoolSatisfier (env : Env) (dp : depPool) (e : String) : Prop :=
  (∃ p ∈ dp.Aur, env.satisfiesAur e p = true) ∨ (∃ p ∈ dp.Repo, env.satisfiesRepo e p = true)

/-- The expression has a satisfier among the installed packages. -/
def depPool.hasLocalSatisfier (env : Env) (dp : depPool) (e : String) : Prop :=
  ∃ p ∈ dp.LocalDB, env.alpmSatisfies e p = true

/-- The name of the pool package that `_checkMissing` expands for an
expression: the source satisfier when there is one, else the binary one. -/
def depPool.chosenName (env : Env) (dp : depPool) (e : String) : Option String :=
  match dp.findSatisfierAur env e with
  | some p => some p.Name
  | none => (dp.findSatisfierRepo env e).map RepoPkg.Name

/-- The dependency expressions that `_checkMissing` walks below an expression:
those declared by the pool package it expands for it. -/
def depPool.chosenDeps (env : Env) (dp : depPool) (e : String) : List String :=
  match dp.findSatisfierAur env e with
  | some p => p.declared
  | none =>
    match dp.findSatisfierRepo env e with
    | some p => p.Depends
    | none => []

/-! ## Big-step semantics of the walk -/

/-- What a run executes: one call of `_checkMissing`, or the rest of a loop over
the dependency expressions of the package `name`. -/
inductive Job where
  | visit (dep : String) (stack : Slice)
  | loop (name : String) (stack : Slice) (deps : List String)

/-- The relation between the state before and the state after a job: one
constructor for each path through `_checkMissing` and through its loops. -/
inductive Run (env : Env) (dp : depPool) : Job → missing → missing → Prop where
  | good {dep stack m} : dep ∈ m.Good → Run env dp (.visit dep stack) m m
  | seen {dep stack m trees} : dep ∉ m.Good → mapGet m.Missing dep = some trees →
      trees.any (fun tree => StringSliceEqual m.heap tree stack) = true →
      Run env dp (.visit dep stack) m m
  | again {dep stack m trees} : dep ∉ m.Good → mapGet m.Missing dep = some trees →
      trees.any (fun tree => StringSliceEqual m.heap tree stack) = false →
      Run env dp (.visit dep stack) m { m with Missing := mapSet m.Missing dep (trees ++ [stack]) }
  | aur {dep stack m p m1} : dep ∉ m.Good → mapGet m.Missing dep = none →
      dp.findSatisfierAur env dep = some p →
      Run env dp (.loop p.Name stack p.declared) (m.setGood dep) m1 →
      Run env dp (.visit dep stack) m m1
  | repo {dep stack m p m1} : dep ∉ m.Good → mapGet m.Missing dep = none →
      dp.findSatisfierAur env dep = none → dp.findSatisfierRepo env dep = some p →
      Run env dp (.loop p.Name stack p.Depends) (m.setGood dep) m1 →
      Run env dp (.visit dep stack) m m1
  | leaf {dep stack m} : dep ∉ m.Good → mapGet m.Missing dep = none →
      dp.findSatisfierAur env dep = none → dp.findSatisfierRepo env dep = none →
      Run env dp (.visit dep stack) m { m with Missing := mapSet m.Missing dep [stack] }
  | done {name stack m} : Run env dp (.loop name stack []) m m
  | skip {name stack d rest m m1} : (dp.localFindSatisfier env d).isSome = true →
      Run env dp (.loop name stack rest) (m.setGood d) m1 →
      Run env dp (.loop name stack (d :: rest)) m m1
  | step {name stack d rest m m1 m2} : (dp.localFindSatisfier env d).isSome = false →
      Run env dp (.visit d (appendSlice env m.heap stack name).2)
        { m with heap := (appendSlice env m.heap stack name).1 } m1 →
      Run env dp (.loop name stack rest) m1 m2 →
      Run env dp (.loop name stack (d :: rest)) m m2

/-! ## Measures and invariants of the walk -/

/-- The number of expressions of `U` that are neither Good nor a key of Missing. -/
def unvisited (U : List String) (m : missing) : Nat :=
  (U.toFinset \ (m.Good ++ mapKeys m.Missing).toFinset).card

/-- Every Good expression has a pool satisfier, or is a declared dependency
expression with an installed satisfier. -/
def GoodSound (env : Env) (dp : depPool) (m : missing) : Prop :=
  ∀ e ∈ m.Good, dp.hasPoolSatisfier env e ∨ (e ∈ dp.declared ∧ dp.hasLocalSatisfier env e)

/-- Every key of Missing is a target or a declared dependency expression, and
has no pool satisfier. -/
def KeysSound (env : Env) (dp : depPool) (m : missing) : Prop :=
  ∀ e ∈ mapKeys m.Missing, ¬ dp.hasPoolSatisfier env e ∧ (e ∈ dp.Targets ∨ e ∈ dp.declared)

/-- The expressions a job walks come from the pool: a visited expression is a
target or declared, the expressions of a loop are declared. -/
def JobOK (dp : depPool) : Job → Prop
  | .visit d _ => d ∈ dp.Targets ∨ d ∈ dp.declared
  | .loop _ _ ds => ∀ d ∈ ds, d ∈ dp.declared

instance (env : Env) (dp : depPool) (e : String) : Decidable (dp.hasPoolSatisfier env e) := by
  unfold depPool.hasPoolSatisfier
  infer_instance

instance (env : Env) (dp : depPool) (e : String) : Decidable (dp.hasLocalSatisfier env e) := by
  unfold depPool.hasLocalSatisfier
  infer_instance

/-- The expressions the walk is meant to cover: a target, or an expression
without installed satisfier that is declared by the pool package chosen for a
reachable expression. -/
inductive Reachable (env : Env) (dp : depPool) : String → Prop where
  | target {t : String} : t ∈ dp.Targets → Reachable env dp t
  | dep {e d : String} : Reachable env dp e → d ∈ dp.chosenDeps env e →
      ¬ dp.hasLocalSatisfier env d → Reachable env dp d

/-! ## Concrete inputs -/

/-- An environment for concrete runs: an expression is satisfied by the package
of that name or by a package that provides it, and `append` doubles the
capacity of a full slice (one cell for an empty one), as the Go runtime does
for small slices; every `range` over a map yields the entries as listed. -/
def nameEnv : Env where
  satisfiesAur := fun dep pkg => decide (dep = pkg.Name) || decide (dep ∈ pkg.Provides)
  satisfiesRepo := fun dep pkg => decide (dep = pkg.Name) || decide (dep ∈ pkg.Provides)
  alpmSatisfies := fun dep pkg => decide (dep = pkg.Name) || decide (dep ∈ pkg.Provides)
  growslice := fun c => if c = 0 then 1 else 2 * c
  rangeAur := fun _ entries => ⟨entries, List.Perm.refl entries⟩
  rangeRepo := fun _ entries => ⟨entries, List.Perm.refl entries⟩

/-- The environment `nameEnv` with another draw of the runtime: every `range`
over a map yields the entries in the reverse of the order in which they are
listed. -/
def reversedEnv : Env where
  satisfiesAur := nameEnv.satisfiesAur
  satisfiesRepo := nameEnv.satisfiesRepo
  alpmSatisfies := nameEnv.alpmSatisfies
  growslice := nameEnv.growslice
  rangeAur := fun _ entries => ⟨entries.reverse, List.reverse_perm entries⟩
  rangeRepo := fun _ entries => ⟨entries.reverse, List.reverse_perm entries⟩

/-- A source package with runtime dependencies only. -/
def srcPkg (name : String) (deps : List String) : AurPkg :=
  ⟨name, "1", [], deps, [], [], []⟩

/-- An installed or binary package with the given dependencies. -/
def binPkg (name : String) (deps : List String) : RepoPkg :=
  ⟨name, "1", [], deps, []⟩

/-- Targets `bar`, `foo`; `foo` depends on `bar`; `bar` is installed but is not
in the pool. -/
def overlapPool : depPool :=
  ⟨["bar", "foo"], [srcPkg "foo" ["bar"]], [], [binPkg "bar" []]⟩

/-- The only target `vim` is installed and is not in the pool. -/
def installedTargetPool : depPool :=
  ⟨["vim"], [], [], [binPkg "vim" []]⟩

/-- The only target `foo` is not in the pool; the installed `libfoo` provides it. -/
def providedTargetPool : depPool :=
  ⟨["foo"], [], [], [⟨"libfoo", "1", ["foo"], [], []⟩]⟩

/-- Targets `foo`, `bar`; `foo` depends on `bar`, `bar` depends on `baz`; an
older `bar` is installed; `baz` is nowhere. -/
def shadowPool : depPool :=
  ⟨["foo", "bar"], [srcPkg "foo" ["bar"], srcPkg "bar" ["baz"]], [], [binPkg "bar" []]⟩

/-- The pool `shadowPool` with the two targets in the other order. -/
def shadowPoolSwapped : depPool :=
  { shadowPool with Targets := ["bar", "foo"] }

/-- A cycle of two source packages: `A` depends on `B` and `B` on `A`. -/
def cyclePool : depPool :=
  ⟨["A"], [srcPkg "A" ["B"], srcPkg "B" ["A"]], [], []⟩

/-- A cycle through a source package, a binary package and a make dependency. -/
def cycle3Pool : depPool :=
  ⟨["x", "z"], [⟨"x", "1", [], [], ["y"], [], []⟩, srcPkg "z" ["x"]], [binPkg "y" ["z"]], []⟩

/-! ## Conflict maps and the inner-conflict pass -/

/-- A `generic.MapStringSet`: a map from a name to a set of names. -/
abbrev MapStringSet := List (String × List String)

/-- Modelled from the spec: `generic.MapStringSet.Add` is not in the sources at
hand; `Add(n, v)` puts `v` into the set kept under `n`, creating the set when
`n` is not yet a key. -/
def MapStringSet.Add (mss : MapStringSet) (n v : String) : MapStringSet :=
  match mapGet mss n with
  | none => mapSet mss n [v]
  | some set => mapSet mss n (if v ∈ set then set else v :: set)

/-- The name `q` is in the set kept under the key `p`. -/
def MapStringSet.has (mss : MapStringSet) (p q : String) : Prop :=
  q ∈ (mapGet mss p).getD []

/-- The function `checkInnerConflict(name, conflict, conflicts)`: the loop over
`dp.Aur`, then the loop over `dp.Repo`. -/
def depPool.checkInnerConflict (env : Env) (dp : depPool) (name conflict : String)
    (conflicts : MapStringSet) : MapStringSet :=
  let afterAur := dp.Aur.foldl (fun acc pkg =>
    if pkg.Name = name then acc
    else if env.satisfiesAur conflict pkg then acc.Add name pkg.Name else acc) conflicts
  dp.Repo.foldl (fun acc pkg =>
    if pkg.Name = name then acc
    else if env.satisfiesRepo conflict pkg then acc.Add name pkg.Name else acc) afterAur

/-- The function `checkInnerConflicts(conflicts)`: for every source package and
then every binary package, one call of `checkInnerConflict` for each of its
conflict expressions. -/
def depPool.checkInnerConflicts (env : Env) (dp : depPool) (conflicts : MapStringSet) :
    MapStringSet :=
  let afterAur := dp.Aur.foldl (fun acc pkg =>
    pkg.Conflicts.foldl (fun acc2 conflict => dp.checkInnerConflict env pkg.Name conflict acc2)
      acc) conflicts
  dp.Repo.foldl (fun acc pkg =>
    pkg.Conflicts.foldl (fun acc2 conflict => dp.checkInnerConflict env pkg.Name conflict acc2)
      acc) afterAur

/-- The pool holds a package named `q` that satisfies the expression `c`. -/
def depPool.satisfiedBy (env : Env) (dp : depPool) (c q : String) : Prop :=
  (∃ pkg ∈ dp.Aur, pkg.Name = q ∧ env.satisfiesAur c pkg = true) ∨
    (∃ pkg ∈ dp.Repo, pkg.Name = q ∧ env.satisfiesRepo c pkg = true)

/-- The pool holds a package named `p` that declares the conflict expression `c`. -/
def depPool.declaresConflict (dp : depPool) (p c : String) : Prop :=
  (∃ pkg ∈ dp.Aur, pkg.Name = p ∧ c ∈ pkg.Conflicts) ∨
    (∃ pkg ∈ dp.Repo, pkg.Name = p ∧ c ∈ pkg.Conflicts)

/-- The pool of the inner-conflict scenario: `a` conflicts with `b`, and `b`. -/
def innerPool : depPool :=
  ⟨["a", "b"], [⟨"a", "1", [], [], [], [], ["b"]⟩, srcPkg "b" []], [], []⟩

/-! ## Chains -/

/-- The pool holds a package named `x` that declares the dependency expression
`d` (among the lists that `_checkMissing` walks for it). -/
def depPool.declaredBy (dp : depPool) (x d : String) : Prop :=
  (∃ p ∈ dp.Aur, p.Name = x ∧ d ∈ p.declared) ∨ (∃ p ∈ dp.Repo, p.Name = x ∧ d ∈ p.Depends)

/-- A dependency edge of the evaluated graph: the package named `x` declares a
dependency expression whose chosen pool satisfier is the package named `y`. -/
def depPool.edge (env : Env) (dp : depPool) (x y : String) : Prop :=
  ∃ d, dp.declaredBy x d ∧ dp.chosenName env d = some y

/-- The package named `x` is the chosen pool satisfier of a target. -/
def depPool.satisfiesTarget (env : Env) (dp : depPool) (x : String) : Prop :=
  ∃ t ∈ dp.Targets, dp.chosenName env t = some x

/-- Every two neighbours of the list are related. -/
def Linked (R : String → String → Prop) : List String → Prop
  | [] => True
  | [_] => True
  | x :: y :: rest => R x y ∧ Linked R (y :: rest)

/-- A path of the evaluated graph from a target: the first name is the chosen
satisfier of a target and every two neighbours are joined by a dependency
edge. -/
def depPool.path (env : Env) (dp : depPool) (c : List String) : Prop :=
  (∀ x, c.head? = some x → dp.satisfiesTarget env x) ∧ Linked (dp.edge env) c

/-- The stack `c` leads to the expression `d`: with an empty stack `d` is a
target, otherwise the package last pushed declares `d`. -/
def depPool.leadsTo (dp : depPool) (c : List String) (d : String) : Prop :=
  match c.getLast? with
  | none => d ∈ dp.Targets
  | some x => dp.declaredBy x d

/-- The slice is kept in one of the chain lists of `Missing`. -/
def missing.stores (m : missing) (s : Slice) : Prop :=
  ∃ e trees, (e, trees) ∈ m.Missing ∧ s ∈ trees

/-- The slice is backed by an array of the heap whose length is its capacity. -/
def Slice.backed (s : Slice) (heap : Heap) : Prop :=
  s.len ≤ s.cap ∧ (s.cap = 0 ∨ (s.arr < heap.length ∧ (heap.getD s.arr []).length = s.cap))

/-- The invariant of the chains: of every stored chain the first `K` names form
a path from a target, and every stored slice that is not empty lies on an array
of the heap. -/
def ChainInv (K : Nat) (env : Env) (dp : depPool) (m : missing) : Prop :=
  ∀ s, m.stores s →
    dp.path env ((readSlice m.heap s).take K) ∧ (s.len = 0 ∨ s.arr < m.heap.length)

/-- What a job leaves of the heap it started from: no array is dropped or
resized, the arrays other than that of the stack are untouched, and so are the
cells of the stack. -/
def Frame (h h1 : Heap) (s : Slice) : Prop :=
  h.length ≤ h1.length ∧
    (∀ i, i < h.length → (h1.getD i []).length = (h.getD i []).length) ∧
    (∀ i, i < h.length → i ≠ s.arr → h1.getD i [] = h.getD i []) ∧
    (h1.getD s.arr []).take s.len = (h.getD s.arr []).take s.len

/-- The stack of a job. -/
def Job.stack : Job → Slice
  | .visit _ s => s
  | .loop _ s _ => s

/-- No stored slice reaches beyond the stack on the array of the stack, or the
cell behind the stack already holds `name`; asked only where the next `append`
writes in place below position `K`. -/
def Unshared (K : Nat) (m : missing) (s : Slice) (name : Option String) : Prop :=
  s.len < s.cap → s.len < K →
    (∀ t, m.stores t → t.arr = s.arr → t.len ≤ s.len) ∨
      (∃ n, name = some n ∧ (m.heap.getD s.arr [])[s.len]? = some n)

/-- What the chain invariant needs before a job starts. -/
def ChainPre (K : Nat) (ok : Slice → Prop) (env : Env) (dp : depPool) : Job → missing → Prop
  | .visit d s, m =>
    ChainInv K env dp m ∧ s.backed m.heap ∧ ok s ∧ dp.path env (readSlice m.heap s) ∧
      dp.leadsTo (readSlice m.heap s) d ∧ Unshared K m s none
  | .loop n s ds, m =>
    ChainInv K env dp m ∧ s.backed m.heap ∧ ok s ∧ dp.path env (readSlice m.heap s ++ [n]) ∧
      (∀ d ∈ ds, dp.declaredBy n d) ∧ Unshared K m s (some n)

/-- The shape of the stacks under the capacities that the Go runtime picks for
small slices: up to four elements a stack has at most one spare cell. -/
def gcShape (s : Slice) : Prop :=
  (s.len = 0 → s.cap = 0) ∧ (s.len = 1 → s.cap = 1) ∧ (s.len = 2 → s.cap = 2) ∧
    (s.len = 3 → s.cap = 4) ∧ (s.len = 4 → s.cap = 4)

/-- The pool in which `A` (which provides `A2`) depends on `B` and on the
missing `X`, and `B` depends on `A2`. -/
def repeatPool : depPool :=
  ⟨["A"], [⟨"A", "1", ["A2"], ["B", "X"], [], [], []⟩, srcPkg "B" ["A2"]], [], []⟩

/-- A chain of six source packages below the target `a1`; the last one depends
on `q` and on `r`, `q` depends on the missing `x` and `r` on the missing `y`. -/
def deepPool : depPool :=
  ⟨["a1"], [srcPkg "a1" ["a2"], srcPkg "a2" ["a3"], srcPkg "a3" ["a4"], srcPkg "a4" ["a5"],
    srcPkg "a5" ["a6"], srcPkg "a6" ["q", "r"], srcPkg "q" ["x"], srcPkg "r" ["y"]], [], []⟩

/-- The pool of the missing-leaf scenario with one more level: `foo` depends on
`bar`, `bar` on the missing `baz`. -/
def leafPool : depPool :=
  ⟨["foo"], [srcPkg "foo" ["bar"], srcPkg "bar" ["baz"]], [], []⟩

instance (dp : depPool) (x d : String) : Decidable (dp.declaredBy x d) := by
  unfold depPool.declaredBy
  infer_instance

instance (env : Env) (dp : depPool) (x : String) : Decidable (dp.satisfiesTarget env x) := by
  unfold depPool.satisfiesTarget
  infer_instance

instance (env : Env) (dp : depPool) (c q : String) : Decidable (dp.satisfiedBy env c q) := by
  unfold depPool.satisfiedBy
  infer_instance

instance (dp : depPool) (p c : String) : Decidable (dp.declaresConflict p c) := by
  unfold depPool.declaresConflict
  infer_instance

instance (mss : MapStringSet) (p q : String) : Decidable (mss.has p q) := by
  unfold MapStringSet.has
  infer_instance

/-! ## The forward and reverse passes and `CheckConflicts` -/

/-- Modelled from the spec: `hasPackage` is not in the sources at hand; the
spec has it true exactly when the name is a key of the source or of the binary
map of the pool. -/
def depPool.hasPackage (dp : depPool) (name : String) : Bool :=
  dp.Aur.any (fun pkg => decide (pkg.Name = name)) ||
    dp.Repo.any (fun pkg => decide (pkg.Name = name))

/-- The statement `if n != conflict { n += " (" + conflict + ")" }`. -/
def annotate (n conflict : String) : String :=
  if n ≠ conflict then n ++ (" (" ++ conflict ++ ")") else n

/-- The function `checkForwardConflict(name, conflict, conflicts)`: the loop
over the installed packages. -/
def depPool.checkForwardConflict (env : Env) (dp : depPool) (name conflict : String)
    (conflicts : MapStringSet) : MapStringSet :=
  dp.LocalDB.foldl (fun acc pkg =>
    if pkg.Name = name ∨ dp.hasPackage pkg.Name = true then acc
    else if env.satisfiesRepo conflict pkg then acc.Add name (annotate pkg.Name conflict)
    else acc) conflicts

/-- One turn of a loop of `checkReverseConflict`: the state is the variable
`name`, which the loop body overwrites, and the map. -/
def reverseStep (conflict : String) (pkgName : String) (satisfies : Bool)
    (st : String × MapStringSet) : String × MapStringSet :=
  if pkgName = st.1 then st
  else if satisfies then (annotate st.1 conflict, st.2.Add pkgName (annotate st.1 conflict))
  else st

/-- The function `checkReverseConflict(name, conflict, conflicts)`: the loop
over `dp.Aur`, then the loop over `dp.Repo`, both on the same variable `name`.
The argument `call` is the number of calls of the function made before this
one; the two loops run over the maps in the orders that the runtime draws for
this call. -/
def depPool.checkReverseConflict (env : Env) (dp : depPool) (call : Nat)
    (name conflict : String) (conflicts : MapStringSet) : MapStringSet :=
  let afterAur := (env.rangeAur call dp.Aur).val.foldl (fun st pkg =>
    reverseStep conflict pkg.Name (env.satisfiesAur conflict pkg) st) (name, conflicts)
  ((env.rangeRepo call dp.Repo).val.foldl (fun st pkg =>
    reverseStep conflict pkg.Name (env.satisfiesRepo conflict pkg) st) afterAur).2

/-- The function `checkForwardConflicts(conflicts)`. -/
def depPool.checkForwardConflicts (env : Env) (dp : depPool) (conflicts : MapStringSet) :
    MapStringSet :=
  let afterAur := dp.Aur.foldl (fun acc pkg =>
    pkg.Conflicts.foldl (fun acc2 conflict => dp.checkForwardConflict env pkg.Name conflict acc2)
      acc) conflicts
  dp.Repo.foldl (fun acc pkg =>
    pkg.Conflicts.foldl (fun acc2 conflict => dp.checkForwardConflict env pkg.Name conflict acc2)
      acc) afterAur

/-- The function `checkReverseConflicts(conflicts)`: the state of the two
loops is the number of calls of `checkReverseConflict` made so far, and the
map. -/
def depPool.checkReverseConflicts (env : Env) (dp : depPool) (conflicts : MapStringSet) :
    MapStringSet :=
  (dp.LocalDB.foldl (fun st pkg =>
    if dp.hasPackage pkg.Name = true then st
    else pkg.Conflicts.foldl (fun st2 conflict =>
      (st2.1 + 1, dp.checkReverseConflict env st2.1 pkg.Name conflict st2.2)) st)
    (0, conflicts)).2

/-- The flags of the global `config` that `CheckConflicts` and `providerMenu`
read. -/
structure Config where
  NoConfirm : Bool
  UseAsk : Bool

/-- The loop of lines 184-189: every key of the inner map and every member of
its sets is assigned a new empty set in the outer map. -/
def mergeInner (innerConflicts conflicts : MapStringSet) : MapStringSet :=
  innerConflicts.foldl (fun acc e =>
    e.2.foldl (fun acc2 pkg => mapSet acc2 pkg []) (mapSet acc e.1 [])) conflicts

/-- The map `innerConflicts` that the second task of `CheckConflicts` fills. -/
def depPool.innerConflicts (env : Env) (dp : depPool) : MapStringSet :=
  dp.checkInnerConflicts env []

/-- The map `conflicts` that the first task of `CheckConflicts` fills: the
forward pass, then the reverse pass. -/
def depPool.outerConflicts (env : Env) (dp : depPool) : MapStringSet :=
  dp.checkReverseConflicts env (dp.checkForwardConflicts env [])

/-- The map `conflicts` after the inner map has been folded into it. -/
def depPool.mergedConflicts (env : Env) (dp : depPool) : MapStringSet :=
  mergeInner (dp.innerConflicts env) (dp.outerConflicts env)

/-- The function `CheckConflicts`: the merged map, or the error when the map is
not empty, `UseAsk` is off and `NoConfirm` is on.  The two tasks write to two
maps of their own, so they are run one after the other here. -/
def depPool.CheckConflicts (env : Env) (cfg : Config) (dp : depPool) :
    Except String MapStringSet :=
  if (dp.mergedConflicts env).length > 0 ∧ cfg.UseAsk = false ∧ cfg.NoConfirm = true then
    .error "Package conflicts can not be resolved with noconfirm, aborting"
  else .ok (dp.mergedConflicts env)

/-- The name `n` followed by `j` annotations with the expression `c`. -/
def annotated (n c : String) : Nat → String
  | 0 => n
  | j + 1 => annotated n c j ++ (" (" ++ c ++ ")")

/-- The number of packages of the pool that satisfy the expression `c`. -/
def depPool.satisfierCount (env : Env) (dp : depPool) (c : String) : Nat :=
  (dp.Aur.filter (fun pkg => env.satisfiesAur c pkg)).length +
    (dp.Repo.filter (fun pkg => env.satisfiesRepo c pkg)).length

/-- The name `q` is the name of a package of the pool or of an installed package. -/
def depPool.knows (dp : depPool) (q : String) : Prop :=
  (∃ pkg ∈ dp.Aur, pkg.Name = q) ∨ (∃ pkg ∈ dp.Repo, pkg.Name = q) ∨
    (∃ pkg ∈ dp.LocalDB, pkg.Name = q)

/-- The entry `x → y` of a conflict map is about another package: `y` is the
name of a known package other than `x`, as such or followed by annotations. -/
def depPool.otherPackage (dp : depPool) (x y : String) : Prop :=
  ∃ q, dp.knows q ∧ q ≠ x ∧ ∃ c j, y = annotated q c j

instance (dp : depPool) (q : String) : Decidable (dp.knows q) := by
  unfold depPool.knows
  infer_instance

/-- The pool of the forward-conflict scenario: `a` conflicts with `libfoo`,
which the installed `bar` provides. -/
def forwardPool : depPool :=
  ⟨["a"], [⟨"a", "1", [], [], [], [], ["libfoo"]⟩], [], [⟨"bar", "1", ["libfoo"], [], []⟩]⟩

/-- The pool of the reverse-conflict scenario: the installed `x` conflicts with
`y`, which is in the pool. -/
def reversePool : depPool :=
  ⟨["y"], [srcPkg "y" []], [], [⟨"x", "1", [], [], ["y"]⟩]⟩

/-- The installed `x` conflicts with `y`; the pool packages `p1` and `p2` both
provide `y`. -/
def twoProvidersPool : depPool :=
  ⟨["p1", "p2"], [⟨"p1", "1", ["y"], [], [], [], []⟩, ⟨"p2", "1", ["y"], [], [], [], []⟩], [],
    [⟨"x", "1", [], [], ["y"]⟩]⟩

/-- The pool `twoProvidersPool` with its source packages listed in the other
order. -/
def twoProvidersPoolSwapped : depPool :=
  { twoProvidersPool with
    Aur := [⟨"p2", "1", ["y"], [], [], [], []⟩, ⟨"p1", "1", ["y"], [], [], [], []⟩] }

/-! ## `print.go`: the provider menu and the printed form of a package-base -/

/-- The fields of `rpc.Pkg` that `print.go` reads. -/
structure Pkg where
  Name : String
  PackageBase : String
  Version : String
deriving DecidableEq

/-- The type `Base`: the packages of one package-base, in order. -/
abbrev Base := List Pkg

/-- Go's `strconv.Atoi` on a 64-bit platform: an optional sign followed by one
or more decimal digits, whose value fits a 64-bit integer; `none` stands for
`err != nil`. -/
def Atoi (s : String) : Option Int :=
  let neg : Bool := s.data.head? = some '-'
  let digits := if s.data.head? = some '-' ∨ s.data.head? = some '+' then s.data.tail else s.data
  if digits = [] then none
  else if digits.all Char.isDigit then
    let v : Int := digits.foldl (fun n ch => n * 10 + ((ch.toNat - 48 : Nat) : Int)) 0
    let r : Int := if neg then -v else v
    if -9223372036854775808 ≤ r ∧ r ≤ 9223372036854775807 then some r else none
  else none

/-- What one call of `reader.ReadLine()` returns. -/
structure ReadLine where
  numberBuf : String
  overflow : Bool
  err : Bool

/-- What `providerMenu` comes to: a package, `nil`, or the run-time panic of an
index out of range. -/
inductive Selection where
  | pkg (p : Pkg)
  | nil
  | indexOutOfRange
deriving DecidableEq

/-- The expression `providers.Pkgs[i]`. -/
def indexPkgs (pkgs : List Pkg) (i : Nat) : Selection :=
  match pkgs[i]? with
  | some p => .pkg p
  | none => .indexOutOfRange

/-- The variable `size` when the loop of lines 545-548 is over: it starts at 1
and is incremented once for every provider. -/
def menuSize (pkgs : List Pkg) : Int :=
  pkgs.foldl (fun size _ => size + 1) 1

/-- The loop of `providerMenu` (lines 551-589) over the results of the
successive calls of `ReadLine`; a read past the end of the list fails.  The
result comes with the reads that were not made. -/
def providerMenu (atoi : String → Option Int) (cfg : Config) (pkgs : List Pkg) :
    List ReadLine → Selection × List ReadLine
  | [] => if cfg.NoConfirm then (indexPkgs pkgs 0, []) else (.nil, [])
  | r :: rest =>
    if cfg.NoConfirm then (indexPkgs pkgs 0, r :: rest)
    else if r.err then (.nil, rest)
    else if r.overflow then providerMenu atoi cfg pkgs rest
    else if r.numberBuf = "" then (indexPkgs pkgs 0, rest)
    else
      match atoi r.numberBuf with
      | none => providerMenu atoi cfg pkgs rest
      | some num =>
        if num < 1 ∨ num > menuSize pkgs then providerMenu atoi cfg pkgs rest
        else (indexPkgs pkgs (num - 1).toNat, rest)

/-- A line that the loop of `providerMenu` rejects before it prompts again: it
was too long, or it is not empty and is not a number, or its number is below 1
or above `size`. -/
def rejectedLine (atoi : String → Option Int) (pkgs : List Pkg) (r : ReadLine) : Prop :=
  r.err = false ∧ (r.overflow = true ∨ (r.numberBuf ≠ "" ∧ (atoi r.numberBuf = none ∨
    ∃ num, atoi r.numberBuf = some num ∧ (num < 1 ∨ num > menuSize pkgs))))

/-- The expression `str2[:len(str2)-1]`, which cuts the last byte off: it is
applied to a string whose last byte is the space that the loop appended last. -/
def dropLastByte (s : String) : String :=
  ⟨s.data.dropLast⟩

/-- The method `Base.String`; `none` stands for the panic of `base[0]` on an
empty base. -/
def Base.String (base : Base) : Option String :=
  match base with
  | [] => none
  | pkg :: _ =>
    let str := pkg.PackageBase
    if base.length > 1 ∨ pkg.PackageBase ≠ pkg.Name then
      let str2 := base.foldl (fun str2 split => str2 ++ (split.Name ++ " ")) " ("
      some (str ++ (dropLastByte str2 ++ ")"))
    else some str

/-! ## `print.go`: the build plan of `depOrder.Print` -/

/-- The struct `depOrder`: the chosen source package-bases, the chosen binary
packages, and the set `Runtime`. -/
structure depOrder where
  Aur : List Base
  Repo : List RepoPkg
  Runtime : List String

/-- The call `do.Runtime.Get(name)`. -/
def depOrder.inRuntime (ord : depOrder) (name : String) : Bool :=
  decide (name ∈ ord.Runtime)

/-- The local variables of `Print`: the text and the count of each of the four
buckets. -/
structure Buckets where
  repo : String
  repoMake : String
  aur : String
  aurMake : String
  repoLen : Int
  repoMakeLen : Int
  aurLen : Int
  aurMakeLen : Int

/-- The body of the loop over `do.Repo` (lines 189-197). -/
def depOrder.repoStep (ord : depOrder) (b : Buckets) (pkg : RepoPkg) : Buckets :=
  if ord.inRuntime pkg.Name then
    { b with repo := b.repo ++ ("  " ++ pkg.Name ++ "-" ++ pkg.Version), repoLen := b.repoLen + 1 }
  else
    { b with repoMake := b.repoMake ++ ("  " ++ pkg.Name ++ "-" ++ pkg.Version),
             repoMakeLen := b.repoMakeLen + 1 }

/-- The variables that the loop over the packages of one base updates. -/
structure SplitState where
  pkgStr : String
  pkgStrMake : String
  aurLen : Int
  aurMakeLen : Int
  push : Bool
  pushMake : Bool

/-- The body of the loop over the packages of a base (lines 212-222). -/
def depOrder.splitStep (ord : depOrder) (s : SplitState) (split : Pkg) : SplitState :=
  if ord.inRuntime split.Name then
    { s with pkgStr := s.pkgStr ++ (split.Name ++ " "), aurLen := s.aurLen + 1, push := true }
  else
    { s with pkgStrMake := s.pkgStrMake ++ (split.Name ++ " "), aurMakeLen := s.aurMakeLen + 1,
             pushMake := true }

/-- The body of the loop over `do.Aur` (lines 199-240); `none` stands for the
panic of `base[0]` on an empty base. -/
def depOrder.baseStep (ord : depOrder) (b : Buckets) (base : Base) : Option Buckets :=
  match base with
  | [] => none
  | first :: _ =>
    let pkg := first.PackageBase
    let pkgStr := "  " ++ pkg ++ "-" ++ first.Version
    if base.length > 1 ∨ pkg ≠ first.Name then
      let s := base.foldl ord.splitStep
        ⟨pkgStr ++ " (", pkgStr ++ " (", b.aurLen, b.aurMakeLen, false, false⟩
      some { b with
        aur := if s.push then b.aur ++ (dropLastByte s.pkgStr ++ ")") else b.aur,
        aurMake := if s.pushMake then b.aurMake ++ (dropLastByte s.pkgStrMake ++ ")")
          else b.aurMake,
        aurLen := s.aurLen,
        aurMakeLen := s.aurMakeLen }
    else if ord.inRuntime first.Name then
      some { b with aur := b.aur ++ pkgStr, aurLen := b.aurLen + 1 }
    else
      some { b with aurMake := b.aurMake ++ pkgStr, aurMakeLen := b.aurMakeLen + 1 }

/-- The loop over `do.Aur`. -/
def depOrder.aurLoop (ord : depOrder) : List Base → Buckets → Option Buckets
  | [], b => some b
  | base :: rest, b =>
    match ord.baseStep b base with
    | none => none
    | some b1 => ord.aurLoop rest b1

/-- The four buckets when the two loops of `Print` are over. -/
def depOrder.buckets (ord : depOrder) : Option Buckets :=
  ord.aurLoop ord.Aur (ord.Repo.foldl ord.repoStep ⟨"", "", "", "", 0, 0, 0, 0⟩)

/-- The text styles of the package `generic` that `printDownloads` uses. -/
structure Style where
  Bold : String → String
  Blue : String → String
  Cyan : String → String

/-- The function `printDownloads`: the line it prints, `none` when it prints
nothing; `strconv.Itoa` is the decimal form of the count. -/
def printDownloads (style : Style) (repoName : String) (length : Int) (packages : String) :
    Option String :=
  if length < 1 then none
  else some (style.Bold (style.Blue ("[" ++ repoName ++ ": " ++ toString length ++ "]")) ++
    style.Cyan packages)

/-- The method `depOrder.Print`: the lines it prints, in order. -/
def depOrder.Print (style : Style) (ord : depOrder) : Option (List String) :=
  ord.buckets.map fun b =>
    [printDownloads style "Repo" b.repoLen b.repo,
      printDownloads style "Repo Make" b.repoMakeLen b.repoMake,
      printDownloads style "Aur" b.aurLen b.aur,
      printDownloads style "Aur Make" b.aurMakeLen b.aurMake].filterMap id

/-- The entry of a binary package in its bucket. -/
def repoEntry (pkg : RepoPkg) : String :=
  "  " ++ pkg.Name ++ "-" ++ pkg.Version

/-- The entry that a package-base is to contribute to the bucket that keeps the
names selected by `keep`: nothing when none of its names is kept; otherwise the
base and its version, followed for a split base by the kept names, in the order
of the base, separated by single spaces and put in parentheses. -/
def bucketEntry (keep : String → Bool) (base : Base) : String :=
  match base with
  | [] => ""
  | first :: _ =>
    if (base.map Pkg.Name).filter keep = [] then ""
    else if base.length > 1 ∨ first.PackageBase ≠ first.Name then
      "  " ++ first.PackageBase ++ "-" ++ first.Version ++
        (" (" ++ " ".intercalate ((base.map Pkg.Name).filter keep) ++ ")")
    else "  " ++ first.PackageBase ++ "-" ++ first.Version

/-- The concatenation of the entries of a bucket. -/
def concatEntries : List String → String
  | [] => ""
  | e :: rest => e ++ concatEntries rest

/-- A plan with a split base that straddles the two buckets, a base of one
package of its own name, and two binary packages. -/
def straddlePlan : depOrder :=
  ⟨[[⟨"foo", "base", "1"⟩, ⟨"bar", "base", "1"⟩, ⟨"baz", "base", "1"⟩], [⟨"solo", "solo", "2"⟩]],
    [binPkg "glibc" [], binPkg "cmake" []], ["foo", "baz", "glibc"]⟩

/-- Styles that leave the text as it is. -/
def plainStyle : Style :=
  ⟨id, id, id⟩

/-! ## The function and the relation agree -/

theorem eachDep_append (env : Env) (dp : depPool)
    (visit : String → Slice → missing → Option missing) (name : String) (stack : Slice)
    (xs ys : List String) (m : missing) :
    eachDep env dp visit name stack (xs ++ ys) m =
      (eachDep env dp visit name stack xs m).bind (eachDep env dp visit name stack ys) := by
  induction xs generalizing m with
  | nil => simp [eachDep]
  | cons d rest ih =>
    simp only [List.cons_append, eachDep]
    split
    · exact ih _
    · cases h : visit d (appendSlice env m.heap stack name).2
          { m with heap := (appendSlice env m.heap stack name).1 } with
      | none => simp
      | some m1 => simpa using ih m1

theorem eachDep_run (env : Env) (dp : depPool)
    (visit : String → Slice → missing → Option missing)
    (hv : ∀ d s m m1, visit d s m = some m1 → Run env dp (.visit d s) m m1)
    (name : String) (stack : Slice) (ds : List String) (m m1 : missing)
    (h : eachDep env dp visit name stack ds m = some m1) :
    Run env dp (.loop name stack ds) m m1 := by
  induction ds generalizing m with
  | nil =>
    simp only [eachDep, Option.some.injEq] at h
    subst h
    exact Run.done
  | cons d rest ih =>
    simp only [eachDep] at h
    split at h
    · rename_i hl
      exact Run.skip hl (ih _ h)
    · rename_i hl
      cases hc : visit d (appendSlice env m.heap stack name).2
          { m with heap := (appendSlice env m.heap stack name).1 } with
      | none => simp [hc] at h
      | some m2 =>
        simp only [hc] at h
        exact Run.step (by simpa using hl) (hv _ _ _ _ hc) (ih _ h)

theorem checkMissing_run (env : Env) (dp : depPool) (fuel : Nat) (dep : String) (stack : Slice)
    (m m1 : missing) (h : _checkMissing env dp fuel dep stack m = some m1) :
    Run env dp (.visit dep stack) m m1 := by
  induction fuel generalizing dep stack m m1 with
  | zero => simp [_checkMissing] at h
  | succ fuel ih =>
    simp only [_checkMissing] at h
    split at h
    · rename_i hg
      simp only [Option.some.injEq] at h
      subst h
      exact Run.good hg
    · rename_i hg
      split at h
      · rename_i trees ht
        split at h
        · rename_i ha
          simp only [Option.some.injEq] at h
          subst h
          exact Run.seen hg ht ha
        · rename_i ha
          simp only [Option.some.injEq] at h
          subst h
          exact Run.again hg ht (by simpa using ha)
      · rename_i ht
        split at h
        · rename_i p hp
          have h2 : eachDep env dp (_checkMissing env dp fuel) p.Name stack p.declared
              (m.setGood dep) = some m1 := by
            rw [AurPkg.declared, eachDep_append, eachDep_append, Option.bind_assoc]
            exact h
          exact Run.aur hg ht hp (eachDep_run env dp _ ih _ _ _ _ _ h2)
        · rename_i hp
          split at h
          · rename_i q hq
            exact Run.repo hg ht hp hq (eachDep_run env dp _ ih _ _ _ _ _ h)
          · rename_i hq
            simp only [Option.some.injEq] at h
            subst h
            exact Run.leaf hg ht hp hq

/-! ## Maps and sets -/

theorem mapGet_eq_none_iff {β : Type} (m : List (String × β)) (k : String) :
    mapGet m k = none ↔ k ∉ mapKeys m := by
  induction m with
  | nil => simp [mapGet, mapKeys]
  | cons e rest ih =>
    obtain ⟨a, b⟩ := e
    simp only [mapGet, mapKeys, List.map_cons, List.mem_cons, not_or]
    by_cases h : a = k
    · simp [h]
    · simp only [h, if_false]
      rw [ih]
      simp only [mapKeys]
      constructor
      · intro h1
        exact ⟨fun h2 => h h2.symm, h1⟩
      · intro h1
        exact h1.2

theorem mapGet_some_mem_keys {β : Type} (m : List (String × β)) (k : String) (v : β)
    (h : mapGet m k = some v) : k ∈ mapKeys m := by
  by_contra hk
  rw [← mapGet_eq_none_iff] at hk
  rw [hk] at h
  cases h

theorem mem_mapKeys_mapSet {β : Type} (m : List (String × β)) (k : String) (v : β) (x : String) :
    x ∈ mapKeys (mapSet m k v) ↔ x = k ∨ x ∈ mapKeys m := by
  simp only [mapKeys, mapSet, List.map_cons, List.mem_cons, List.mem_map, List.mem_filter,
    Bool.not_eq_true', decide_eq_false_iff_not, Prod.exists, exists_and_right, exists_eq_right]
  constructor
  · rintro (h | ⟨⟨b, hb⟩, _⟩)
    · exact Or.inl h
    · exact Or.inr ⟨b, hb⟩
  · rintro (h | ⟨b, hb⟩)
    · exact Or.inl h
    · by_cases hx : x = k
      · exact Or.inl hx
      · exact Or.inr ⟨⟨b, hb⟩, hx⟩

theorem mapGet_filter_ne {β : Type} (m : List (String × β)) (k x : String) (h : x ≠ k) :
    mapGet (m.filter (fun e => !decide (e.1 = k))) x = mapGet m x := by
  induction m with
  | nil => simp [mapGet]
  | cons e rest ih =>
    obtain ⟨a, b⟩ := e
    by_cases ha : a = k
    · have hax : ¬ k = x := fun h2 => h h2.symm
      subst ha
      simp only [List.filter_cons, decide_True, Bool.not_true, Bool.false_eq_true, if_false,
        mapGet, hax, ih]
    · by_cases hx : a = x
      · subst hx
        simp [List.filter_cons, ha, mapGet]
      · simp only [List.filter_cons, ha, decide_False, Bool.not_false, if_true, mapGet, hx,
          if_false, ih]

theorem mapGet_mapSet {β : Type} (m : List (String × β)) (k : String) (v : β) (x : String) :
    mapGet (mapSet m k v) x = if k = x then some v else mapGet m x := by
  by_cases h : k = x
  · simp [mapSet, mapGet, h]
  · simp only [mapSet, mapGet, h, if_false]
    exact mapGet_filter_ne m k x (fun h2 => h h2.symm)

theorem mem_setGood (m : missing) (d x : String) :
    x ∈ (m.setGood d).Good ↔ x = d ∨ x ∈ m.Good := by
  unfold missing.setGood
  by_cases h : d ∈ m.Good
  · simp only [h, if_true]
    constructor
    · exact Or.inr
    · rintro (h1 | h1)
      · exact h1 ▸ h
      · exact h1
  · simp [h]

@[simp] theorem setGood_Missing (m : missing) (d : String) : (m.setGood d).Missing = m.Missing := rfl

@[simp] theorem setGood_heap (m : missing) (d : String) : (m.setGood d).heap = m.heap := rfl

theorem findSatisfierAur_mem {env : Env} {dp : depPool} {e : String} {p : AurPkg}
    (h : dp.findSatisfierAur env e = some p) : p ∈ dp.Aur ∧ env.satisfiesAur e p = true := by
  unfold depPool.findSatisfierAur at h
  exact ⟨List.mem_of_find?_eq_some h, by simpa using List.find?_some h⟩

theorem findSatisfierRepo_mem {env : Env} {dp : depPool} {e : String} {p : RepoPkg}
    (h : dp.findSatisfierRepo env e = some p) : p ∈ dp.Repo ∧ env.satisfiesRepo e p = true := by
  unfold depPool.findSatisfierRepo at h
  exact ⟨List.mem_of_find?_eq_some h, by simpa using List.find?_some h⟩

theorem no_pool_satisfier {env : Env} {dp : depPool} {e : String}
    (ha : dp.findSatisfierAur env e = none) (hr : dp.findSatisfierRepo env e = none) :
    ¬ dp.hasPoolSatisfier env e := by
  unfold depPool.findSatisfierAur at ha
  unfold depPool.findSatisfierRepo at hr
  rw [List.find?_eq_none] at ha hr
  rintro (⟨p, hp, hs⟩ | ⟨p, hp, hs⟩)
  · exact ha p hp hs
  · exact hr p hp hs

theorem localFindSatisfier_isSome {env : Env} {dp : depPool} {e : String}
    (h : (dp.localFindSatisfier env e).isSome = true) : dp.hasLocalSatisfier env e := by
  unfold depPool.localFindSatisfier at h
  rw [List.find?_isSome] at h
  exact h

theorem aur_declared_subset {dp : depPool} {p : AurPkg} (hp : p ∈ dp.Aur) :
    ∀ d ∈ p.declared, d ∈ dp.declared := by
  intro d hd
  unfold depPool.declared
  exact List.mem_append_left _ (List.mem_flatten.mpr ⟨p.declared, List.mem_map.mpr ⟨p, hp, rfl⟩, hd⟩)

theorem repo_declared_subset {dp : depPool} {p : RepoPkg} (hp : p ∈ dp.Repo) :
    ∀ d ∈ p.Depends, d ∈ dp.declared := by
  intro d hd
  unfold depPool.declared
  exact List.mem_append_right _ (List.mem_flatten.mpr ⟨p.Depends, List.mem_map.mpr ⟨p, hp, rfl⟩, hd⟩)

/-! ## Monotonicity of the memo tables -/

theorem run_mono {env : Env} {dp : depPool} {job : Job} {m m1 : missing}
    (h : Run env dp job m m1) :
    (∀ x ∈ m.Good, x ∈ m1.Good) ∧ (∀ x ∈ mapKeys m.Missing, x ∈ mapKeys m1.Missing) := by
  induction h with
  | good _ => exact ⟨fun _ h => h, fun _ h => h⟩
  | seen _ _ _ => exact ⟨fun _ h => h, fun _ h => h⟩
  | again _ _ _ =>
    exact ⟨fun _ h => h, fun x hx => (mem_mapKeys_mapSet _ _ _ _).mpr (Or.inr hx)⟩
  | aur _ _ _ _ ih =>
    exact ⟨fun x hx => ih.1 x ((mem_setGood _ _ _).mpr (Or.inr hx)), fun x hx => ih.2 x hx⟩
  | repo _ _ _ _ _ ih =>
    exact ⟨fun x hx => ih.1 x ((mem_setGood _ _ _).mpr (Or.inr hx)), fun x hx => ih.2 x hx⟩
  | leaf _ _ _ _ =>
    exact ⟨fun _ h => h, fun x hx => (mem_mapKeys_mapSet _ _ _ _).mpr (Or.inr hx)⟩
  | done => exact ⟨fun _ h => h, fun _ h => h⟩
  | skip _ _ ih =>
    exact ⟨fun x hx => ih.1 x ((mem_setGood _ _ _).mpr (Or.inr hx)), fun x hx => ih.2 x hx⟩
  | step _ _ _ ih1 ih2 =>
    exact ⟨fun x hx => ih2.1 x (ih1.1 x hx), fun x hx => ih2.2 x (ih1.2 x hx)⟩

/-- After a call of `_checkMissing` its expression is Good or a key of Missing. -/
theorem run_visit_post {env : Env} {dp : depPool} {dep : String} {stack : Slice} {m m1 : missing}
    (h : Run env dp (.visit dep stack) m m1) :
    dep ∈ m1.Good ∨ dep ∈ mapKeys m1.Missing := by
  cases h with
  | good hg => exact Or.inl hg
  | seen _ ht _ => exact Or.inr (mapGet_some_mem_keys _ _ _ ht)
  | again _ _ _ => exact Or.inr ((mem_mapKeys_mapSet _ _ _ _).mpr (Or.inl rfl))
  | aur _ _ _ hl => exact Or.inl ((run_mono hl).1 _ ((mem_setGood _ _ _).mpr (Or.inl rfl)))
  | repo _ _ _ _ hl => exact Or.inl ((run_mono hl).1 _ ((mem_setGood _ _ _).mpr (Or.inl rfl)))
  | leaf _ _ _ _ => exact Or.inr ((mem_mapKeys_mapSet _ _ _ _).mpr (Or.inl rfl))

/-! ## Termination -/

/-- One level of `_checkMissing`, with the three loops over the lists of a source
package read as one loop over their concatenation. -/
theorem checkMissing_succ (env : Env) (dp : depPool) (fuel : Nat) (dep : String) (stack : Slice)
    (m : missing) :
    _checkMissing env dp (fuel + 1) dep stack m =
      if dep ∈ m.Good then some m
      else
        match mapGet m.Missing dep with
        | some trees =>
          if trees.any (fun tree => StringSliceEqual m.heap tree stack) then some m
          else some { m with Missing := mapSet m.Missing dep (trees ++ [stack]) }
        | none =>
          match dp.findSatisfierAur env dep with
          | some aurPkg =>
            eachDep env dp (_checkMissing env dp fuel) aurPkg.Name stack aurPkg.declared
              (m.setGood dep)
          | none =>
            match dp.findSatisfierRepo env dep with
            | some repoPkg =>
              eachDep env dp (_checkMissing env dp fuel) repoPkg.Name stack repoPkg.Depends
                (m.setGood dep)
            | none => some { m with Missing := mapSet m.Missing dep [stack] } := by
  simp only [_checkMissing]
  split
  · rfl
  · split
    · rfl
    · split
      · rw [AurPkg.declared, eachDep_append, eachDep_append, Option.bind_assoc]
      · rfl

theorem unvisited_le {U : List String} {m m1 : missing} (hg : ∀ x ∈ m.Good, x ∈ m1.Good)
    (hk : ∀ x ∈ mapKeys m.Missing, x ∈ mapKeys m1.Missing) : unvisited U m1 ≤ unvisited U m := by
  unfold unvisited
  apply Finset.card_le_card
  apply Finset.sdiff_subset_sdiff (Finset.Subset.refl _)
  intro x hx
  simp only [List.toFinset_append, Finset.mem_union, List.mem_toFinset] at hx ⊢
  rcases hx with hx | hx
  · exact Or.inl (hg x hx)
  · exact Or.inr (hk x hx)

theorem unvisited_setGood_lt {U : List String} {m : missing} {d : String} (hU : d ∈ U)
    (hg : d ∉ m.Good) (hk : mapGet m.Missing d = none) :
    unvisited U (m.setGood d) < unvisited U m := by
  unfold unvisited
  apply Finset.card_lt_card
  rw [Finset.ssubset_iff_of_subset]
  · refine ⟨d, ?_, ?_⟩
    · simp only [Finset.mem_sdiff, List.mem_toFinset, List.mem_append, not_or]
      exact ⟨hU, hg, (mapGet_eq_none_iff _ _).mp hk⟩
    · simp only [Finset.mem_sdiff, List.mem_toFinset, List.mem_append, not_and, not_not]
      intro _
      exact Or.inl ((mem_setGood _ _ _).mpr (Or.inl rfl))
  · apply Finset.sdiff_subset_sdiff (Finset.Subset.refl _)
    intro x hx
    simp only [List.toFinset_append, Finset.mem_union, List.mem_toFinset] at hx ⊢
    rcases hx with hx | hx
    · exact Or.inl ((mem_setGood _ _ _).mpr (Or.inr hx))
    · exact Or.inr hx

theorem unvisited_le_length (U : List String) (m : missing) : unvisited U m ≤ U.length := by
  unfold unvisited
  exact le_trans (Finset.card_le_card Finset.sdiff_subset) (List.toFinset_card_le U)

theorem eachDep_total (env : Env) (dp : depPool) (U : List String) (N : Nat)
    (visit : String → Slice → missing → Option missing)
    (hv : ∀ d s m, d ∈ U → unvisited U m < N →
      ∃ m1, visit d s m = some m1 ∧ Run env dp (.visit d s) m m1)
    (name : String) (stack : Slice) (ds : List String) (hds : ∀ d ∈ ds, d ∈ U) (m : missing)
    (hm : unvisited U m < N) :
    ∃ m1, eachDep env dp visit name stack ds m = some m1 := by
  induction ds generalizing m with
  | nil => exact ⟨m, rfl⟩
  | cons d rest ih =>
    have hrest : ∀ x ∈ rest, x ∈ U := fun x hx => hds x (List.mem_cons_of_mem _ hx)
    simp only [eachDep]
    split
    · apply ih hrest
      refine lt_of_le_of_lt (unvisited_le ?_ ?_) hm
      · exact fun x hx => (mem_setGood _ _ _).mpr (Or.inr hx)
      · exact fun x hx => hx
    · obtain ⟨m1, h1, hr⟩ := hv d (appendSlice env m.heap stack name).2
        { m with heap := (appendSlice env m.heap stack name).1 } (hds d (List.mem_cons_self _ _)) hm
      simp only [h1]
      apply ih hrest
      exact lt_of_le_of_lt (unvisited_le (run_mono hr).1 (run_mono hr).2) hm

theorem checkMissing_total (env : Env) (dp : depPool) (U : List String)
    (hU : ∀ x ∈ dp.declared, x ∈ U) (fuel : Nat) (dep : String) (stack : Slice) (m : missing)
    (hd : dep ∈ U) (hm : unvisited U m < fuel) :
    ∃ m1, _checkMissing env dp fuel dep stack m = some m1 := by
  induction fuel generalizing dep stack m with
  | zero => exact absurd hm (Nat.not_lt_zero _)
  | succ fuel ih =>
    have hv : ∀ d s m, d ∈ U → unvisited U m < fuel →
        ∃ m1, _checkMissing env dp fuel d s m = some m1 ∧ Run env dp (.visit d s) m m1 := by
      intro d s m0 hd0 hm0
      obtain ⟨m1, h1⟩ := ih d s m0 hd0 hm0
      exact ⟨m1, h1, checkMissing_run env dp fuel d s m0 m1 h1⟩
    rw [checkMissing_succ]
    split
    · exact ⟨_, rfl⟩
    · rename_i hg
      split
      · split
        · exact ⟨_, rfl⟩
        · exact ⟨_, rfl⟩
      · rename_i hk
        have hlt : unvisited U (m.setGood dep) < fuel :=
          Nat.lt_of_lt_of_le (unvisited_setGood_lt hd hg hk) (Nat.le_of_lt_succ hm)
        split
        · rename_i p hp
          exact eachDep_total env dp U fuel _ hv _ _ _
            (fun d h => hU d (aur_declared_subset (findSatisfierAur_mem hp).1 d h)) _ hlt
        · split
          · rename_i q hq
            exact eachDep_total env dp U fuel _ hv _ _ _
              (fun d h => hU d (repo_declared_subset (findSatisfierRepo_mem hq).1 d h)) _ hlt
          · exact ⟨_, rfl⟩

/-- With `walkFuel` levels or more every call of `_checkMissing` returns. -/
theorem checkMissing_returns (env : Env) (dp : depPool) (k : Nat) (dep : String) (stack : Slice)
    (m : missing) : ∃ m1, _checkMissing env dp (walkFuel dp + k) dep stack m = some m1 := by
  apply checkMissing_total env dp (dep :: dp.declared)
    (fun x hx => List.mem_cons_of_mem _ hx) _ _ _ _ (List.mem_cons_self _ _)
  have := unvisited_le_length (dep :: dp.declared) m
  simp only [List.length_cons] at this
  unfold walkFuel
  omega

theorem walkTargets_returns (env : Env) (dp : depPool) (k : Nat) (ts : List String) (m : missing) :
    ∃ m1, walkTargets env dp (walkFuel dp + k) ts m = some m1 := by
  induction ts generalizing m with
  | nil => exact ⟨m, rfl⟩
  | cons t rest ih =>
    obtain ⟨m1, h1⟩ := checkMissing_returns env dp k t emptySlice m
    simp only [walkTargets, h1]
    exact ih m1

/-! ## More fuel does not change the result -/

theorem eachDep_mono (env : Env) (dp : depPool)
    (visit1 visit2 : String → Slice → missing → Option missing)
    (hv : ∀ d s m m1, visit1 d s m = some m1 → visit2 d s m = some m1)
    (name : String) (stack : Slice) (ds : List String) (m m1 : missing)
    (h : eachDep env dp visit1 name stack ds m = some m1) :
    eachDep env dp visit2 name stack ds m = some m1 := by
  induction ds generalizing m with
  | nil => exact h
  | cons d rest ih =>
    simp only [eachDep] at h ⊢
    by_cases hl : (dp.localFindSatisfier env d).isSome = true
    · simp only [hl, if_true] at h ⊢
      exact ih _ h
    · simp only [hl, if_false] at h ⊢
      cases hc : visit1 d (appendSlice env m.heap stack name).2
          { m with heap := (appendSlice env m.heap stack name).1 } with
      | none => simp [hc] at h
      | some m2 =>
        simp only [hc] at h
        simp only [hv _ _ _ _ hc]
        exact ih _ h

theorem checkMissing_fuel_succ (env : Env) (dp : depPool) (fuel : Nat) (dep : String)
    (stack : Slice) (m m1 : missing) (h : _checkMissing env dp fuel dep stack m = some m1) :
    _checkMissing env dp (fuel + 1) dep stack m = some m1 := by
  induction fuel generalizing dep stack m m1 with
  | zero => simp [_checkMissing] at h
  | succ fuel ih =>
    rw [checkMissing_succ] at h ⊢
    by_cases hg : dep ∈ m.Good
    · simp only [hg, if_true] at h ⊢
      exact h
    · simp only [hg, if_false] at h ⊢
      cases ht : mapGet m.Missing dep with
      | some trees =>
        simp only [ht] at h ⊢
        exact h
      | none =>
        simp only [ht] at h ⊢
        cases hp : dp.findSatisfierAur env dep with
        | some p =>
          simp only [hp] at h ⊢
          exact eachDep_mono env dp _ _ ih _ _ _ _ _ h
        | none =>
          simp only [hp] at h ⊢
          cases hq : dp.findSatisfierRepo env dep with
          | some q =>
            simp only [hq] at h ⊢
            exact eachDep_mono env dp _ _ ih _ _ _ _ _ h
          | none =>
            simp only [hq] at h ⊢
            exact h

theorem checkMissing_fuel_le (env : Env) (dp : depPool) (f1 f2 : Nat) (hle : f1 ≤ f2)
    (dep : String) (stack : Slice) (m m1 : missing)
    (h : _checkMissing env dp f1 dep stack m = some m1) :
    _checkMissing env dp f2 dep stack m = some m1 := by
  induction hle with
  | refl => exact h
  | step _ ih => exact checkMissing_fuel_succ env dp _ dep stack m m1 ih

theorem walkTargets_fuel_le (env : Env) (dp : depPool) (f1 f2 : Nat) (hle : f1 ≤ f2)
    (ts : List String) (m m1 : missing) (h : walkTargets env dp f1 ts m = some m1) :
    walkTargets env dp f2 ts m = some m1 := by
  induction ts generalizing m with
  | nil => exact h
  | cons t rest ih =>
    simp only [walkTargets] at h ⊢
    cases hc : _checkMissing env dp f1 t emptySlice m with
    | none => simp [hc] at h
    | some m2 =>
      simp only [hc] at h
      simp only [checkMissing_fuel_le env dp f1 f2 hle t emptySlice m m2 hc]
      exact ih m2 h

/-- The state after the walk does not depend on the fuel, once the walk returns. -/
theorem checkMissingState_unique (env : Env) (dp : depPool) (f1 f2 : Nat) (m1 m2 : missing)
    (h1 : checkMissingState env dp f1 = some m1) (h2 : checkMissingState env dp f2 = some m2) :
    m1 = m2 := by
  unfold checkMissingState at h1 h2
  have h3 := walkTargets_fuel_le env dp f1 (max f1 f2) (le_max_left _ _) _ _ _ h1
  have h4 := walkTargets_fuel_le env dp f2 (max f1 f2) (le_max_right _ _) _ _ _ h2
  rw [h3] at h4
  exact Option.some.inj h4

/-! ## Soundness of the memo tables -/

theorem run_sound {env : Env} {dp : depPool} {job : Job} {m m1 : missing}
    (h : Run env dp job m m1) (hj : JobOK dp job)
    (hs : GoodSound env dp m ∧ KeysSound env dp m) :
    GoodSound env dp m1 ∧ KeysSound env dp m1 := by
  induction h with
  | good _ => exact hs
  | seen _ _ _ => exact hs
  | again _ ht _ =>
    refine ⟨hs.1, ?_⟩
    intro e he
    rcases (mem_mapKeys_mapSet _ _ _ _).mp he with h1 | h1
    · exact hs.2 e (h1 ▸ mapGet_some_mem_keys _ _ _ ht)
    · exact hs.2 e h1
  | aur _ _ hp _ ih =>
    apply ih (aur_declared_subset (findSatisfierAur_mem hp).1)
    refine ⟨?_, hs.2⟩
    intro e he
    rcases (mem_setGood _ _ _).mp he with h1 | h1
    · exact Or.inl (Or.inl ⟨_, (findSatisfierAur_mem hp).1, h1 ▸ (findSatisfierAur_mem hp).2⟩)
    · exact hs.1 e h1
  | repo _ _ _ hq _ ih =>
    apply ih (repo_declared_subset (findSatisfierRepo_mem hq).1)
    refine ⟨?_, hs.2⟩
    intro e he
    rcases (mem_setGood _ _ _).mp he with h1 | h1
    · exact Or.inl (Or.inr ⟨_, (findSatisfierRepo_mem hq).1, h1 ▸ (findSatisfierRepo_mem hq).2⟩)
    · exact hs.1 e h1
  | leaf _ _ hp hq =>
    refine ⟨hs.1, ?_⟩
    intro e he
    rcases (mem_mapKeys_mapSet _ _ _ _).mp he with h1 | h1
    · exact h1 ▸ ⟨no_pool_satisfier hp hq, hj⟩
    · exact hs.2 e h1
  | done => exact hs
  | skip hl _ ih =>
    apply ih (fun d hd => hj d (List.mem_cons_of_mem _ hd))
    refine ⟨?_, hs.2⟩
    intro e he
    rcases (mem_setGood _ _ _).mp he with h1 | h1
    · exact Or.inr (h1 ▸ ⟨hj _ (List.mem_cons_self _ _), localFindSatisfier_isSome hl⟩)
    · exact hs.1 e h1
  | step _ _ _ ih1 ih2 =>
    exact ih2 (fun d hd => hj d (List.mem_cons_of_mem _ hd))
      (ih1 (Or.inr (hj _ (List.mem_cons_self _ _))) hs)

/-- What the loop of `CheckMissing` keeps: a property that every call on a
target preserves holds at the end. -/
theorem walkTargets_keeps (env : Env) (dp : depPool) (fuel : Nat) (P : missing → Prop)
    (Q : String → Prop)
    (hstep : ∀ t m m1, Q t → P m → Run env dp (.visit t emptySlice) m m1 → P m1)
    (ts : List String) (hts : ∀ t ∈ ts, Q t) (m m1 : missing) (hm : P m)
    (h : walkTargets env dp fuel ts m = some m1) : P m1 := by
  induction ts generalizing m with
  | nil =>
    simp only [walkTargets, Option.some.injEq] at h
    exact h ▸ hm
  | cons t rest ih =>
    simp only [walkTargets] at h
    cases hc : _checkMissing env dp fuel t emptySlice m with
    | none => simp [hc] at h
    | some m2 =>
      simp only [hc] at h
      exact ih (fun x hx => hts x (List.mem_cons_of_mem _ hx)) m2
        (hstep t m m2 (hts t (List.mem_cons_self _ _)) hm (checkMissing_run _ _ _ _ _ _ _ hc)) h

theorem walkTargets_post (env : Env) (dp : depPool) (fuel : Nat) (ts : List String)
    (m m1 : missing) (h : walkTargets env dp fuel ts m = some m1) :
    ((∀ x ∈ m.Good, x ∈ m1.Good) ∧ (∀ x ∈ mapKeys m.Missing, x ∈ mapKeys m1.Missing)) ∧
      ∀ t ∈ ts, t ∈ m1.Good ∨ t ∈ mapKeys m1.Missing := by
  induction ts generalizing m with
  | nil =>
    simp only [walkTargets, Option.some.injEq] at h
    subst h
    exact ⟨⟨fun _ h => h, fun _ h => h⟩, fun t ht => absurd ht (List.not_mem_nil t)⟩
  | cons t rest ih =>
    simp only [walkTargets] at h
    cases hc : _checkMissing env dp fuel t emptySlice m with
    | none => simp [hc] at h
    | some m2 =>
      simp only [hc] at h
      have hr := checkMissing_run _ _ _ _ _ _ _ hc
      obtain ⟨⟨hg, hk⟩, hp⟩ := ih m2 h
      refine ⟨⟨fun x hx => hg x ((run_mono hr).1 x hx), fun x hx => hk x ((run_mono hr).2 x hx)⟩, ?_⟩
      intro x hx
      rcases List.mem_cons.mp hx with h1 | h1
      · subst h1
        rcases run_visit_post hr with h2 | h2
        · exact Or.inl (hg _ h2)
        · exact Or.inr (hk _ h2)
      · exact hp x h1

theorem walkTargets_sound (env : Env) (dp : depPool) (fuel : Nat) (m : missing)
    (h : checkMissingState env dp fuel = some m) :
    GoodSound env dp m ∧ KeysSound env dp m := by
  unfold checkMissingState at h
  refine walkTargets_keeps env dp fuel (fun m => GoodSound env dp m ∧ KeysSound env dp m)
    (fun t => t ∈ dp.Targets) ?_ dp.Targets (fun t ht => ht) _ m ?_ h
  · intro t m0 m1 ht hm hr
    exact run_sound hr (Or.inl ht) hm
  · constructor
    · intro e he
      cases he
    · intro e he
      simp [mapKeys] at he

/-! ## The walk returns -/

theorem checkMissing_memo (env : Env) (dp : depPool) (fuel : Nat) (dep : String) (stack : Slice)
    (m : missing) (h : dep ∈ m.Good ∨ dep ∈ mapKeys m.Missing) :
    ∃ m1, _checkMissing env dp (fuel + 1) dep stack m = some m1 ∧
      _checkMissing env dp 1 dep stack m = some m1 ∧ m1.Good = m.Good ∧
      ∀ x, x ∈ mapKeys m1.Missing ↔ x ∈ mapKeys m.Missing := by
  rw [checkMissing_succ, checkMissing_succ]
  by_cases hg : dep ∈ m.Good
  · simp only [hg, if_true]
    exact ⟨m, rfl, rfl, rfl, fun _ => Iff.rfl⟩
  · simp only [hg, if_false]
    have hk : dep ∈ mapKeys m.Missing := h.resolve_left hg
    cases ht : mapGet m.Missing dep with
    | none => exact absurd hk ((mapGet_eq_none_iff _ _).mp ht)
    | some trees =>
      simp only []
      split
      · exact ⟨m, rfl, rfl, rfl, fun _ => Iff.rfl⟩
      · refine ⟨_, rfl, rfl, rfl, fun x => ?_⟩
        rw [mem_mapKeys_mapSet]
        constructor
        · rintro (h1 | h1)
          · exact h1 ▸ hk
          · exact h1
        · exact Or.inr

/-- C5: for every pool, LocalDb and target list the walk terminates, cyclic
dependency graphs included.  With `walkFuel dp` levels of recursion or more,
every call of `_checkMissing` (from any state and stack) returns; a call on an
expression that is already Good or a key of Missing returns at once (one level
suffices) and leaves Good and the keys of Missing as they are; any other call
makes its expression a new member of Good or a new key of Missing; and the loop
of `CheckMissing` over the targets returns. -/
theorem checkMissing_terminates (env : Env) (dp : depPool) (k : Nat) :
    (∀ dep stack m, ∃ m1, _checkMissing env dp (walkFuel dp + k) dep stack m = some m1 ∧
      ((dep ∈ m.Good ∨ dep ∈ mapKeys m.Missing) →
        _checkMissing env dp 1 dep stack m = some m1 ∧ m1.Good = m.Good ∧
          ∀ x, x ∈ mapKeys m1.Missing ↔ x ∈ mapKeys m.Missing) ∧
      (dep ∉ m.Good → dep ∉ mapKeys m.Missing →
        dep ∈ m1.Good ∨ dep ∈ mapKeys m1.Missing)) ∧
    ∃ m, checkMissingState env dp (walkFuel dp + k) = some m := by
  refine ⟨?_, walkTargets_returns env dp k dp.Targets _⟩
  intro dep stack m
  obtain ⟨m1, h1⟩ := checkMissing_returns env dp k dep stack m
  refine ⟨m1, h1, ?_, ?_⟩
  · intro hmemo
    obtain ⟨m2, h2, h3, h4⟩ := checkMissing_memo env dp (dp.declared.length + 1 + k) dep stack m hmemo
    have heq : walkFuel dp + k = dp.declared.length + 1 + k + 1 := by
      unfold walkFuel
      omega
    rw [heq, h2] at h1
    cases h1
    exact ⟨h3, h4⟩
  · intro _ _
    exact run_visit_post (checkMissing_run _ _ _ _ _ _ _ h1)

/-- The walk of a cycle through a source package, a binary package and a make
dependency returns, with nothing missing. -/
theorem checkMissing_terminates_witness :
    (∃ m, checkMissingState nameEnv cycle3Pool (walkFuel cycle3Pool + 0) = some m) ∧
      checkMissingState nameEnv cycle3Pool (walkFuel cycle3Pool + 0) =
        some ⟨[["x"], ["x", "y"], ["x", "y", "z", ""]], ["z", "y", "x"], []⟩ :=
  ⟨(checkMissing_terminates nameEnv cycle3Pool 0).2, by rfl⟩

/-! ## Good, Missing and the satisfiers -/

/-- C1 (evaluation): on `overlapPool` the walk leaves the expression `bar` both
in Good and among the keys of Missing. -/
theorem good_missing_overlap :
    checkMissingState nameEnv overlapPool (walkFuel overlapPool) =
        some ⟨[], ["bar", "foo"], [("bar", [emptySlice])]⟩ ∧
      "bar" ∈ ["bar", "foo"] ∧
      "bar" ∈ mapKeys [("bar", [emptySlice])] := by
  refine ⟨by rfl, by decide, by decide⟩

/-- C2 (counterexample): the only target `vim` has no pool satisfier and is
installed; the walk does not mark it Good, records it under Missing with the
empty chain, and `CheckMissing` returns the error. -/
theorem installed_target_is_missing :
    ¬ installedTargetPool.hasPoolSatisfier nameEnv "vim" ∧
      installedTargetPool.hasLocalSatisfier nameEnv "vim" ∧
      checkMissingState nameEnv installedTargetPool (walkFuel installedTargetPool) =
        some ⟨[], [], [("vim", [emptySlice])]⟩ ∧
      CheckMissing nameEnv installedTargetPool (walkFuel installedTargetPool) = some true := by
  refine ⟨by decide, by decide, by rfl, by rfl⟩

/-- C2 (amended): a target without pool satisfier that no pool package declares
as a dependency is not marked Good and becomes a key of Missing, whether or not
it is installed, and `CheckMissing` returns the error. -/
theorem target_without_pool_satisfier (env : Env) (dp : depPool) (t : String)
    (ht : t ∈ dp.Targets) (hp : ¬ dp.hasPoolSatisfier env t) (hd : t ∉ dp.declared) (k : Nat) :
    ∃ m, checkMissingState env dp (walkFuel dp + k) = some m ∧
      t ∉ m.Good ∧ t ∈ mapKeys m.Missing ∧
      CheckMissing env dp (walkFuel dp + k) = some true := by
  obtain ⟨m, hm⟩ := walkTargets_returns env dp k dp.Targets ⟨[], [], []⟩
  have hs := walkTargets_sound env dp _ m hm
  have hpost := (walkTargets_post env dp _ _ _ _ hm).2 t ht
  have hng : t ∉ m.Good := by
    intro hg
    rcases hs.1 t hg with h1 | h1
    · exact hp h1
    · exact hd h1.1
  have hkey : t ∈ mapKeys m.Missing := hpost.resolve_left hng
  refine ⟨m, hm, hng, hkey, ?_⟩
  unfold CheckMissing
  rw [show checkMissingState env dp (walkFuel dp + k) = some m from hm]
  simp only [Option.map_some', Option.some.injEq, decide_eq_true_eq]
  intro h0
  have : m.Missing = [] := List.length_eq_zero.mp h0
  rw [this] at hkey
  simp [mapKeys] at hkey

/-- The amended C2 at an installed target that is not in the pool. -/
theorem target_without_pool_satisfier_witness :
    installedTargetPool.hasLocalSatisfier nameEnv "vim" ∧
      ∃ m, checkMissingState nameEnv installedTargetPool (walkFuel installedTargetPool + 0) =
          some m ∧
        "vim" ∉ m.Good ∧ "vim" ∈ mapKeys m.Missing ∧
        CheckMissing nameEnv installedTargetPool (walkFuel installedTargetPool + 0) = some true :=
  ⟨by decide,
    target_without_pool_satisfier nameEnv installedTargetPool "vim" (by decide) (by decide)
      (by decide) 0⟩

/-- C3 (counterexample): the target `foo` has a satisfier among the installed
packages, and it is not in Good after the walk. -/
theorem good_iff_satisfier_fails :
    ∃ m, checkMissingState nameEnv providedTargetPool (walkFuel providedTargetPool) = some m ∧
      ¬ ("foo" ∈ m.Good ↔
        (providedTargetPool.hasPoolSatisfier nameEnv "foo" ∨
          providedTargetPool.hasLocalSatisfier nameEnv "foo")) := by
  refine ⟨⟨[], [], [("foo", [emptySlice])]⟩, by rfl, ?_⟩
  decide

/-- C3 (amended): after the walk every Good expression has a satisfier in the
source pool, the binary pool or LocalDb, and every target that has a satisfier
in the source or binary pool is in Good. -/
theorem good_sound_and_targets (env : Env) (dp : depPool) (k : Nat) :
    ∃ m, checkMissingState env dp (walkFuel dp + k) = some m ∧
      (∀ e ∈ m.Good, dp.hasPoolSatisfier env e ∨ dp.hasLocalSatisfier env e) ∧
      (∀ t ∈ dp.Targets, dp.hasPoolSatisfier env t → t ∈ m.Good) := by
  obtain ⟨m, hm⟩ := walkTargets_returns env dp k dp.Targets ⟨[], [], []⟩
  have hs := walkTargets_sound env dp _ m hm
  refine ⟨m, hm, ?_, ?_⟩
  · intro e he
    rcases hs.1 e he with h1 | h1
    · exact Or.inl h1
    · exact Or.inr h1.2
  · intro t ht hp
    rcases (walkTargets_post env dp _ _ _ _ hm).2 t ht with h1 | h1
    · exact h1
    · exact absurd hp (hs.2 t h1).1

/-- C6 (evaluation): on `shadowPool` the expression `baz` is reachable and has
no satisfier anywhere, yet it is not a key of Missing and `CheckMissing`
returns no error; with the two targets in the other order it is reported. -/
theorem shadowed_target_not_expanded :
    Reachable nameEnv shadowPool "baz" ∧
      ¬ shadowPool.hasPoolSatisfier nameEnv "baz" ∧
      ¬ shadowPool.hasLocalSatisfier nameEnv "baz" ∧
      checkMissingState nameEnv shadowPool (walkFuel shadowPool) =
        some ⟨[], ["bar", "foo"], []⟩ ∧
      CheckMissing nameEnv shadowPool (walkFuel shadowPool) = some false ∧
      checkMissingState nameEnv shadowPoolSwapped (walkFuel shadowPoolSwapped) =
        some ⟨[["bar"]], ["foo", "bar"], [("baz", [⟨0, 1, 1⟩])]⟩ ∧
      CheckMissing nameEnv shadowPoolSwapped (walkFuel shadowPoolSwapped) = some true := by
  refine ⟨?_, by decide, by decide, by rfl, by rfl, by rfl, by rfl⟩
  exact Reachable.dep (e := "bar") (Reachable.target (by decide)) (by decide) (by decide)

/-- C7: when every target and every declared dependency expression has a
satisfier in the source or binary pool, the walk returns with Missing empty and
every target Good, and `CheckMissing` returns nil. -/
theorem all_resolvable (env : Env) (dp : depPool)
    (h : ∀ e, e ∈ dp.Targets ∨ e ∈ dp.declared → dp.hasPoolSatisfier env e) (k : Nat) :
    ∃ m, checkMissingState env dp (walkFuel dp + k) = some m ∧
      m.Missing = [] ∧ (∀ t ∈ dp.Targets, t ∈ m.Good) ∧
      CheckMissing env dp (walkFuel dp + k) = some false := by
  obtain ⟨m, hm⟩ := walkTargets_returns env dp k dp.Targets ⟨[], [], []⟩
  have hs := walkTargets_sound env dp _ m hm
  have hempty : m.Missing = [] := by
    cases hM : m.Missing with
    | nil => rfl
    | cons e rest =>
      have he : e.1 ∈ mapKeys m.Missing := by
        rw [hM]
        simp [mapKeys]
      exact absurd (h e.1 (hs.2 e.1 he).2) (hs.2 e.1 he).1
  refine ⟨m, hm, hempty, ?_, ?_⟩
  · intro t ht
    rcases (walkTargets_post env dp _ _ _ _ hm).2 t ht with h1 | h1
    · exact h1
    · rw [hempty] at h1
      simp [mapKeys] at h1
  · unfold CheckMissing
    rw [show checkMissingState env dp (walkFuel dp + k) = some m from hm]
    simp [hempty]

/-- C7 at the cycle `A → B → A` of two source packages. -/
theorem all_resolvable_witness :
    (∀ e, e ∈ cyclePool.Targets ∨ e ∈ cyclePool.declared →
        cyclePool.hasPoolSatisfier nameEnv e) ∧
      ∃ m, checkMissingState nameEnv cyclePool (walkFuel cyclePool + 0) = some m ∧
        m.Missing = [] ∧ (∀ t ∈ cyclePool.Targets, t ∈ m.Good) ∧
        CheckMissing nameEnv cyclePool (walkFuel cyclePool + 0) = some false :=
  have h : ∀ e, e ∈ cyclePool.Targets ∨ e ∈ cyclePool.declared →
      cyclePool.hasPoolSatisfier nameEnv e := by
    intro e he
    have he2 : e = "A" ∨ e = "B" := by
      simpa [cyclePool, depPool.declared, AurPkg.declared, srcPkg, or_comm] using he
    rcases he2 with h1 | h1 <;> subst h1 <;> decide
  ⟨h, all_resolvable nameEnv cyclePool h 0⟩

/-! ## Inner conflicts -/

theorem MapStringSet.has_Add (mss : MapStringSet) (n v p q : String) :
    (mss.Add n v).has p q ↔ mss.has p q ∨ (p = n ∧ q = v) := by
  unfold MapStringSet.Add MapStringSet.has
  cases h : mapGet mss n with
  | none =>
    simp only [mapGet_mapSet]
    by_cases hn : n = p
    · subst hn
      simp [h]
    · have hn2 : ¬ p = n := fun h2 => hn h2.symm
      simp [hn, hn2]
  | some set =>
    simp only [mapGet_mapSet]
    by_cases hn : n = p
    · subst hn
      simp only [if_true, Option.getD_some, h, true_and]
      by_cases hv : v ∈ set
      · simp only [hv, if_true]
        constructor
        · exact Or.inl
        · rintro (h1 | h1)
          · exact h1
          · exact h1 ▸ hv
      · simp only [hv, if_false, List.mem_cons]
        exact or_comm
    · have hn2 : ¬ p = n := fun h2 => hn h2.symm
      simp [hn, hn2]

theorem foldl_has_iff {α : Type} (f : MapStringSet → α → MapStringSet)
    (R : α → String → String → Prop)
    (hf : ∀ acc x p q, (f acc x).has p q ↔ acc.has p q ∨ R x p q)
    (l : List α) (acc : MapStringSet) (p q : String) :
    (l.foldl f acc).has p q ↔ acc.has p q ∨ ∃ x ∈ l, R x p q := by
  induction l generalizing acc with
  | nil => simp
  | cons x rest ih =>
    simp only [List.foldl_cons, ih, hf, List.mem_cons, exists_eq_or_imp, or_assoc]

theorem checkInnerConflict_has (env : Env) (dp : depPool) (name conflict : String)
    (conflicts : MapStringSet) (p q : String) :
    (dp.checkInnerConflict env name conflict conflicts).has p q ↔
      conflicts.has p q ∨ (p = name ∧ q ≠ name ∧ dp.satisfiedBy env conflict q) := by
  unfold depPool.checkInnerConflict
  simp only []
  rw [foldl_has_iff _ (fun pkg p q => p = name ∧ q ≠ name ∧ pkg.Name = q ∧
      env.satisfiesRepo conflict pkg = true),
    foldl_has_iff _ (fun pkg p q => p = name ∧ q ≠ name ∧ pkg.Name = q ∧
      env.satisfiesAur conflict pkg = true)]
  · unfold depPool.satisfiedBy
    constructor
    · rintro ((h | ⟨x, hx, h1, h2, h3⟩) | ⟨x, hx, h1, h2, h3⟩)
      · exact Or.inl h
      · exact Or.inr ⟨h1, h2, Or.inl ⟨x, hx, h3⟩⟩
      · exact Or.inr ⟨h1, h2, Or.inr ⟨x, hx, h3⟩⟩
    · rintro (h | ⟨h1, h2, ⟨x, hx, h3⟩ | ⟨x, hx, h3⟩⟩)
      · exact Or.inl (Or.inl h)
      · exact Or.inl (Or.inr ⟨x, hx, h1, h2, h3⟩)
      · exact Or.inr ⟨x, hx, h1, h2, h3⟩
  · intro acc x p q
    by_cases hx : x.Name = name
    · simp only [hx, if_true]
      constructor
      · exact Or.inl
      · rintro (h | ⟨_, h2, h3, _⟩)
        · exact h
        · exact absurd h3.symm h2
    · simp only [hx, if_false]
      by_cases hs : env.satisfiesAur conflict x = true
      · simp only [hs, if_true, MapStringSet.has_Add]
        constructor
        · rintro (h | ⟨h1, h2⟩)
          · exact Or.inl h
          · exact Or.inr ⟨h1, h2 ▸ hx, h2.symm, trivial⟩
        · rintro (h | ⟨h1, _, h3, _⟩)
          · exact Or.inl h
          · exact Or.inr ⟨h1, h3.symm⟩
      · simp only [hs, if_false]
        constructor
        · exact Or.inl
        · rintro (h | ⟨_, _, _, h4⟩)
          · exact h
          · exact absurd h4 (by simp)
  · intro acc x p q
    by_cases hx : x.Name = name
    · simp only [hx, if_true]
      constructor
      · exact Or.inl
      · rintro (h | ⟨_, h2, h3, _⟩)
        · exact h
        · exact absurd h3.symm h2
    · simp only [hx, if_false]
      by_cases hs : env.satisfiesRepo conflict x = true
      · simp only [hs, if_true, MapStringSet.has_Add]
        constructor
        · rintro (h | ⟨h1, h2⟩)
          · exact Or.inl h
          · exact Or.inr ⟨h1, h2 ▸ hx, h2.symm, trivial⟩
        · rintro (h | ⟨h1, _, h3, _⟩)
          · exact Or.inl h
          · exact Or.inr ⟨h1, h3.symm⟩
      · simp only [hs, if_false]
        constructor
        · exact Or.inl
        · rintro (h | ⟨_, _, _, h4⟩)
          · exact h
          · exact absurd h4 (by simp)

/-- C10: `checkInnerConflicts` on an empty map produces exactly the inner
conflicts: `q` is in the set under `p` if and only if the pool holds a package
named `p` that declares a conflict expression `c` and a package named `q`,
`q ≠ p`, that satisfies `c`. -/
theorem checkInnerConflicts_exact (env : Env) (dp : depPool) (p q : String) :
    (dp.checkInnerConflicts env []).has p q ↔
      ∃ c, dp.declaresConflict p c ∧ q ≠ p ∧ dp.satisfiedBy env c q := by
  unfold depPool.checkInnerConflicts
  simp only []
  rw [foldl_has_iff _ (fun (pkg : RepoPkg) p q => ∃ c ∈ pkg.Conflicts,
      p = pkg.Name ∧ q ≠ pkg.Name ∧ dp.satisfiedBy env c q),
    foldl_has_iff _ (fun (pkg : AurPkg) p q => ∃ c ∈ pkg.Conflicts,
      p = pkg.Name ∧ q ≠ pkg.Name ∧ dp.satisfiedBy env c q)]
  · unfold depPool.declaresConflict
    constructor
    · rintro ((h | ⟨x, hx, c, hc, h1, h2, h3⟩) | ⟨x, hx, c, hc, h1, h2, h3⟩)
      · simp [MapStringSet.has, mapGet] at h
      · exact ⟨c, Or.inl ⟨x, hx, h1.symm, hc⟩, h1 ▸ h2, h3⟩
      · exact ⟨c, Or.inr ⟨x, hx, h1.symm, hc⟩, h1 ▸ h2, h3⟩
    · rintro ⟨c, ⟨x, hx, h1, hc⟩ | ⟨x, hx, h1, hc⟩, h2, h3⟩
      · exact Or.inl (Or.inr ⟨x, hx, c, hc, h1.symm, h1 ▸ h2, h3⟩)
      · exact Or.inr ⟨x, hx, c, hc, h1.symm, h1 ▸ h2, h3⟩
  · intro acc x p q
    rw [foldl_has_iff _ (fun c p q => p = x.Name ∧ q ≠ x.Name ∧ dp.satisfiedBy env c q)]
    intro acc2 c p q
    exact checkInnerConflict_has env dp x.Name c acc2 p q
  · intro acc x p q
    rw [foldl_has_iff _ (fun c p q => p = x.Name ∧ q ≠ x.Name ∧ dp.satisfiedBy env c q)]
    intro acc2 c p q
    exact checkInnerConflict_has env dp x.Name c acc2 p q

/-- C10 on the pool of the inner-conflict scenario: `a` conflicts with `b`, and
the map computed from the empty map is `a → {b}`. -/
theorem checkInnerConflicts_exact_witness :
    (innerPool.checkInnerConflicts nameEnv []).has "a" "b" ∧
      ¬ (innerPool.checkInnerConflicts nameEnv []).has "b" "a" ∧
      innerPool.checkInnerConflicts nameEnv [] = [("a", ["b"])] :=
  ⟨(checkInnerConflicts_exact nameEnv innerPool "a" "b").mpr
      ⟨"b", by decide, by decide, by decide⟩,
    by decide, by rfl⟩

/-! ## Lists, heaps and `append` -/

theorem Linked_take (R : String → String → Prop) :
    ∀ (xs : List String) (K : Nat), Linked R xs → Linked R (xs.take K)
  | [], _, _ => by simp [Linked]
  | [_], 0, _ => by simp [Linked]
  | [_], _ + 1, _ => by simp [Linked]
  | _ :: _ :: _, 0, _ => by simp [Linked]
  | _ :: _ :: _, 1, _ => by simp [Linked]
  | _ :: y :: rest, K + 2, h => by
    have h2 := Linked_take R (y :: rest) (K + 1) h.2
    simp only [List.take_succ_cons] at h2 ⊢
    exact ⟨h.1, h2⟩

theorem Linked_snoc (R : String → String → Prop) (n : String) :
    ∀ (xs : List String), Linked R xs → (∀ x, xs.getLast? = some x → R x n) →
      Linked R (xs ++ [n])
  | [], _, _ => by simp [Linked]
  | [x], _, h2 => by
    simp only [List.singleton_append, Linked, and_true]
    exact h2 x rfl
  | x :: y :: rest, h, h2 => by
    have h3 := Linked_snoc R n (y :: rest) h.2 (fun z hz => h2 z (by
      rw [List.getLast?_cons_cons]
      exact hz))
    simp only [List.cons_append] at h3 ⊢
    exact ⟨h.1, h3⟩

theorem Linked_get (R : String → String → Prop) :
    ∀ (xs : List String) (i : Nat) (x y : String), Linked R xs → xs[i]? = some x →
      xs[i + 1]? = some y → R x y
  | [], _, _, _, _, h1, _ => by simp at h1
  | [_], _, _, _, _, _, h2 => by simp at h2
  | a :: b :: rest, 0, x, y, h, h1, h2 => by
    simp only [List.getElem?_cons_zero, Option.some.injEq, zero_add, List.getElem?_cons_succ]
      at h1 h2
    subst h1
    subst h2
    exact h.1
  | a :: b :: rest, i + 1, x, y, h, h1, h2 => by
    simp only [List.getElem?_cons_succ] at h1 h2
    exact Linked_get R (b :: rest) i x y h.2 h1 (by simpa using h2)

theorem take_set_of_le (l : List String) (a : String) (m n : Nat) (h : m ≤ n) :
    (l.set n a).take m = l.take m := by
  apply List.ext_getElem?
  intro i
  simp only [List.getElem?_take]
  split
  · rename_i hi
    exact List.getElem?_set_ne (by omega)
  · rfl

theorem heap_getD_set (h : Heap) (i j : Nat) (a : List String) :
    (h.set i a).getD j [] = if i = j ∧ i < h.length then a else h.getD j [] := by
  simp only [List.getD_eq_getElem?_getD, List.getElem?_set]
  by_cases hij : i = j
  · subst hij
    by_cases hl : i < h.length
    · simp [hl]
    · simp [hl, List.getElem?_eq_none (Nat.le_of_not_lt hl)]
  · simp [hij]

theorem readSlice_length (h : Heap) (s : Slice) (hb : s.backed h) :
    (readSlice h s).length = s.len := by
  unfold readSlice
  rw [List.length_take]
  rcases hb.2 with h0 | ⟨_, h2⟩
  · have := hb.1
    omega
  · have := hb.1
    omega

theorem Frame.refl (h : Heap) (s : Slice) : Frame h h s :=
  ⟨le_refl _, fun _ _ => rfl, fun _ _ _ => rfl, rfl⟩

/-- What `append(s, n)` does to the heap and which slice it returns. -/
theorem appendSlice_spec (env : Env) (h : Heap) (s : Slice) (n : String) (hb : s.backed h) :
    readSlice (appendSlice env h s n).1 (appendSlice env h s n).2 = readSlice h s ++ [n] ∧
      (appendSlice env h s n).2.backed (appendSlice env h s n).1 ∧
      (appendSlice env h s n).2.len = s.len + 1 ∧
      Frame h (appendSlice env h s n).1 s ∧
      ((s.len < s.cap ∧ (appendSlice env h s n).2.arr = s.arr ∧
          (appendSlice env h s n).2.cap = s.cap ∧
          (appendSlice env h s n).1.getD s.arr [] = (h.getD s.arr []).set s.len n ∧
          (appendSlice env h s n).1.length = h.length) ∨
        (¬ s.len < s.cap ∧ (appendSlice env h s n).2.arr = h.length ∧
          ∀ i, i < h.length → (appendSlice env h s n).1.getD i [] = h.getD i [])) := by
  by_cases hlt : s.len < s.cap
  · have harr : s.arr < h.length ∧ (h.getD s.arr []).length = s.cap := by
      rcases hb.2 with h0 | h1
      · omega
      · exact h1
    have hget : (h.set s.arr ((h.getD s.arr []).set s.len n)).getD s.arr [] =
        (h.getD s.arr []).set s.len n := by
      rw [heap_getD_set, if_pos ⟨rfl, harr.1⟩]
    have happ : appendSlice env h s n =
        (h.set s.arr ((h.getD s.arr []).set s.len n), { s with len := s.len + 1 }) := by
      unfold appendSlice
      rw [if_pos hlt]
    rw [happ]
    refine ⟨?_, ?_, rfl, ?_, Or.inl ⟨hlt, rfl, rfl, hget, List.length_set _ _ _⟩⟩
    · unfold readSlice
      simp only [hget]
      rw [List.take_succ, take_set_of_le _ _ _ _ (le_refl _),
        List.getElem?_set_self (by omega)]
      rfl
    · refine ⟨Nat.succ_le_of_lt hlt, Or.inr ⟨?_, ?_⟩⟩
      · simp only [List.length_set]
        exact harr.1
      · simp only [hget, List.length_set]
        exact harr.2
    · refine ⟨le_of_eq (List.length_set _ _ _).symm, ?_, ?_, ?_⟩
      · intro i _
        rw [heap_getD_set]
        split
        · rename_i hi
          rw [← hi.1, List.length_set]
        · rfl
      · intro i _ hne
        rw [heap_getD_set, if_neg (fun h2 => hne h2.1.symm)]
      · simp only [hget]
        exact take_set_of_le _ _ _ _ (le_refl _)
  · have hrl := readSlice_length h s hb
    have happ : appendSlice env h s n =
        (h ++ [readSlice h s ++ n ::
            List.replicate (max (s.len + 1) (env.growslice s.cap) - (s.len + 1)) ""],
          ⟨h.length, s.len + 1, max (s.len + 1) (env.growslice s.cap)⟩) := by
      unfold appendSlice
      rw [if_neg hlt]
    rw [happ]
    generalize hc : max (s.len + 1) (env.growslice s.cap) = c
    have hcge : s.len + 1 ≤ c := hc ▸ le_max_left _ _
    have hold : ∀ i, i < h.length →
        (h ++ [readSlice h s ++ n :: List.replicate (c - (s.len + 1)) ""]).getD i [] =
          h.getD i [] := fun i hi => List.getD_append _ _ _ _ hi
    have hnew : (h ++ [readSlice h s ++ n :: List.replicate (c - (s.len + 1)) ""]).getD
        h.length [] = readSlice h s ++ n :: List.replicate (c - (s.len + 1)) "" := by
      rw [List.getD_eq_getElem?_getD, List.getElem?_append_right (le_refl _)]
      simp
    refine ⟨?_, ?_, rfl, ?_, Or.inr ⟨hlt, rfl, hold⟩⟩
    · show ((h ++ [readSlice h s ++ n :: List.replicate (c - (s.len + 1)) ""]).getD
        h.length []).take (s.len + 1) = readSlice h s ++ [n]
      rw [hnew]
      have : readSlice h s ++ n :: List.replicate (c - (s.len + 1)) "" =
          (readSlice h s ++ [n]) ++ List.replicate (c - (s.len + 1)) "" := by simp
      rw [this]
      exact List.take_left' (by simp [hrl])
    · refine ⟨hcge, Or.inr ⟨by simp, ?_⟩⟩
      show ((h ++ [readSlice h s ++ n :: List.replicate (c - (s.len + 1)) ""]).getD
        h.length []).length = c
      rw [hnew]
      simp only [List.length_append, List.length_cons, List.length_replicate, hrl]
      omega
    · refine ⟨by simp, fun i hi => by rw [hold i hi], fun i hi _ => hold i hi, ?_⟩
      by_cases hs : s.arr < h.length
      · rw [hold _ hs]
      · have h0 : s.len = 0 := by
          have := hb.1
          rcases hb.2 with h0 | h1
          · omega
          · exact absurd h1.1 hs
        simp [h0]

/-! ## The chain invariant -/

theorem mapGet_some_mem {β : Type} (m : List (String × β)) (k : String) (v : β)
    (h : mapGet m k = some v) : (k, v) ∈ m := by
  induction m with
  | nil => simp [mapGet] at h
  | cons e rest ih =>
    obtain ⟨a, b⟩ := e
    simp only [mapGet] at h
    split at h
    · rename_i hak
      simp only [Option.some.injEq] at h
      subst hak
      subst h
      exact List.mem_cons_self _ _
    · exact List.mem_cons_of_mem _ (ih h)

theorem mem_mapSet {β : Type} (m : List (String × β)) (k : String) (v : β) (e : String × β)
    (h : e ∈ mapSet m k v) : e = (k, v) ∨ e ∈ m := by
  unfold mapSet at h
  rcases List.mem_cons.mp h with h1 | h1
  · exact Or.inl h1
  · exact Or.inr (List.mem_filter.mp h1).1

theorem stores_mapSet (m : missing) (k : String) (v : List Slice) (s : Slice)
    (h : ({ m with Missing := mapSet m.Missing k v } : missing).stores s) :
    s ∈ v ∨ m.stores s := by
  obtain ⟨e, trees, hmem, hs⟩ := h
  rcases mem_mapSet _ _ _ _ hmem with h1 | h1
  · simp only [Prod.mk.injEq] at h1
    exact Or.inl (h1.2 ▸ hs)
  · exact Or.inr ⟨e, trees, h1, hs⟩

theorem set_same (l : List String) (k : Nat) (a : String) (h : l[k]? = some a) :
    l.set k a = l := by
  apply List.ext_getElem?
  intro i
  rw [List.getElem?_set]
  split
  · rename_i hik
    subst hik
    split
    · exact h.symm
    · rename_i hl
      exact (List.getElem?_eq_none (Nat.le_of_not_lt hl)).symm
  · rfl

theorem path_take (env : Env) (dp : depPool) (xs : List String) (K : Nat)
    (h : dp.path env xs) : dp.path env (xs.take K) := by
  refine ⟨?_, Linked_take _ _ _ h.2⟩
  intro x hx
  rw [List.head?_take] at hx
  split at hx
  · cases hx
  · exact h.1 x hx

theorem path_snoc (env : Env) (dp : depPool) (xs : List String) (d n : String)
    (h : dp.path env xs) (hl : dp.leadsTo xs d) (hc : dp.chosenName env d = some n) :
    dp.path env (xs ++ [n]) := by
  constructor
  · intro x hx
    cases xs with
    | nil =>
      simp only [List.nil_append, List.head?_cons, Option.some.injEq] at hx
      subst hx
      exact ⟨d, hl, hc⟩
    | cons a rest =>
      exact h.1 x (by simpa using hx)
  · apply Linked_snoc _ _ _ h.2
    intro x hx
    unfold depPool.leadsTo at hl
    rw [hx] at hl
    exact ⟨d, hl, hc⟩

theorem chosenName_aur {env : Env} {dp : depPool} {d : String} {p : AurPkg}
    (h : dp.findSatisfierAur env d = some p) : dp.chosenName env d = some p.Name := by
  unfold depPool.chosenName
  rw [h]

theorem chosenName_repo {env : Env} {dp : depPool} {d : String} {p : RepoPkg}
    (ha : dp.findSatisfierAur env d = none) (h : dp.findSatisfierRepo env d = some p) :
    dp.chosenName env d = some p.Name := by
  unfold depPool.chosenName
  rw [ha, h]
  rfl

theorem readSlice_of_frame {h h1 : Heap} {s : Slice} (hf : Frame h h1 s) :
    readSlice h1 s = readSlice h s := hf.2.2.2

theorem Frame.trans {h h1 h2 : Heap} {s : Slice} (h01 : Frame h h1 s) (h12 : Frame h1 h2 s) :
    Frame h h2 s := by
  refine ⟨le_trans h01.1 h12.1, ?_, ?_, ?_⟩
  · intro i hi
    rw [h12.2.1 i (lt_of_lt_of_le hi h01.1), h01.2.1 i hi]
  · intro i hi hne
    rw [h12.2.2.1 i (lt_of_lt_of_le hi h01.1) hne, h01.2.2.1 i hi hne]
  · rw [h12.2.2.2, h01.2.2.2]

/-- The frame of a loop step: `append`, then the call on the returned slice. -/
theorem Frame.step {h h1 h2 : Heap} {s t : Slice} (hb : s.backed h) (h01 : Frame h h1 s)
    (h12 : Frame h1 h2 t) (hlen : s.len ≤ t.len)
    (harr : t.arr = s.arr ∨ t.arr = h.length) : Frame h h2 s := by
  refine ⟨le_trans h01.1 h12.1, ?_, ?_, ?_⟩
  · intro i hi
    rw [h12.2.1 i (lt_of_lt_of_le hi h01.1), h01.2.1 i hi]
  · intro i hi hne
    have hne2 : i ≠ t.arr := by
      rcases harr with h3 | h3
      · rw [h3]
        exact hne
      · rw [h3]
        exact Nat.ne_of_lt hi
    rw [h12.2.2.1 i (lt_of_lt_of_le hi h01.1) hne2, h01.2.2.1 i hi hne]
  · by_cases h0 : s.len = 0
    · simp [h0]
    · have hs : s.arr < h.length := by
        have := hb.1
        rcases hb.2 with h3 | h3
        · omega
        · exact h3.1
      rw [← h01.2.2.2]
      by_cases hst : t.arr = s.arr
      · have h4 := h12.2.2.2
        rw [hst] at h4
        have h5 := congrArg (List.take s.len) h4
        simp only [List.take_take, min_eq_left hlen] at h5
        exact h5
      · have h3 : t.arr = h.length := harr.resolve_left hst
        rw [h12.2.2.1 s.arr (lt_of_lt_of_le hs h01.1) (fun h6 => hst h6.symm)]

/-- The chains keep their first `K` names when `append` writes for a loop. -/
theorem chainInv_append (K : Nat) (ok : Slice → Prop) (env : Env) (dp : depPool)
    (hspare : ∀ s, ok s → s.len + 1 < s.cap → K ≤ s.len + 1)
    (m : missing) (stack : Slice) (name : String)
    (hinv : ChainInv K env dp m) (hbk : stack.backed m.heap) (hok : ok stack)
    (hun : Unshared K m stack (some name)) :
    ChainInv K env dp { m with heap := (appendSlice env m.heap stack name).1 } ∧
      Unshared K { m with heap := (appendSlice env m.heap stack name).1 }
        (appendSlice env m.heap stack name).2 none := by
  obtain ⟨_, _, hlenT, hframe, hcase⟩ := appendSlice_spec env m.heap stack name hbk
  constructor
  · intro s hs
    have hs0 : m.stores s := hs
    obtain ⟨hp, hbound⟩ := hinv s hs0
    refine ⟨?_, ?_⟩
    · have heq : (readSlice (appendSlice env m.heap stack name).1 s).take K =
          (readSlice m.heap s).take K := by
        rcases hbound with h0 | hlt
        · simp [readSlice, h0]
        · rcases hcase with ⟨hsp, _, _, hset, _⟩ | ⟨_, _, hold⟩
          · by_cases hsa : s.arr = stack.arr
            · unfold readSlice
              rw [hsa, hset]
              by_cases hle : s.len ≤ stack.len
              · rw [take_set_of_le _ _ _ _ hle]
              · by_cases hK : K ≤ stack.len
                · rw [List.take_take, List.take_take,
                    take_set_of_le _ _ _ _ (le_trans (min_le_left _ _) hK)]
                · rcases hun hsp (Nat.lt_of_not_le hK) with h1 | ⟨n, hn, hcell⟩
                  · exact absurd (h1 s hs0 hsa) hle
                  · simp only [Option.some.injEq] at hn
                    subst hn
                    rw [set_same _ _ _ hcell]
            · unfold readSlice
              rw [hframe.2.2.1 s.arr hlt hsa]
          · unfold readSlice
            rw [hold s.arr hlt]
      show dp.path env ((readSlice (appendSlice env m.heap stack name).1 s).take K)
      rw [heq]
      exact hp
    · rcases hbound with h0 | hlt
      · exact Or.inl h0
      · exact Or.inr (lt_of_lt_of_le hlt hframe.1)
  · intro hcapT hKT
    left
    intro t ht harr
    have ht0 : m.stores t := ht
    rcases hcase with ⟨_, _, hcap, _, _⟩ | ⟨_, hnew, _⟩
    · rw [hcap, hlenT] at hcapT
      have := hspare stack hok hcapT
      omega
    · rcases (hinv t ht0).2 with h0 | hlt
      · omega
      · rw [harr, hnew] at hlt
        exact absurd hlt (lt_irrefl _)

theorem chainInv_record (K : Nat) (env : Env) (dp : depPool) (m : missing) (dep : String)
    (stack : Slice) (trees : List Slice) (hinv : ChainInv K env dp m)
    (hbk : stack.backed m.heap) (hpath : dp.path env (readSlice m.heap stack))
    (htrees : ∀ s ∈ trees, m.stores s) :
    ChainInv K env dp { m with Missing := mapSet m.Missing dep (trees ++ [stack]) } := by
  intro s hs
  rcases stores_mapSet _ _ _ _ hs with h1 | h1
  · rcases List.mem_append.mp h1 with h2 | h2
    · exact hinv s (htrees s h2)
    · have hst : s = stack := by simpa using h2
      subst hst
      refine ⟨path_take _ _ _ _ hpath, ?_⟩
      have := hbk.1
      rcases hbk.2 with h3 | h3
      · exact Or.inl (by omega)
      · exact Or.inr h3.1
  · exact hinv s h1

/-- The chain invariant along a run: the invariant holds again after the job,
and the job leaves the cells of its stack as they were. -/
theorem run_chain (K : Nat) (ok : Slice → Prop) (env : Env) (dp : depPool)
    (hgrow : ∀ h s n, ok s → ok (appendSlice env h s n).2)
    (hspare : ∀ s, ok s → s.len + 1 < s.cap → K ≤ s.len + 1)
    {job : Job} {m m1 : missing} (h : Run env dp job m m1)
    (hpre : ChainPre K ok env dp job m) :
    ChainInv K env dp m1 ∧ Frame m.heap m1.heap job.stack := by
  induction h with
  | good _ => exact ⟨hpre.1, Frame.refl _ _⟩
  | seen _ _ _ => exact ⟨hpre.1, Frame.refl _ _⟩
  | @again dep stack m trees _ ht _ =>
    obtain ⟨hinv, hbk, _, hpath, _, _⟩ := hpre
    refine ⟨chainInv_record K env dp m dep stack trees hinv hbk hpath ?_, Frame.refl _ _⟩
    intro s hs
    exact ⟨dep, trees, mapGet_some_mem _ _ _ ht, hs⟩
  | @aur dep stack m p m1 _ _ hp _ ih =>
    obtain ⟨hinv, hbk, hok, hpath, hlead, hun⟩ := hpre
    apply ih
    refine ⟨hinv, hbk, hok, path_snoc env dp _ dep _ hpath hlead (chosenName_aur hp), ?_, ?_⟩
    · intro d hd
      exact Or.inl ⟨p, (findSatisfierAur_mem hp).1, rfl, hd⟩
    · intro h1 h2
      rcases hun h1 h2 with h3 | ⟨n, hn, _⟩
      · exact Or.inl h3
      · cases hn
  | @repo dep stack m p m1 _ _ hp hq _ ih =>
    obtain ⟨hinv, hbk, hok, hpath, hlead, hun⟩ := hpre
    apply ih
    refine ⟨hinv, hbk, hok, path_snoc env dp _ dep _ hpath hlead (chosenName_repo hp hq), ?_, ?_⟩
    · intro d hd
      exact Or.inr ⟨p, (findSatisfierRepo_mem hq).1, rfl, hd⟩
    · intro h1 h2
      rcases hun h1 h2 with h3 | ⟨n, hn, _⟩
      · exact Or.inl h3
      · cases hn
  | @leaf dep stack m _ _ _ _ =>
    obtain ⟨hinv, hbk, _, hpath, _, _⟩ := hpre
    refine ⟨chainInv_record K env dp m dep stack [] hinv hbk hpath ?_, Frame.refl _ _⟩
    intro s hs
    cases hs
  | done => exact ⟨hpre.1, Frame.refl _ _⟩
  | skip _ _ ih =>
    obtain ⟨hinv, hbk, hok, hpath, hdecl, hun⟩ := hpre
    exact ih ⟨hinv, hbk, hok, hpath, fun d hd => hdecl d (List.mem_cons_of_mem _ hd), hun⟩
  | @step name stack d rest m m1 m2 _ _ _ ih1 ih2 =>
    obtain ⟨hinv, hbk, hok, hpath, hdecl, hun⟩ := hpre
    obtain ⟨hread, hbkT, hlenT, hframe, hcase⟩ := appendSlice_spec env m.heap stack name hbk
    obtain ⟨hinvT, hunT⟩ := chainInv_append K ok env dp hspare m stack name hinv hbk hok hun
    have hpreT : ChainPre K ok env dp (.visit d (appendSlice env m.heap stack name).2)
        { m with heap := (appendSlice env m.heap stack name).1 } := by
      refine ⟨hinvT, hbkT, hgrow _ _ _ hok, ?_, ?_, hunT⟩
      · show dp.path env (readSlice (appendSlice env m.heap stack name).1
          (appendSlice env m.heap stack name).2)
        rw [hread]
        exact hpath
      · show dp.leadsTo (readSlice (appendSlice env m.heap stack name).1
          (appendSlice env m.heap stack name).2) d
        rw [hread]
        unfold depPool.leadsTo
        rw [List.getLast?_concat]
        exact hdecl d (List.mem_cons_self _ _)
    obtain ⟨hinv1, hframe1⟩ := ih1 hpreT
    have hframe1b : Frame (appendSlice env m.heap stack name).1 m1.heap
        (appendSlice env m.heap stack name).2 := hframe1
    have harrT : (appendSlice env m.heap stack name).2.arr = stack.arr ∨
        (appendSlice env m.heap stack name).2.arr = m.heap.length := by
      rcases hcase with ⟨_, h1, _⟩ | ⟨_, h1, _⟩
      · exact Or.inl h1
      · exact Or.inr h1
    have hframe01 : Frame m.heap m1.heap stack :=
      Frame.step hbk hframe hframe1b (by omega) harrT
    have hbk1 : stack.backed m1.heap := by
      refine ⟨hbk.1, ?_⟩
      rcases hbk.2 with h0 | ⟨h1, h2⟩
      · exact Or.inl h0
      · exact Or.inr ⟨lt_of_lt_of_le h1 hframe01.1, by rw [hframe01.2.1 _ h1, h2]⟩
    have hpre1 : ChainPre K ok env dp (.loop name stack rest) m1 := by
      refine ⟨hinv1, hbk1, hok, ?_, fun x hx => hdecl x (List.mem_cons_of_mem _ hx), ?_⟩
      · rw [readSlice_of_frame hframe01]
        exact hpath
      · intro hsp _
        right
        refine ⟨name, rfl, ?_⟩
        rcases hcase with ⟨_, harr, _, hset, _⟩ | ⟨hno, _, _⟩
        · have h4 := hframe1b.2.2.2
          rw [harr, hlenT] at h4
          have h5 := congrArg (fun l => l[stack.len]?) h4
          simp only [List.getElem?_take_of_lt (Nat.lt_succ_self _)] at h5
          rw [h5, hset]
          apply List.getElem?_set_self
          rcases hbk.2 with h0 | ⟨_, h2⟩
          · omega
          · omega
        · exact absurd hsp hno
    obtain ⟨hinv2, hframe2⟩ := ih2 hpre1
    exact ⟨hinv2, Frame.trans hframe01 hframe2⟩

theorem walkTargets_chain (K : Nat) (ok : Slice → Prop) (env : Env) (dp : depPool)
    (hempty : ok emptySlice)
    (hgrow : ∀ h s n, ok s → ok (appendSlice env h s n).2)
    (hspare : ∀ s, ok s → s.len + 1 < s.cap → K ≤ s.len + 1)
    (fuel : Nat) (m : missing) (h : checkMissingState env dp fuel = some m) :
    ChainInv K env dp m := by
  unfold checkMissingState at h
  refine walkTargets_keeps env dp fuel (ChainInv K env dp) (fun t => t ∈ dp.Targets) ?_
    dp.Targets (fun t ht => ht) _ m ?_ h
  · intro t m0 m1 ht hinv hr
    refine (run_chain K ok env dp hgrow hspare hr ⟨hinv, ?_, hempty, ?_, ?_, ?_⟩).1
    · exact ⟨le_refl _, Or.inl rfl⟩
    · exact ⟨fun x hx => by simp [readSlice, emptySlice] at hx, by simp [readSlice, emptySlice, Linked]⟩
    · show dp.leadsTo (readSlice m0.heap emptySlice) t
      simp only [readSlice, emptySlice, List.take_zero, depPool.leadsTo, List.getLast?_nil]
      exact ht
    · intro h1
      exact absurd h1 (lt_irrefl _)
  · intro s hs
    obtain ⟨e, trees, hmem, _⟩ := hs
    cases hmem

theorem chains_stored (m : missing) (e : String) (chain : List String)
    (h : chain ∈ m.chains e) : ∃ s, m.stores s ∧ chain = readSlice m.heap s := by
  unfold missing.chains at h
  obtain ⟨s, hs, hsc⟩ := List.mem_map.mp h
  cases hg : mapGet m.Missing e with
  | none =>
    rw [hg] at hs
    cases hs
  | some trees =>
    rw [hg] at hs
    exact ⟨s, ⟨e, trees, mapGet_some_mem _ _ _ hg, hs⟩, hsc.symm⟩

theorem gcShape_empty : gcShape emptySlice := by
  refine ⟨fun _ => rfl, ?_, ?_, ?_, ?_⟩ <;> intro h <;> simp [emptySlice] at h

theorem gcShape_append (env : Env)
    (hg : env.growslice 0 = 1 ∧ env.growslice 1 = 2 ∧ env.growslice 2 = 4)
    (h : Heap) (s : Slice) (n : String) (hs : gcShape s) :
    gcShape (appendSlice env h s n).2 := by
  obtain ⟨h0, h1, h2, h3, h4⟩ := hs
  obtain ⟨g0, g1, g2⟩ := hg
  unfold appendSlice
  split
  · rename_i hlt
    refine ⟨?_, ?_, ?_, ?_, ?_⟩ <;> intro hl <;> simp only at hl ⊢ <;> omega
  · rename_i hlt
    refine ⟨?_, ?_, ?_, ?_, ?_⟩ <;> intro hl <;> simp only at hl ⊢
    · omega
    · have : s.cap = 0 := h0 (by omega)
      rw [this, g0]
      omega
    · have : s.cap = 1 := h1 (by omega)
      rw [this, g1]
      omega
    · have : s.cap = 2 := h2 (by omega)
      rw [this, g2]
      omega
    · have : s.cap = 4 := h3 (by omega)
      omega

theorem gcShape_spare (s : Slice) (hs : gcShape s) (h : s.len + 1 < s.cap) : 6 ≤ s.len + 1 := by
  obtain ⟨h0, h1, h2, h3, h4⟩ := hs
  by_contra hc
  have h5 : s.len = 0 ∨ s.len = 1 ∨ s.len = 2 ∨ s.len = 3 ∨ s.len = 4 := by omega
  rcases h5 with h5 | h5 | h5 | h5 | h5
  · have := h0 h5
    omega
  · have := h1 h5
    omega
  · have := h2 h5
    omega
  · have := h3 h5
    omega
  · have := h4 h5
    omega

/-! ## The chains of the report -/

/-- C4 (counterexample): in `repeatPool` the expression `A2` is satisfied by
the package `A` again, and the chain kept for the missing `X` names `A` twice. -/
theorem chain_repeats_name :
    ∃ m, checkMissingState nameEnv repeatPool (walkFuel repeatPool) = some m ∧
      m.chains "X" = [["A", "B", "A"], ["A"]] ∧ ¬ (["A", "B", "A"] : List String).Nodup := by
  refine ⟨⟨[["A"], ["A", "B"], ["A", "B", "A", ""], ["A", "B", "A", ""], ["A"]],
    ["A2", "B", "A"], [("X", [⟨3, 3, 4⟩, ⟨4, 1, 1⟩])]⟩, by rfl, by rfl, by decide⟩

/-- C4 (amended): with the capacities 1, 2 and 4 that the Go runtime gives to
slices of one, two and three elements, in every chain kept under `Missing[e]`
every two neighbours among the first six names are joined by a dependency edge:
the package named by the first declares a dependency expression whose chosen
pool satisfier is the package named by the second.  (A chain may name a package
more than once.) -/
theorem chain_edges (env : Env) (dp : depPool)
    (hg : env.growslice 0 = 1 ∧ env.growslice 1 = 2 ∧ env.growslice 2 = 4) (k : Nat) :
    ∃ m, checkMissingState env dp (walkFuel dp + k) = some m ∧
      ∀ e chain, chain ∈ m.chains e → ∀ i x y, i + 1 < 6 →
        chain[i]? = some x → chain[i + 1]? = some y → dp.edge env x y := by
  obtain ⟨m, hm⟩ := walkTargets_returns env dp k dp.Targets ⟨[], [], []⟩
  refine ⟨m, hm, ?_⟩
  have hinv := walkTargets_chain 6 gcShape env dp gcShape_empty
    (gcShape_append env hg) gcShape_spare _ m hm
  intro e chain hc i x y hi hx hy
  obtain ⟨s, hs, hread⟩ := chains_stored m e chain hc
  have hp := (hinv s hs).1
  rw [← hread] at hp
  apply Linked_get _ _ i x y hp.2
  · rw [List.getElem?_take_of_lt (by omega)]
    exact hx
  · rw [List.getElem?_take_of_lt hi]
    exact hy

/-- The amended C4 on `deepPool`, under the doubling capacities of `nameEnv`. -/
theorem chain_edges_witness :
    (nameEnv.growslice 0 = 1 ∧ nameEnv.growslice 1 = 2 ∧ nameEnv.growslice 2 = 4) ∧
      ∃ m, checkMissingState nameEnv deepPool (walkFuel deepPool + 0) = some m ∧
        ∀ e chain, chain ∈ m.chains e → ∀ i x y, i + 1 < 6 →
          chain[i]? = some x → chain[i + 1]? = some y → deepPool.edge nameEnv x y :=
  ⟨by decide, chain_edges nameEnv deepPool (by decide) 0⟩

/-- C8 (evaluation): on `deepPool` the chain reported for the missing `x` ends
with `r`, a package that does not declare `x` and was never on the path to it
(only `q` declares `x`): the cell that held `q` was overwritten in place when
the loop went on to `r`. -/
theorem chain_overwritten_in_place :
    ∃ m, checkMissingState nameEnv deepPool (walkFuel deepPool) = some m ∧
      m.chains "x" = [["a1", "a2", "a3", "a4", "a5", "a6", "r"]] ∧
      m.chains "y" = [["a1", "a2", "a3", "a4", "a5", "a6", "r"]] ∧
      (∀ p ∈ deepPool.Aur, "x" ∈ p.declared → p.Name = "q") ∧
      ¬ deepPool.declaredBy "r" "x" := by
  refine ⟨⟨[["a1"], ["a1", "a2"], ["a1", "a2", "a3", "a4"],
      ["a1", "a2", "a3", "a4", "a5", "a6", "r", ""]],
    ["r", "q", "a6", "a5", "a4", "a3", "a2", "a1"],
    [("y", [⟨3, 7, 8⟩]), ("x", [⟨3, 7, 8⟩])]⟩, by rfl, by rfl, by rfl, by decide, by decide⟩

/-- C9 (counterexample): in `leafPool` the chain kept for the missing `baz` is
`foo, bar`; its last name `bar` is not the satisfier of a target (the target is
`foo`, which is the first name). -/
theorem chain_ends_at_parent :
    ∃ m, checkMissingState nameEnv leafPool (walkFuel leafPool) = some m ∧
      m.chains "baz" = [["foo", "bar"]] ∧
      (["foo", "bar"] : List String).getLast? = some "bar" ∧
      ¬ leafPool.satisfiesTarget nameEnv "bar" ∧
      (∀ t ∈ leafPool.Targets, ∀ p ∈ leafPool.Aur, p.Name = "bar" →
        nameEnv.satisfiesAur t p = false) := by
  refine ⟨⟨[["foo"], ["foo", "bar"]], ["bar", "foo"], [("baz", [⟨1, 2, 2⟩])]⟩,
    by rfl, by rfl, by rfl, by decide, by decide⟩

/-- C9 (amended): every non-empty chain kept in Missing starts at the target:
its first name is the name of the pool package chosen for one of the target
expressions. -/
theorem chain_starts_at_target (env : Env) (dp : depPool) (k : Nat) :
    ∃ m, checkMissingState env dp (walkFuel dp + k) = some m ∧
      ∀ e chain, chain ∈ m.chains e → ∀ x, chain.head? = some x →
        dp.satisfiesTarget env x := by
  obtain ⟨m, hm⟩ := walkTargets_returns env dp k dp.Targets ⟨[], [], []⟩
  refine ⟨m, hm, ?_⟩
  have hinv := walkTargets_chain 1 (fun _ => True) env dp trivial (fun _ _ _ _ => trivial)
    (fun s _ _ => by omega) _ m hm
  intro e chain hc x hx
  obtain ⟨s, hs, hread⟩ := chains_stored m e chain hc
  have hp := (hinv s hs).1
  rw [← hread] at hp
  apply hp.1 x
  rw [List.head?_take]
  simpa using hx

/-! ## The forward pass -/

theorem checkForwardConflict_has (env : Env) (dp : depPool) (name conflict : String)
    (conflicts : MapStringSet) (p v : String) :
    (dp.checkForwardConflict env name conflict conflicts).has p v ↔
      conflicts.has p v ∨ (p = name ∧ ∃ pkg ∈ dp.LocalDB, pkg.Name ≠ name ∧
        dp.hasPackage pkg.Name = false ∧ env.satisfiesRepo conflict pkg = true ∧
        v = annotate pkg.Name conflict) := by
  unfold depPool.checkForwardConflict
  rw [foldl_has_iff _ (fun (pkg : RepoPkg) p v => p = name ∧ pkg.Name ≠ name ∧
      dp.hasPackage pkg.Name = false ∧ env.satisfiesRepo conflict pkg = true ∧
      v = annotate pkg.Name conflict)]
  · constructor
    · rintro (h | ⟨x, hx, h1, h2⟩)
      · exact Or.inl h
      · exact Or.inr ⟨h1, x, hx, h2⟩
    · rintro (h | ⟨h1, x, hx, h2⟩)
      · exact Or.inl h
      · exact Or.inr ⟨x, hx, h1, h2⟩
  · intro acc x p v
    by_cases hskip : x.Name = name ∨ dp.hasPackage x.Name = true
    · simp only [hskip, if_true]
      constructor
      · exact Or.inl
      · rintro (h | ⟨_, h2, h3, _⟩)
        · exact h
        · rcases hskip with h4 | h4
          · exact absurd h4 h2
          · rw [h3] at h4
            cases h4
    · simp only [hskip, if_false]
      have hne : x.Name ≠ name := fun h => hskip (Or.inl h)
      have hno : dp.hasPackage x.Name = false := by
        cases hh : dp.hasPackage x.Name with
        | false => rfl
        | true => exact absurd (Or.inr hh) hskip
      by_cases hs : env.satisfiesRepo conflict x = true
      · simp only [hs, if_true, MapStringSet.has_Add]
        constructor
        · rintro (h | ⟨h1, h2⟩)
          · exact Or.inl h
          · exact Or.inr ⟨h1, hne, hno, trivial, h2⟩
        · rintro (h | ⟨h1, _, _, _, h5⟩)
          · exact Or.inl h
          · exact Or.inr ⟨h1, h5⟩
      · simp only [hs, if_false]
        constructor
        · exact Or.inl
        · rintro (h | ⟨_, _, _, h4, _⟩)
          · exact h
          · exact absurd h4 (by simp)

theorem checkForwardConflicts_has (env : Env) (dp : depPool) (conflicts : MapStringSet)
    (p v : String) :
    (dp.checkForwardConflicts env conflicts).has p v ↔
      conflicts.has p v ∨ ∃ c, dp.declaresConflict p c ∧ ∃ pkg ∈ dp.LocalDB, pkg.Name ≠ p ∧
        dp.hasPackage pkg.Name = false ∧ env.satisfiesRepo c pkg = true ∧
        v = annotate pkg.Name c := by
  unfold depPool.checkForwardConflicts
  simp only []
  rw [foldl_has_iff _ (fun (x : RepoPkg) p v => ∃ c ∈ x.Conflicts,
      p = x.Name ∧ ∃ pkg ∈ dp.LocalDB, pkg.Name ≠ x.Name ∧
        dp.hasPackage pkg.Name = false ∧ env.satisfiesRepo c pkg = true ∧
        v = annotate pkg.Name c),
    foldl_has_iff _ (fun (x : AurPkg) p v => ∃ c ∈ x.Conflicts,
      p = x.Name ∧ ∃ pkg ∈ dp.LocalDB, pkg.Name ≠ x.Name ∧
        dp.hasPackage pkg.Name = false ∧ env.satisfiesRepo c pkg = true ∧
        v = annotate pkg.Name c)]
  · unfold depPool.declaresConflict
    constructor
    · rintro ((h | ⟨x, hx, c, hc, h1, h2⟩) | ⟨x, hx, c, hc, h1, h2⟩)
      · exact Or.inl h
      · exact Or.inr ⟨c, Or.inl ⟨x, hx, h1.symm, hc⟩, h1 ▸ h2⟩
      · exact Or.inr ⟨c, Or.inr ⟨x, hx, h1.symm, hc⟩, h1 ▸ h2⟩
    · rintro (h | ⟨c, ⟨x, hx, h1, hc⟩ | ⟨x, hx, h1, hc⟩, h2⟩)
      · exact Or.inl (Or.inl h)
      · exact Or.inl (Or.inr ⟨x, hx, c, hc, h1.symm, h1 ▸ h2⟩)
      · exact Or.inr ⟨x, hx, c, hc, h1.symm, h1 ▸ h2⟩
  · intro acc x p v
    rw [foldl_has_iff _ (fun c p v => p = x.Name ∧ ∃ pkg ∈ dp.LocalDB, pkg.Name ≠ x.Name ∧
        dp.hasPackage pkg.Name = false ∧ env.satisfiesRepo c pkg = true ∧
        v = annotate pkg.Name c)]
    intro acc2 c p v
    exact checkForwardConflict_has env dp x.Name c acc2 p v
  · intro acc x p v
    rw [foldl_has_iff _ (fun c p v => p = x.Name ∧ ∃ pkg ∈ dp.LocalDB, pkg.Name ≠ x.Name ∧
        dp.hasPackage pkg.Name = false ∧ env.satisfiesRepo c pkg = true ∧
        v = annotate pkg.Name c)]
    intro acc2 c p v
    exact checkForwardConflict_has env dp x.Name c acc2 p v

theorem has_nil (p v : String) : ¬ MapStringSet.has [] p v := by
  simp [MapStringSet.has, mapGet]

/-- C11: `checkForwardConflicts` on an empty map records exactly the forward
conflicts: the value `v` is in the set under `p` if and only if a pool package
named `p` declares a conflict expression `c` and an installed package `pkg`
with `pkg.Name ≠ p` and `hasPackage(pkg.Name)` false satisfies `c`, and `v` is
`pkg.Name` when `pkg.Name = c` and `pkg.Name (c)` otherwise. -/
theorem checkForwardConflicts_exact (env : Env) (dp : depPool) (p v : String) :
    (dp.checkForwardConflicts env []).has p v ↔
      ∃ c, dp.declaresConflict p c ∧ ∃ pkg ∈ dp.LocalDB, pkg.Name ≠ p ∧
        dp.hasPackage pkg.Name = false ∧ env.satisfiesRepo c pkg = true ∧
        v = (if pkg.Name = c then pkg.Name else pkg.Name ++ " (" ++ c ++ ")") := by
  rw [checkForwardConflicts_has]
  have hann : ∀ (n c : String),
      annotate n c = (if n = c then n else n ++ " (" ++ c ++ ")") := by
    intro n c
    unfold annotate
    by_cases h : n = c
    · simp [h]
    · simp [h, String.append_assoc]
  constructor
  · rintro (h | ⟨c, hc, pkg, hp, h1, h2, h3, h4⟩)
    · exact absurd h (has_nil p v)
    · exact ⟨c, hc, pkg, hp, h1, h2, h3, by rw [h4, hann]⟩
  · rintro ⟨c, hc, pkg, hp, h1, h2, h3, h4⟩
    exact Or.inr ⟨c, hc, pkg, hp, h1, h2, h3, by rw [h4, hann]⟩

/-- C11 on the pool of the forward-conflict scenario: `a` conflicts with
`libfoo`, the installed `bar` provides it, and the map is `a → {bar (libfoo)}`. -/
theorem checkForwardConflicts_exact_witness :
    (forwardPool.checkForwardConflicts nameEnv []).has "a" "bar (libfoo)" ∧
      forwardPool.checkForwardConflicts nameEnv [] = [("a", ["bar (libfoo)"])] :=
  ⟨(checkForwardConflicts_exact nameEnv forwardPool "a" "bar (libfoo)").mpr
      ⟨"libfoo", by decide, ⟨"bar", "1", ["libfoo"], [], []⟩, by decide, by decide, by decide,
        by decide, by decide⟩,
    by rfl⟩

/-! ## The reverse pass -/

theorem foldl_inv {α σ : Type} (f : σ → α → σ) (P : σ → Prop) (l : List α)
    (h : ∀ s, ∀ a ∈ l, P s → P (f s a)) (s : σ) (hs : P s) : P (l.foldl f s) := by
  induction l generalizing s with
  | nil => exact hs
  | cons a rest ih =>
    exact ih (fun s b hb => h s b (List.mem_cons_of_mem _ hb)) _
      (h s a (List.mem_cons_self _ _) hs)

theorem hasPackage_aur {dp : depPool} {pkg : AurPkg} (h : pkg ∈ dp.Aur) :
    dp.hasPackage pkg.Name = true := by
  unfold depPool.hasPackage
  simp only [Bool.or_eq_true, List.any_eq_true, decide_eq_true_eq]
  exact Or.inl ⟨pkg, h, rfl⟩

theorem hasPackage_repo {dp : depPool} {pkg : RepoPkg} (h : pkg ∈ dp.Repo) :
    dp.hasPackage pkg.Name = true := by
  unfold depPool.hasPackage
  simp only [Bool.or_eq_true, List.any_eq_true, decide_eq_true_eq]
  exact Or.inr ⟨pkg, h, rfl⟩

theorem reverseStep_mono (conflict pkgName : String) (satisfies : Bool)
    (st : String × MapStringSet) (p v : String) (h : st.2.has p v) :
    (reverseStep conflict pkgName satisfies st).2.has p v := by
  unfold reverseStep
  split
  · exact h
  · split
    · exact (MapStringSet.has_Add _ _ _ _ _).mpr (Or.inl h)
    · exact h

theorem reverse_fold_mono {α : Type} (nameOf : α → String) (sat : α → Bool) (conflict : String)
    (l : List α) (st : String × MapStringSet) (p v : String) (h : st.2.has p v) :
    (l.foldl (fun st x => reverseStep conflict (nameOf x) (sat x) st) st).2.has p v :=
  foldl_inv _ (fun st => st.2.has p v) l
    (fun s a _ hs => reverseStep_mono conflict (nameOf a) (sat a) s p v hs) st h

theorem checkReverseConflict_mono (env : Env) (dp : depPool) (call : Nat)
    (name conflict : String) (conflicts : MapStringSet) (p v : String)
    (h : conflicts.has p v) :
    (dp.checkReverseConflict env call name conflict conflicts).has p v := by
  unfold depPool.checkReverseConflict
  exact reverse_fold_mono RepoPkg.Name (fun pkg => env.satisfiesRepo conflict pkg) conflict _ _ p v
    (reverse_fold_mono AurPkg.Name (fun pkg => env.satisfiesAur conflict pkg) conflict _ _ p v h)

theorem chosenName_hasPackage (env : Env) (dp : depPool) (e p : String)
    (h : dp.chosenName env e = some p) : dp.hasPackage p = true := by
  unfold depPool.chosenName at h
  cases ha : dp.findSatisfierAur env e with
  | some x =>
    rw [ha] at h
    simp only [Option.some.injEq] at h
    exact h ▸ hasPackage_aur (findSatisfierAur_mem ha).1
  | none =>
    rw [ha] at h
    cases hr : dp.findSatisfierRepo env e with
    | none =>
      rw [hr] at h
      cases h
    | some x =>
      rw [hr] at h
      simp only [Option.map_some', Option.some.injEq] at h
      exact h ▸ hasPackage_repo (findSatisfierRepo_mem hr).1

theorem checkReverseConflicts_mono (env : Env) (dp : depPool) (conflicts : MapStringSet)
    (p v : String) (h : conflicts.has p v) : (dp.checkReverseConflicts env conflicts).has p v := by
  unfold depPool.checkReverseConflicts
  refine foldl_inv _ (fun (st : Nat × MapStringSet) => st.2.has p v) _ ?_ _ h
  intro st pkg _ hst
  split
  · exact hst
  · exact foldl_inv _ (fun (st : Nat × MapStringSet) => st.2.has p v) _
      (fun st2 c _ h2 => checkReverseConflict_mono env dp st2.1 pkg.Name c st2.2 p v h2) _ hst

/-- A fold of steps that keep a property keeps it from the step that
establishes it. -/
theorem foldl_establish {α σ : Type} (f : σ → α → σ) (P : σ → Prop)
    (hmono : ∀ s a, P s → P (f s a)) (l : List α) (x : α) (hx : x ∈ l)
    (hadd : ∀ s, P (f s x)) (s : σ) : P (l.foldl f s) := by
  induction l generalizing s with
  | nil => cases hx
  | cons a rest ih =>
    simp only [List.foldl_cons]
    rcases List.mem_cons.mp hx with h1 | h1
    · subst h1
      exact foldl_inv f P rest (fun s b _ hs => hmono s b hs) _ (hadd s)
    · exact ih h1 _

theorem annotated_length (n c : String) (j : Nat) :
    (annotated n c j).length = n.length + j * (c.length + 3) := by
  induction j with
  | zero => simp [annotated]
  | succ j ih =>
    have h1 : (" (" : String).length = 2 := by decide
    have h2 : (")" : String).length = 1 := by decide
    simp only [annotated, String.length_append, ih, h1, h2]
    rw [Nat.add_mul]
    omega

theorem annotated_prefix (n c : String) (j : Nat) : n.data <+: (annotated n c j).data := by
  induction j with
  | zero => exact List.prefix_refl _
  | succ j ih =>
    simp only [annotated, String.data_append]
    exact ih.trans (List.prefix_append _ _)

/-- The statement `if name != conflict { name += " (" + conflict + ")" }` on a
name that is not the expression and carries `j` annotations gives the name with
`j + 1` annotations. -/
theorem annotate_step (n c : String) (hne : n ≠ c) (j : Nat) :
    annotate (annotated n c j) c = annotated n c (j + 1) := by
  have h : annotated n c j ≠ c := by
    cases j with
    | zero => exact hne
    | succ i =>
      intro heq
      have hl := annotated_length n c (i + 1)
      rw [heq, Nat.add_mul] at hl
      omega
  unfold annotate
  rw [if_pos h]
  rfl

/-- The values that the variable `name` of `checkReverseConflict(n, c, _)` takes:
`n` itself when `n = c`, and `n` with the annotations appended so far
otherwise. -/
theorem annotate_names (n c : String) (j : Nat) :
    annotate (if n = c then n else annotated n c j) c =
      (if n = c then n else annotated n c (j + 1)) := by
  by_cases h : n = c
  · rw [if_pos h, if_pos h]
    unfold annotate
    rw [if_neg (fun hn => hn h)]
  · rw [if_neg h, if_neg h]
    exact annotate_step n c h j

theorem filter_length_cons_le {α : Type} (sat : α → Bool) (a : α) (rest : List α) :
    (rest.filter sat).length ≤ ((a :: rest).filter sat).length := by
  rw [List.filter_cons]
  split
  · simp
  · exact Nat.le_refl _

theorem filter_length_cons_true {α : Type} (sat : α → Bool) (a : α) (rest : List α)
    (h : sat a = true) : ((a :: rest).filter sat).length = (rest.filter sat).length + 1 := by
  rw [List.filter_cons, if_pos h]
  rfl

/-- One loop of `checkReverseConflict`, entered with the name `nm j`: the name
it leaves is `nm i` for some `i` from `j` to `j` plus the number of entries that
satisfy the expression. -/
theorem reverse_fold_name {α : Type} (nameOf : α → String) (sat : α → Bool)
    (conflict : String) (nm : Nat → String)
    (hnm : ∀ j, annotate (nm j) conflict = nm (j + 1)) (l : List α)
    (st : String × MapStringSet) (j : Nat) (hst : st.1 = nm j) :
    ∃ i, j ≤ i ∧ i ≤ j + (l.filter sat).length ∧
      (l.foldl (fun st x => reverseStep conflict (nameOf x) (sat x) st) st).1 = nm i := by
  induction l generalizing st j with
  | nil => exact ⟨j, Nat.le_refl j, Nat.le_add_right j _, hst⟩
  | cons a rest ih =>
    simp only [List.foldl_cons]
    have hle := filter_length_cons_le sat a rest
    by_cases hskip : nameOf a = st.1
    · have hsame : reverseStep conflict (nameOf a) (sat a) st = st := by
        unfold reverseStep
        rw [if_pos hskip]
      rw [hsame]
      obtain ⟨i, h2, h3, h4⟩ := ih st j hst
      exact ⟨i, h2, by omega, h4⟩
    · cases hsa : sat a with
      | true =>
        have hlen := filter_length_cons_true sat a rest hsa
        have hnext : (reverseStep conflict (nameOf a) true st).1 = nm (j + 1) := by
          unfold reverseStep
          rw [if_neg hskip, if_pos rfl, hst, hnm]
        obtain ⟨i, h2, h3, h4⟩ := ih _ (j + 1) hnext
        exact ⟨i, by omega, by omega, h4⟩
      | false =>
        have hsame : reverseStep conflict (nameOf a) false st = st := by
          unfold reverseStep
          rw [if_neg hskip]
          simp
        rw [hsame]
        obtain ⟨i, h2, h3, h4⟩ := ih st j hst
        exact ⟨i, h2, by omega, h4⟩

/-- One loop of `checkReverseConflict`, entered with the name `nm j`: an entry
`x` that satisfies the expression and whose name is none of the names `nm i` is
recorded under its name, with the value `nm (i + 1)` for some `i` from `j` that
is below `j` plus the number of entries that satisfy the expression. -/
theorem reverse_fold_records {α : Type} (nameOf : α → String) (sat : α → Bool)
    (conflict : String) (nm : Nat → String)
    (hnm : ∀ j, annotate (nm j) conflict = nm (j + 1)) (l : List α)
    (st : String × MapStringSet) (j : Nat) (hst : st.1 = nm j) (x : α) (hx : x ∈ l)
    (hs : sat x = true) (hname : ∀ i, nameOf x ≠ nm i) :
    ∃ i, j ≤ i ∧ i < j + (l.filter sat).length ∧
      (l.foldl (fun st x => reverseStep conflict (nameOf x) (sat x) st) st).2.has (nameOf x)
        (nm (i + 1)) := by
  induction l generalizing st j with
  | nil => cases hx
  | cons a rest ih =>
    simp only [List.foldl_cons]
    have hle := filter_length_cons_le sat a rest
    by_cases hxa : x = a
    · subst hxa
      have hlen := filter_length_cons_true sat x rest hs
      refine ⟨j, Nat.le_refl j, by omega, ?_⟩
      apply reverse_fold_mono
      have hne : nameOf x ≠ st.1 := hst ▸ hname j
      unfold reverseStep
      rw [if_neg hne, hs, if_pos rfl, hst, hnm]
      exact (MapStringSet.has_Add _ _ _ _ _).mpr (Or.inr ⟨rfl, rfl⟩)
    · have h1 : x ∈ rest := by
        rcases List.mem_cons.mp hx with h | h
        · exact absurd h hxa
        · exact h
      by_cases hskip : nameOf a = st.1
      · have hsame : reverseStep conflict (nameOf a) (sat a) st = st := by
          unfold reverseStep
          rw [if_pos hskip]
        rw [hsame]
        obtain ⟨i, h2, h3, h4⟩ := ih st j hst h1
        exact ⟨i, h2, by omega, h4⟩
      · cases hsa : sat a with
        | true =>
          have hlen := filter_length_cons_true sat a rest hsa
          have hnext : (reverseStep conflict (nameOf a) true st).1 = nm (j + 1) := by
            unfold reverseStep
            rw [if_neg hskip, if_pos rfl, hst, hnm]
          obtain ⟨i, h2, h3, h4⟩ := ih _ (j + 1) hnext h1
          exact ⟨i, by omega, by omega, h4⟩
        | false =>
          have hsame : reverseStep conflict (nameOf a) false st = st := by
            unfold reverseStep
            rw [if_neg hskip]
            simp
          rw [hsame]
          obtain ⟨i, h2, h3, h4⟩ := ih st j hst h1
          exact ⟨i, h2, by omega, h4⟩

/-- One call `checkReverseConflict(name, conflict, conflicts)`, whatever the
orders in which its loops run over the two maps: a package of the pool that
satisfies the expression, and whose name is not `name` with annotations, is
recorded under its name; the value is `name` when `name = conflict`, and
otherwise `name` with `j + 1` annotations for some `j` below the number of
packages of the pool that satisfy the expression. -/
theorem checkReverseConflict_records (env : Env) (dp : depPool) (call : Nat)
    (name conflict : String) (conflicts : MapStringSet) (p : String)
    (hp : dp.satisfiedBy env conflict p) (hname : ∀ j, p ≠ annotated name conflict j) :
    ∃ j, j < dp.satisfierCount env conflict ∧
      (dp.checkReverseConflict env call name conflict conflicts).has p
        (if name = conflict then name else annotated name conflict (j + 1)) := by
  have hnm := annotate_names name conflict
  have hname2 : ∀ i, p ≠ (if name = conflict then name else annotated name conflict i) := by
    intro i
    by_cases h : name = conflict
    · rw [if_pos h]
      exact hname 0
    · rw [if_neg h]
      exact hname i
  have hstart : name = (if name = conflict then name else annotated name conflict 0) := by
    by_cases h : name = conflict
    · rw [if_pos h]
    · rw [if_neg h]
      rfl
  have hla := ((env.rangeAur call dp.Aur).property.filter
    (fun pkg => env.satisfiesAur conflict pkg)).length_eq
  have hlr := ((env.rangeRepo call dp.Repo).property.filter
    (fun pkg => env.satisfiesRepo conflict pkg)).length_eq
  unfold depPool.satisfierCount
  unfold depPool.checkReverseConflict
  rcases hp with ⟨pkg, hmem, hn, hsat⟩ | ⟨pkg, hmem, hn, hsat⟩
  · subst hn
    obtain ⟨i, _, h3, h4⟩ := reverse_fold_records AurPkg.Name
      (fun pkg => env.satisfiesAur conflict pkg) conflict _ hnm (env.rangeAur call dp.Aur).val
      (name, conflicts) 0 hstart pkg ((env.rangeAur call dp.Aur).property.mem_iff.mpr hmem) hsat
      hname2
    refine ⟨i, by omega, ?_⟩
    exact reverse_fold_mono RepoPkg.Name (fun pkg => env.satisfiesRepo conflict pkg) conflict
      _ _ _ _ h4
  · subst hn
    obtain ⟨i0, _, h3, h4⟩ := reverse_fold_name AurPkg.Name
      (fun pkg => env.satisfiesAur conflict pkg) conflict _ hnm (env.rangeAur call dp.Aur).val
      (name, conflicts) 0 hstart
    obtain ⟨i, _, h6, h7⟩ := reverse_fold_records RepoPkg.Name
      (fun pkg => env.satisfiesRepo conflict pkg) conflict _ hnm (env.rangeRepo call dp.Repo).val
      _ i0 h4 pkg ((env.rangeRepo call dp.Repo).property.mem_iff.mpr hmem) hsat hname2
    exact ⟨i, by omega, h7⟩

/-- C12 (counterexample): the installed `x` conflicts with `y`, which is in the
pool; the reverse pass records the conflict under the key `y`, with the value
`x (y)`, and records nothing under `x`. -/
theorem reverse_conflict_key_is_pool_package :
    reversePool.checkReverseConflicts nameEnv [] = [("y", ["x (y)"])] ∧
      ¬ (reversePool.checkReverseConflicts nameEnv []).has "x" "y" ∧
      "x" ∉ mapKeys (reversePool.checkReverseConflicts nameEnv []) := by
  refine ⟨by rfl, by decide, by decide⟩

/-- C12 (amended): for every installed package `q` with `hasPackage(q.Name)`
false that declares a conflict expression `c`, and every package of the pool
that satisfies `c` and whose name `p` is not `q.Name` with annotations,
`checkReverseConflicts` records the conflict under the key `p`, the name of the
pool package, whatever the orders in which the calls range over the two maps of
the pool: the set under `p` holds `q.Name` when `q.Name = c`, and otherwise
`q.Name` followed by `j + 1` annotations ` (c)` for some `j` below the number of
pool packages that satisfy `c` (so exactly `q.Name (c)` when one does). -/
theorem reverse_conflict_recorded (env : Env) (dp : depPool) (conflicts : MapStringSet)
    (q : RepoPkg) (hq : q ∈ dp.LocalDB) (hno : dp.hasPackage q.Name = false)
    (c : String) (hc : c ∈ q.Conflicts) (p : String) (hp : dp.satisfiedBy env c p)
    (hname : ∀ j, p ≠ annotated q.Name c j) :
    ∃ j, j < dp.satisfierCount env c ∧
      (dp.checkReverseConflicts env conflicts).has p
        (if q.Name = c then q.Name else annotated q.Name c (j + 1)) := by
  unfold depPool.checkReverseConflicts
  apply foldl_establish _ (fun (st : Nat × MapStringSet) =>
    ∃ j, j < dp.satisfierCount env c ∧
      st.2.has p (if q.Name = c then q.Name else annotated q.Name c (j + 1))) ?_ _ q hq
  · intro st
    simp only [hno, Bool.false_eq_true, if_false]
    apply foldl_establish _ (fun (st : Nat × MapStringSet) =>
      ∃ j, j < dp.satisfierCount env c ∧
        st.2.has p (if q.Name = c then q.Name else annotated q.Name c (j + 1))) ?_ _ c hc
    · intro st2
      exact checkReverseConflict_records env dp st2.1 q.Name c st2.2 p hp hname
    · rintro st2 x ⟨j, hj, h2⟩
      exact ⟨j, hj, checkReverseConflict_mono env dp st2.1 q.Name x st2.2 _ _ h2⟩
  · rintro st pkg ⟨j, hj, hst⟩
    refine ⟨j, hj, ?_⟩
    split
    · exact hst
    · exact foldl_inv _ (fun (st : Nat × MapStringSet) =>
          st.2.has p (if q.Name = c then q.Name else annotated q.Name c (j + 1))) _
        (fun st2 x _ h2 => checkReverseConflict_mono env dp st2.1 pkg.Name x st2.2 _ _ h2) _ hst

/-- The amended C12 on the pool of the reverse-conflict scenario: one package
of the pool satisfies `y`, and the value under `y` is `x (y)`; and on the pool
`twoProvidersPool` in a run whose ranges yield `p2` before `p1`: two packages
satisfy `y`, and the value under `p1` is `x (y) (y)` and not `x (y)`. -/
theorem reverse_conflict_recorded_witness :
    (reversePool.satisfierCount nameEnv "y" = 1 ∧
      (∃ j, j < reversePool.satisfierCount nameEnv "y" ∧
        (reversePool.checkReverseConflicts nameEnv []).has "y"
          (if (⟨"x", "1", [], [], ["y"]⟩ : RepoPkg).Name = "y" then
            (⟨"x", "1", [], [], ["y"]⟩ : RepoPkg).Name
          else annotated (⟨"x", "1", [], [], ["y"]⟩ : RepoPkg).Name "y" (j + 1))) ∧
      annotated "x" "y" 1 = "x (y)") ∧
    (twoProvidersPool.satisfierCount reversedEnv "y" = 2 ∧
      (∃ j, j < twoProvidersPool.satisfierCount reversedEnv "y" ∧
        (twoProvidersPool.checkReverseConflicts reversedEnv []).has "p1"
          (if (⟨"x", "1", [], [], ["y"]⟩ : RepoPkg).Name = "y" then
            (⟨"x", "1", [], [], ["y"]⟩ : RepoPkg).Name
          else annotated (⟨"x", "1", [], [], ["y"]⟩ : RepoPkg).Name "y" (j + 1))) ∧
      twoProvidersPool.checkReverseConflicts reversedEnv [] =
        [("p1", ["x (y) (y)"]), ("p2", ["x (y)"])] ∧
      annotated "x" "y" 2 = "x (y) (y)") :=
  ⟨⟨by decide,
      reverse_conflict_recorded nameEnv reversePool [] ⟨"x", "1", [], [], ["y"]⟩ (by decide)
        (by decide) "y" (by decide) "y" (by decide)
        (fun j h => absurd
          (show ("x" : String).data <+: ("y" : String).data from by
            rw [h]
            exact annotated_prefix "x" "y" j)
          (by decide)),
      by decide⟩,
    ⟨by decide,
      reverse_conflict_recorded reversedEnv twoProvidersPool [] ⟨"x", "1", [], [], ["y"]⟩
        (by decide) (by decide) "y" (by decide) "p1" (by decide)
        (fun j h => absurd
          (show ("x" : String).data <+: ("p1" : String).data from by
            rw [h]
            exact annotated_prefix "x" "y" j)
          (by decide)),
      by rfl, by decide⟩⟩

/-! ## No record of a package against itself -/

theorem checkInnerConflicts_has (env : Env) (dp : depPool) (conflicts : MapStringSet)
    (p q : String) :
    (dp.checkInnerConflicts env conflicts).has p q ↔
      conflicts.has p q ∨ ∃ c, dp.declaresConflict p c ∧ q ≠ p ∧ dp.satisfiedBy env c q := by
  unfold depPool.checkInnerConflicts
  simp only []
  rw [foldl_has_iff _ (fun (pkg : RepoPkg) p q => ∃ c ∈ pkg.Conflicts,
      p = pkg.Name ∧ q ≠ pkg.Name ∧ dp.satisfiedBy env c q),
    foldl_has_iff _ (fun (pkg : AurPkg) p q => ∃ c ∈ pkg.Conflicts,
      p = pkg.Name ∧ q ≠ pkg.Name ∧ dp.satisfiedBy env c q)]
  · unfold depPool.declaresConflict
    constructor
    · rintro ((h | ⟨x, hx, c, hc, h1, h2, h3⟩) | ⟨x, hx, c, hc, h1, h2, h3⟩)
      · exact Or.inl h
      · exact Or.inr ⟨c, Or.inl ⟨x, hx, h1.symm, hc⟩, h1 ▸ h2, h3⟩
      · exact Or.inr ⟨c, Or.inr ⟨x, hx, h1.symm, hc⟩, h1 ▸ h2, h3⟩
    · rintro (h | ⟨c, ⟨x, hx, h1, hc⟩ | ⟨x, hx, h1, hc⟩, h2, h3⟩)
      · exact Or.inl (Or.inl h)
      · exact Or.inl (Or.inr ⟨x, hx, c, hc, h1.symm, h1 ▸ h2, h3⟩)
      · exact Or.inr ⟨x, hx, c, hc, h1.symm, h1 ▸ h2, h3⟩
  · intro acc x p q
    rw [foldl_has_iff _ (fun c p q => p = x.Name ∧ q ≠ x.Name ∧ dp.satisfiedBy env c q)]
    intro acc2 c p q
    exact checkInnerConflict_has env dp x.Name c acc2 p q
  · intro acc x p q
    rw [foldl_has_iff _ (fun c p q => p = x.Name ∧ q ≠ x.Name ∧ dp.satisfiedBy env c q)]
    intro acc2 c p q
    exact checkInnerConflict_has env dp x.Name c acc2 p q

theorem annotate_annotated (n c : String) (j : Nat) :
    ∃ i, annotate (annotated n c j) c = annotated n c i := by
  unfold annotate
  split
  · exact ⟨j + 1, rfl⟩
  · exact ⟨j, rfl⟩

theorem reverseStep_origin (dp : depPool) (name conflict pkgName : String) (satisfies : Bool)
    (conflicts : MapStringSet) (hpkg : dp.hasPackage pkgName = true)
    (st : String × MapStringSet)
    (h : (∃ j, st.1 = annotated name conflict j) ∧ ∀ x y, st.2.has x y →
      conflicts.has x y ∨ (dp.hasPackage x = true ∧ ∃ j, y = annotated name conflict j)) :
    (∃ j, (reverseStep conflict pkgName satisfies st).1 = annotated name conflict j) ∧
      ∀ x y, (reverseStep conflict pkgName satisfies st).2.has x y →
        conflicts.has x y ∨ (dp.hasPackage x = true ∧ ∃ j, y = annotated name conflict j) := by
  obtain ⟨⟨j, hj⟩, hmap⟩ := h
  unfold reverseStep
  split
  · exact ⟨⟨j, hj⟩, hmap⟩
  · split
    · obtain ⟨i, hi⟩ := annotate_annotated name conflict j
      rw [← hj] at hi
      refine ⟨⟨i, hi⟩, ?_⟩
      intro x y hxy
      rcases (MapStringSet.has_Add _ _ _ _ _).mp hxy with h1 | ⟨h1, h2⟩
      · exact hmap x y h1
      · exact Or.inr ⟨h1 ▸ hpkg, i, h2.trans hi⟩
    · exact ⟨⟨j, hj⟩, hmap⟩

theorem checkReverseConflict_origin (env : Env) (dp : depPool) (call : Nat)
    (name conflict : String) (conflicts : MapStringSet) (x y : String)
    (h : (dp.checkReverseConflict env call name conflict conflicts).has x y) :
    conflicts.has x y ∨ (dp.hasPackage x = true ∧ ∃ j, y = annotated name conflict j) := by
  unfold depPool.checkReverseConflict at h
  have h1 := foldl_inv
    (fun (st : String × MapStringSet) (pkg : AurPkg) =>
      reverseStep conflict pkg.Name (env.satisfiesAur conflict pkg) st)
    (fun st => (∃ j, st.1 = annotated name conflict j) ∧ ∀ x y, st.2.has x y →
      conflicts.has x y ∨ (dp.hasPackage x = true ∧ ∃ j, y = annotated name conflict j))
    (env.rangeAur call dp.Aur).val
    (fun s a ha hs => reverseStep_origin dp name conflict a.Name _ conflicts
      (hasPackage_aur ((env.rangeAur call dp.Aur).property.mem_iff.mp ha)) s hs)
    (name, conflicts) ⟨⟨0, rfl⟩, fun _ _ hxy => Or.inl hxy⟩
  have h2 := foldl_inv
    (fun (st : String × MapStringSet) (pkg : RepoPkg) =>
      reverseStep conflict pkg.Name (env.satisfiesRepo conflict pkg) st)
    (fun st => (∃ j, st.1 = annotated name conflict j) ∧ ∀ x y, st.2.has x y →
      conflicts.has x y ∨ (dp.hasPackage x = true ∧ ∃ j, y = annotated name conflict j))
    (env.rangeRepo call dp.Repo).val
    (fun s a ha hs => reverseStep_origin dp name conflict a.Name _ conflicts
      (hasPackage_repo ((env.rangeRepo call dp.Repo).property.mem_iff.mp ha)) s hs) _ h1
  exact h2.2 x y h

theorem checkReverseConflicts_origin (env : Env) (dp : depPool) (conflicts : MapStringSet)
    (x y : String) (h : (dp.checkReverseConflicts env conflicts).has x y) :
    conflicts.has x y ∨ (dp.hasPackage x = true ∧ ∃ q ∈ dp.LocalDB,
      dp.hasPackage q.Name = false ∧ ∃ c j, y = annotated q.Name c j) := by
  unfold depPool.checkReverseConflicts at h
  refine foldl_inv _ (fun (st : Nat × MapStringSet) => ∀ x y, st.2.has x y →
    conflicts.has x y ∨ (dp.hasPackage x = true ∧ ∃ q ∈ dp.LocalDB,
      dp.hasPackage q.Name = false ∧ ∃ c j, y = annotated q.Name c j)) dp.LocalDB ?_
    (0, conflicts) (fun _ _ hxy => Or.inl hxy) x y h
  intro acc pkg hpkg hacc
  split
  · exact hacc
  · rename_i hno
    refine foldl_inv _ (fun (st : Nat × MapStringSet) => ∀ x y, st.2.has x y →
      conflicts.has x y ∨ (dp.hasPackage x = true ∧ ∃ q ∈ dp.LocalDB,
        dp.hasPackage q.Name = false ∧ ∃ c j, y = annotated q.Name c j)) pkg.Conflicts ?_ acc hacc
    intro acc2 c _ hacc2 x y hxy
    rcases checkReverseConflict_origin env dp acc2.1 pkg.Name c acc2.2 x y hxy with
      h1 | ⟨h1, j, hj⟩
    · exact hacc2 x y h1
    · refine Or.inr ⟨h1, pkg, hpkg, ?_, c, j, hj⟩
      cases hh : dp.hasPackage pkg.Name with
      | false => rfl
      | true => exact absurd hh hno

theorem forward_other (env : Env) (dp : depPool) (x y : String)
    (h : (dp.checkForwardConflicts env []).has x y) : dp.otherPackage x y := by
  rcases (checkForwardConflicts_has env dp [] x y).mp h with h1 | ⟨c, _, pkg, hp, h2, _, _, h5⟩
  · exact absurd h1 (has_nil x y)
  · refine ⟨pkg.Name, Or.inr (Or.inr ⟨pkg, hp, rfl⟩), h2, c, ?_⟩
    rw [h5]
    unfold annotate
    split
    · exact ⟨1, rfl⟩
    · exact ⟨0, rfl⟩

theorem outer_other (env : Env) (dp : depPool) (x y : String)
    (h : (dp.outerConflicts env).has x y) : dp.otherPackage x y := by
  unfold depPool.outerConflicts at h
  rcases checkReverseConflicts_origin env dp _ x y h with h1 | ⟨h1, q, hq, h2, c, j, hj⟩
  · exact forward_other env dp x y h1
  · refine ⟨q.Name, Or.inr (Or.inr ⟨q, hq, rfl⟩), ?_, c, j, hj⟩
    intro heq
    rw [heq, h1] at h2
    cases h2

/-! ## The merge of the inner map and the result of `CheckConflicts` -/

theorem clear_fold_get (set : List String) (acc : MapStringSet) (x : String) :
    mapGet (set.foldl (fun acc2 pkg => mapSet acc2 pkg []) acc) x =
      if x ∈ set then some [] else mapGet acc x := by
  induction set generalizing acc with
  | nil => simp
  | cons a rest ih =>
    simp only [List.foldl_cons, ih, mapGet_mapSet, List.mem_cons]
    by_cases h1 : x ∈ rest
    · simp [h1]
    · by_cases h2 : a = x
      · simp [h2]
      · have h3 : ¬ x = a := fun h => h2 h.symm
        simp [h1, h2, h3]

theorem mergeInner_get (innerConflicts conflicts : MapStringSet) (x : String) :
    mapGet (mergeInner innerConflicts conflicts) x =
      if ∃ e ∈ innerConflicts, x = e.1 ∨ x ∈ e.2 then some [] else mapGet conflicts x := by
  unfold mergeInner
  induction innerConflicts generalizing conflicts with
  | nil => simp
  | cons e rest ih =>
    simp only [List.foldl_cons, ih, clear_fold_get, mapGet_mapSet, List.mem_cons,
      exists_eq_or_imp]
    by_cases h1 : ∃ a ∈ rest, x = a.1 ∨ x ∈ a.2
    · simp [h1]
    · by_cases h2 : x ∈ e.2
      · simp [h2]
      · by_cases h3 : e.1 = x
        · simp [h3]
        · have h4 : ¬ x = e.1 := fun h => h3 h.symm
          simp [h1, h2, h3, h4]

theorem mem_mapKeys_of_get {β : Type} (m : List (String × β)) (k : String) (v : β)
    (h : mapGet m k = some v) : k ∈ mapKeys m :=
  mapGet_some_mem_keys m k v h

theorem mergeInner_has (innerConflicts conflicts : MapStringSet) (x y : String)
    (h : (mergeInner innerConflicts conflicts).has x y) : conflicts.has x y := by
  unfold MapStringSet.has at h ⊢
  rw [mergeInner_get] at h
  split at h
  · simp at h
  · exact h

/-- C13: no conflict record maps a package to itself.  Every entry `x → y` of
the map of the inner pass, of the forward pass, of the reverse pass, of the
outer map (forward, then reverse) and of the map that `CheckConflicts` returns
is about another package: `y` is the name of a package of the pool or of an
installed package whose name differs from `x`, as such or followed by
annotations. -/
theorem no_self_conflict (env : Env) (dp : depPool) :
    (∀ x y, (dp.checkInnerConflicts env []).has x y → dp.otherPackage x y ∧ y ≠ x) ∧
    (∀ x y, (dp.checkForwardConflicts env []).has x y → dp.otherPackage x y) ∧
    (∀ x y, (dp.checkReverseConflicts env []).has x y → dp.otherPackage x y) ∧
    (∀ x y, (dp.outerConflicts env).has x y → dp.otherPackage x y) ∧
    (∀ cfg m, dp.CheckConflicts env cfg = .ok m → ∀ x y, m.has x y → dp.otherPackage x y) := by
  refine ⟨?_, forward_other env dp, ?_, outer_other env dp, ?_⟩
  · intro x y h
    rcases (checkInnerConflicts_has env dp [] x y).mp h with h1 | ⟨c, _, h2, h3⟩
    · exact absurd h1 (has_nil x y)
    · refine ⟨⟨y, ?_, h2, c, 0, rfl⟩, h2⟩
      rcases h3 with ⟨pkg, hp, hn, _⟩ | ⟨pkg, hp, hn, _⟩
      · exact Or.inl ⟨pkg, hp, hn⟩
      · exact Or.inr (Or.inl ⟨pkg, hp, hn⟩)
  · intro x y h
    rcases checkReverseConflicts_origin env dp [] x y h with h1 | ⟨h1, q, hq, h2, c, j, hj⟩
    · exact absurd h1 (has_nil x y)
    · refine ⟨q.Name, Or.inr (Or.inr ⟨q, hq, rfl⟩), ?_, c, j, hj⟩
      intro heq
      rw [heq, h1] at h2
      cases h2
  · intro cfg m hm x y hxy
    unfold depPool.CheckConflicts at hm
    split at hm
    · cases hm
    · simp only [Except.ok.injEq] at hm
      subst hm
      exact outer_other env dp x y (mergeInner_has _ _ x y hxy)

/-- C14: the fold of the inner map into the outer map maps every key of the
inner map and every member of one of its sets to the empty set, keeps the set
of every other key as it was in the outer map, and leaves the outer map
unchanged when the inner map is empty. -/
theorem mergeInner_exact (innerConflicts conflicts : MapStringSet) :
    (∀ x, (x ∈ mapKeys innerConflicts ∨ ∃ e ∈ innerConflicts, x ∈ e.2) →
      mapGet (mergeInner innerConflicts conflicts) x = some []) ∧
    (∀ x, ¬ (x ∈ mapKeys innerConflicts ∨ ∃ e ∈ innerConflicts, x ∈ e.2) →
      mapGet (mergeInner innerConflicts conflicts) x = mapGet conflicts x) ∧
    mergeInner [] conflicts = conflicts := by
  refine ⟨?_, ?_, rfl⟩
  · intro x hx
    rw [mergeInner_get, if_pos]
    rcases hx with h | ⟨e, he, h⟩
    · obtain ⟨e, he, h1⟩ := List.mem_map.mp h
      exact ⟨e, he, Or.inl h1.symm⟩
    · exact ⟨e, he, Or.inr h⟩
  · intro x hx
    rw [mergeInner_get, if_neg]
    rintro ⟨e, he, h | h⟩
    · exact hx (Or.inl (List.mem_map.mpr ⟨e, he, h.symm⟩))
    · exact hx (Or.inr ⟨e, he, h⟩)

/-- C15 (counterexample): with `NoConfirm` set and `UseAsk` not set, the inner
map of `innerPool` holds `a → b` and `CheckConflicts` returns the error and no
map. -/
theorem inner_conflict_without_map :
    (innerPool.innerConflicts nameEnv).has "a" "b" ∧
      innerPool.CheckConflicts nameEnv ⟨true, false⟩ =
        .error "Package conflicts can not be resolved with noconfirm, aborting" := by
  refine ⟨by decide, by rfl⟩

/-- C15 (amended): if `p → q` is in the inner map, then `p` and `q` are keys of
the merged map (each with the empty set), and `CheckConflicts` returns the
merged map unless `NoConfirm` is set and `UseAsk` is not, in which case it
returns the error and no map. -/
theorem inner_conflict_keys (env : Env) (cfg : Config) (dp : depPool) (p q : String)
    (h : (dp.innerConflicts env).has p q) :
    (p ∈ mapKeys (dp.mergedConflicts env) ∧ q ∈ mapKeys (dp.mergedConflicts env)) ∧
    (mapGet (dp.mergedConflicts env) p = some [] ∧ mapGet (dp.mergedConflicts env) q = some []) ∧
    ((cfg.UseAsk = true ∨ cfg.NoConfirm = false) →
      dp.CheckConflicts env cfg = .ok (dp.mergedConflicts env)) ∧
    ((cfg.UseAsk = false ∧ cfg.NoConfirm = true) →
      dp.CheckConflicts env cfg =
        .error "Package conflicts can not be resolved with noconfirm, aborting") := by
  have hentry : ∃ set, (p, set) ∈ dp.innerConflicts env ∧ q ∈ set := by
    unfold MapStringSet.has at h
    cases hg : mapGet (dp.innerConflicts env) p with
    | none =>
      rw [hg] at h
      simp at h
    | some set =>
      rw [hg] at h
      exact ⟨set, mapGet_some_mem _ _ _ hg, h⟩
  obtain ⟨set, hmem, hq⟩ := hentry
  have hp : mapGet (dp.mergedConflicts env) p = some [] := by
    unfold depPool.mergedConflicts
    rw [mergeInner_get, if_pos ⟨(p, set), hmem, Or.inl rfl⟩]
  have hq2 : mapGet (dp.mergedConflicts env) q = some [] := by
    unfold depPool.mergedConflicts
    rw [mergeInner_get, if_pos ⟨(p, set), hmem, Or.inr hq⟩]
  have hne : (dp.mergedConflicts env).length > 0 := by
    cases hm : dp.mergedConflicts env with
    | nil =>
      rw [hm] at hp
      simp [mapGet] at hp
    | cons a rest => simp
  refine ⟨⟨mem_mapKeys_of_get _ _ _ hp, mem_mapKeys_of_get _ _ _ hq2⟩, ⟨hp, hq2⟩, ?_, ?_⟩
  · intro hflag
    unfold depPool.CheckConflicts
    rw [if_neg]
    rintro ⟨_, h1, h2⟩
    rcases hflag with h3 | h3
    · rw [h3] at h1
      cases h1
    · rw [h3] at h2
      cases h2
  · intro hflag
    unfold depPool.CheckConflicts
    rw [if_pos ⟨hne, hflag.1, hflag.2⟩]

/-- The amended C15 on the pool of the inner-conflict scenario, in interactive
mode. -/
theorem inner_conflict_keys_witness :
    (innerPool.innerConflicts nameEnv).has "a" "b" ∧
      ("a" ∈ mapKeys (innerPool.mergedConflicts nameEnv) ∧
        "b" ∈ mapKeys (innerPool.mergedConflicts nameEnv)) ∧
      innerPool.CheckConflicts nameEnv ⟨false, false⟩ = .ok [("b", []), ("a", [])] :=
  ⟨by decide, (inner_conflict_keys nameEnv ⟨false, false⟩ innerPool "a" "b" (by decide)).1,
    by rfl⟩

/-- C16: `CheckConflicts` returns an error if and only if the merged map is not
empty, `NoConfirm` is set and `UseAsk` is not set; in every other case (in
particular with `UseAsk` set, and with an empty merged map) it returns the
merged map and no error. -/
theorem CheckConflicts_error_iff (env : Env) (cfg : Config) (dp : depPool) :
    ((∃ e, dp.CheckConflicts env cfg = .error e) ↔
      (dp.mergedConflicts env ≠ [] ∧ cfg.NoConfirm = true ∧ cfg.UseAsk = false)) ∧
    (¬ (dp.mergedConflicts env ≠ [] ∧ cfg.NoConfirm = true ∧ cfg.UseAsk = false) →
      dp.CheckConflicts env cfg = .ok (dp.mergedConflicts env)) ∧
    (cfg.UseAsk = true → dp.CheckConflicts env cfg = .ok (dp.mergedConflicts env)) ∧
    (dp.mergedConflicts env = [] → dp.CheckConflicts env cfg = .ok (dp.mergedConflicts env)) := by
  have hcond : ((dp.mergedConflicts env).length > 0 ∧ cfg.UseAsk = false ∧ cfg.NoConfirm = true) ↔
      (dp.mergedConflicts env ≠ [] ∧ cfg.NoConfirm = true ∧ cfg.UseAsk = false) := by
    constructor
    · rintro ⟨h1, h2, h3⟩
      exact ⟨List.length_pos.mp h1, h3, h2⟩
    · rintro ⟨h1, h2, h3⟩
      exact ⟨List.length_pos.mpr h1, h3, h2⟩
  have hok : ¬ (dp.mergedConflicts env ≠ [] ∧ cfg.NoConfirm = true ∧ cfg.UseAsk = false) →
      dp.CheckConflicts env cfg = .ok (dp.mergedConflicts env) := by
    intro h
    unfold depPool.CheckConflicts
    rw [if_neg (fun h2 => h (hcond.mp h2))]
  refine ⟨?_, hok, ?_, ?_⟩
  · constructor
    · rintro ⟨e, he⟩
      by_contra hn
      rw [hok hn] at he
      cases he
    · intro h
      refine ⟨"Package conflicts can not be resolved with noconfirm, aborting", ?_⟩
      unfold depPool.CheckConflicts
      rw [if_pos (hcond.mpr h)]
  · intro h
    apply hok
    rintro ⟨_, _, h3⟩
    rw [h] at h3
    cases h3
  · intro h
    apply hok
    rintro ⟨h1, _, _⟩
    exact h1 h

/-- C17 (evaluation): `twoProvidersPool` and `twoProvidersPoolSwapped` hold the
same packages, iterated in two orders; `CheckConflicts` returns two different
maps for them: the annotation that the reverse pass appends to its variable
`name` piles up on the pool package that is met second.  So do two runs on the
one pool `twoProvidersPool` when the runtime yields the entries of `dp.Aur` as
`p1, p2` in one (`nameEnv`) and as `p2, p1` in the other (`reversedEnv`). -/
theorem conflicts_depend_on_order :
    twoProvidersPool.Aur.Perm twoProvidersPoolSwapped.Aur ∧
      twoProvidersPool.Repo = twoProvidersPoolSwapped.Repo ∧
      twoProvidersPool.LocalDB = twoProvidersPoolSwapped.LocalDB ∧
      twoProvidersPool.CheckConflicts nameEnv ⟨false, false⟩ =
        .ok [("p2", ["x (y) (y)"]), ("p1", ["x (y)"])] ∧
      twoProvidersPoolSwapped.CheckConflicts nameEnv ⟨false, false⟩ =
        .ok [("p1", ["x (y) (y)"]), ("p2", ["x (y)"])] ∧
      MapStringSet.has [("p2", ["x (y) (y)"]), ("p1", ["x (y)"])] "p1" "x (y)" ∧
      ¬ MapStringSet.has [("p1", ["x (y) (y)"]), ("p2", ["x (y)"])] "p1" "x (y)" ∧
      twoProvidersPool.CheckConflicts reversedEnv ⟨false, false⟩ =
        .ok [("p1", ["x (y) (y)"]), ("p2", ["x (y)"])] := by
  refine ⟨List.Perm.swap _ _ _, rfl, rfl, by rfl, by rfl, by decide, by decide, by rfl⟩

/-! ## The provider menu -/

theorem size_fold (pkgs : List Pkg) (init : Int) :
    pkgs.foldl (fun size _ => size + 1) init = init + pkgs.length := by
  induction pkgs generalizing init with
  | nil => simp
  | cons p rest ih =>
    simp only [List.foldl_cons, ih, List.length_cons, Nat.cast_add, Nat.cast_one]
    omega

theorem menuSize_eq (pkgs : List Pkg) : menuSize pkgs = pkgs.length + 1 := by
  unfold menuSize
  rw [size_fold]
  omega

/-- A number from 1 to the number of providers selects that provider. -/
theorem providerMenu_selects (atoi : String → Option Int) (cfg : Config) (pkgs : List Pkg)
    (r : ReadLine) (rest : List ReadLine) (n : Nat) (p : Pkg)
    (hc : cfg.NoConfirm = false) (he : r.err = false) (ho : r.overflow = false)
    (hb : r.numberBuf ≠ "") (hn : atoi r.numberBuf = some ((n : Int) + 1))
    (hp : pkgs[n]? = some p) :
    providerMenu atoi cfg pkgs (r :: rest) = (.pkg p, rest) := by
  have hlt : n < pkgs.length := by
    by_contra hge
    rw [List.getElem?_eq_none (Nat.le_of_not_lt hge)] at hp
    cases hp
  have hcond : ¬ ((n : Int) + 1 < 1 ∨ (n : Int) + 1 > menuSize pkgs) := by
    rw [menuSize_eq]
    omega
  simp only [providerMenu, hc, he, ho, hb, hn, hcond, if_false, Bool.false_eq_true]
  have : ((n : Int) + 1 - 1).toNat = n := by omega
  rw [this]
  unfold indexPkgs
  rw [hp]

/-- A line that is rejected makes the loop read the next line. -/
theorem providerMenu_rejects (atoi : String → Option Int) (cfg : Config) (pkgs : List Pkg)
    (r : ReadLine) (rest : List ReadLine) (hc : cfg.NoConfirm = false)
    (hr : rejectedLine atoi pkgs r) :
    providerMenu atoi cfg pkgs (r :: rest) = providerMenu atoi cfg pkgs rest := by
  obtain ⟨he, hrej⟩ := hr
  rcases hrej with ho | ⟨hb, hnum⟩
  · simp only [providerMenu, hc, he, ho, if_true, if_false, Bool.false_eq_true]
  · cases ho : r.overflow with
    | true => simp only [providerMenu, hc, he, ho, if_true, if_false, Bool.false_eq_true]
    | false =>
      rcases hnum with hn | ⟨num, hn, hout⟩
      · simp only [providerMenu, hc, he, ho, hb, hn, if_false, Bool.false_eq_true]
      · simp only [providerMenu, hc, he, ho, hb, hn, hout, if_true, if_false,
          Bool.false_eq_true]

/-- C18 (evaluation): the number that is one above the number of providers is
not rejected: `providerMenu` indexes `providers.Pkgs` with it, one cell past the
end, and panics.  With two providers the line `3` does so. -/
theorem providerMenu_accepts_size :
    (∀ (atoi : String → Option Int) (cfg : Config) (pkgs : List Pkg) (r : ReadLine)
        (rest : List ReadLine), cfg.NoConfirm = false → r.err = false → r.overflow = false →
        r.numberBuf ≠ "" → atoi r.numberBuf = some ((pkgs.length : Int) + 1) →
        providerMenu atoi cfg pkgs (r :: rest) = (.indexOutOfRange, rest)) ∧
      Atoi "3" = some 3 ∧
      providerMenu Atoi ⟨false, false⟩ [⟨"a", "a", "1"⟩, ⟨"b", "b", "1"⟩]
        [⟨"3", false, false⟩] = (.indexOutOfRange, []) := by
  refine ⟨?_, by decide, by rfl⟩
  intro atoi cfg pkgs r rest hc he ho hb hn
  have hcond : ¬ ((pkgs.length : Int) + 1 < 1 ∨ (pkgs.length : Int) + 1 > menuSize pkgs) := by
    rw [menuSize_eq]
    omega
  simp only [providerMenu, hc, he, ho, hb, hn, hcond, if_false, Bool.false_eq_true]
  have : ((pkgs.length : Int) + 1 - 1).toNat = pkgs.length := by omega
  rw [this]
  unfold indexPkgs
  rw [List.getElem?_eq_none (le_refl _)]

/-- C19: the default selection of `providerMenu` is the first provider.  With
`NoConfirm` set it returns `providers.Pkgs[0]` and makes no read; in
interactive mode it returns `providers.Pkgs[0]` on an empty line, after any
number of rejected lines. -/
theorem providerMenu_default (atoi : String → Option Int) (cfg : Config) (p : Pkg)
    (ps : List Pkg) :
    (cfg.NoConfirm = true →
      ∀ inputs, providerMenu atoi cfg (p :: ps) inputs = (.pkg p, inputs)) ∧
    (cfg.NoConfirm = false →
      ∀ rejected r rest, (∀ x ∈ rejected, rejectedLine atoi (p :: ps) x) →
        r.err = false → r.overflow = false → r.numberBuf = "" →
        providerMenu atoi cfg (p :: ps) (rejected ++ r :: rest) = (.pkg p, rest)) := by
  constructor
  · intro hc inputs
    cases inputs with
    | nil => simp [providerMenu, hc, indexPkgs]
    | cons r rest => simp [providerMenu, hc, indexPkgs]
  · intro hc rejected r rest hrej he ho hb
    induction rejected with
    | nil =>
      simp [providerMenu, hc, he, ho, hb, indexPkgs]
    | cons x xs ih =>
      rw [List.cons_append, providerMenu_rejects atoi cfg (p :: ps) x _ hc
        (hrej x (List.mem_cons_self _ _))]
      exact ih (fun y hy => hrej y (List.mem_cons_of_mem _ hy))

/-- C19 with two providers: no read with `NoConfirm`; in interactive mode a
line that is too long, a line that is not a number and a number out of range
are rejected, and the empty line that follows selects the first provider. -/
theorem providerMenu_default_witness :
    providerMenu Atoi ⟨true, false⟩ [⟨"a", "a", "1"⟩, ⟨"b", "b", "1"⟩] [⟨"2", false, false⟩] =
        (.pkg ⟨"a", "a", "1"⟩, [⟨"2", false, false⟩]) ∧
      providerMenu Atoi ⟨false, false⟩ [⟨"a", "a", "1"⟩, ⟨"b", "b", "1"⟩]
        ([⟨"22", true, false⟩, ⟨"x", false, false⟩, ⟨"7", false, false⟩] ++
          ⟨"", false, false⟩ :: [⟨"2", false, false⟩]) =
        (.pkg ⟨"a", "a", "1"⟩, [⟨"2", false, false⟩]) :=
  ⟨(providerMenu_default Atoi ⟨true, false⟩ ⟨"a", "a", "1"⟩ [⟨"b", "b", "1"⟩]).1 rfl _,
    (providerMenu_default Atoi ⟨false, false⟩ ⟨"a", "a", "1"⟩ [⟨"b", "b", "1"⟩]).2 rfl _ _ _
      (by
        intro x hx
        simp only [List.mem_cons, List.mem_singleton, List.not_mem_nil, or_false] at hx
        rcases hx with h | h | h
        · subst h
          exact ⟨rfl, Or.inl rfl⟩
        · subst h
          exact ⟨rfl, Or.inr ⟨by decide, Or.inl (by decide)⟩⟩
        · subst h
          exact ⟨rfl, Or.inr ⟨by decide, Or.inr ⟨7, by decide, Or.inr (by decide)⟩⟩⟩)
      rfl rfl rfl⟩

/-! ## The printed form of a package-base -/

theorem names_fold_data (l : List Pkg) (init : String) :
    (l.foldl (fun str2 split => str2 ++ (split.Name ++ " ")) init).data =
      init.data ++ (l.map (fun p => p.Name.data ++ [' '])).flatten := by
  induction l generalizing init with
  | nil => simp
  | cons p rest ih =>
    simp only [List.foldl_cons, ih, String.data_append, List.map_cons, List.flatten_cons,
      List.append_assoc]

theorem intercalate_go_data (acc : String) (l : List String) :
    (String.intercalate.go acc " " l).data =
      acc.data ++ (l.map (fun a => ' ' :: a.data)).flatten := by
  induction l generalizing acc with
  | nil => simp [String.intercalate.go]
  | cons a rest ih =>
    simp only [String.intercalate.go, ih, String.data_append, List.map_cons, List.flatten_cons,
      List.append_assoc]
    rfl

theorem dropLast_spaced (front a : List Char) (l : List (List Char)) :
    (front ++ ((a :: l).map (fun n => n ++ [' '])).flatten).dropLast =
      front ++ (a ++ (l.map (fun n => ' ' :: n)).flatten) := by
  induction l generalizing front a with
  | nil =>
    simp only [List.map_cons, List.map_nil, List.flatten_cons, List.flatten_nil,
      List.append_nil]
    rw [← List.append_assoc, List.dropLast_concat]
  | cons b rest ih =>
    have h := ih (front ++ (a ++ [' '])) b
    simp only [List.map_cons, List.flatten_cons, List.append_assoc, List.cons_append,
      List.nil_append] at h ⊢
    exact h

/-- C20: for a non-empty package-base, `Base.String` returns the base name
alone when the base holds exactly one package and its name is the base name,
and otherwise the base name followed by ` (`, the names of all its packages in
order, separated by single spaces, and `)`. -/
theorem Base_String_exact (pkg : Pkg) (rest : List Pkg) :
    Base.String (pkg :: rest) =
      some (if rest = [] ∧ pkg.PackageBase = pkg.Name then pkg.PackageBase
        else pkg.PackageBase ++ " (" ++ " ".intercalate ((pkg :: rest).map Pkg.Name) ++ ")") := by
  unfold Base.String
  by_cases h : rest = [] ∧ pkg.PackageBase = pkg.Name
  · obtain ⟨h1, h2⟩ := h
    subst h1
    simp [h2]
  · have hcond : (pkg :: rest).length > 1 ∨ pkg.PackageBase ≠ pkg.Name := by
      by_cases h1 : rest = []
      · exact Or.inr (fun h2 => h ⟨h1, h2⟩)
      · left
        cases rest with
        | nil => exact absurd rfl h1
        | cons a as => simp
    simp only [hcond, if_true, h, if_false, Option.some.injEq]
    apply String.ext
    simp only [String.data_append, dropLastByte, names_fold_data, String.intercalate,
      List.map_cons, intercalate_go_data]
    have h3 := dropLast_spaced " (".data pkg.Name.data (rest.map (fun p => p.Name.data))
    simp only [List.map_cons, List.map_map] at h3
    have h4 : (fun p : Pkg => p.Name.data ++ [' ']) =
        (fun n => n ++ [' ']) ∘ (fun p : Pkg => p.Name.data) := rfl
    have h5 : (fun a : String => ' ' :: a.data) ∘ Pkg.Name =
        (fun n => ' ' :: n) ∘ (fun p : Pkg => p.Name.data) := rfl
    rw [h4, h3, List.map_map, h5]
    simp only [List.append_assoc]

/-- C20 on a base that holds one package of its own name, on a base with two
packages, and on a base that holds one package of another name. -/
theorem Base_String_exact_witness :
    Base.String [⟨"foo", "foo", "1"⟩] = some "foo" ∧
      Base.String [⟨"foo", "base", "1"⟩, ⟨"bar", "base", "1"⟩] = some "base (foo bar)" ∧
      Base.String [⟨"foo", "base", "1"⟩] = some "base (foo)" :=
  ⟨(Base_String_exact ⟨"foo", "foo", "1"⟩ []).trans (by decide),
    (Base_String_exact ⟨"foo", "base", "1"⟩ [⟨"bar", "base", "1"⟩]).trans (by decide),
    (Base_String_exact ⟨"foo", "base", "1"⟩ []).trans (by decide)⟩

/-! ## The annotation of the reverse pass -/

/-- C22 (evaluation): one call `checkReverseConflict("x", "y", conflicts)` on a
pool in which `p1` and `p2` both satisfy `y` records `x (y)` for the package it
meets first and `x (y) (y)` for the second: the annotation is appended to the
variable `name` again at every pool package that satisfies the expression. -/
theorem reverse_annotation_piles_up :
    twoProvidersPool.checkReverseConflict nameEnv 0 "x" "y" [] =
        [("p2", ["x (y) (y)"]), ("p1", ["x (y)"])] ∧
      ("x (y) (y)" : String) ≠ "x" ∧ ("x (y) (y)" : String) ≠ "x (y)" ∧
      twoProvidersPool.checkForwardConflict nameEnv "p1" "x" [] = [("p1", ["x"])] := by
  refine ⟨by rfl, by decide, by decide, by rfl⟩

/-! ## The plan printed by `depOrder.Print` -/

theorem concatEntries_append_nil (s : String) : s ++ concatEntries [] = s := by
  simp [concatEntries]

theorem repo_fold (ord : depOrder) (l : List RepoPkg) (b : Buckets) :
    (l.foldl ord.repoStep b).repoLen =
        b.repoLen + ((l.filter (fun p => ord.inRuntime p.Name)).length : Int) ∧
      (l.foldl ord.repoStep b).repoMakeLen =
        b.repoMakeLen + ((l.filter (fun p => !ord.inRuntime p.Name)).length : Int) ∧
      (l.foldl ord.repoStep b).repo =
        b.repo ++ concatEntries ((l.filter (fun p => ord.inRuntime p.Name)).map repoEntry) ∧
      (l.foldl ord.repoStep b).repoMake =
        b.repoMake ++ concatEntries ((l.filter (fun p => !ord.inRuntime p.Name)).map repoEntry) ∧
      (l.foldl ord.repoStep b).aur = b.aur ∧ (l.foldl ord.repoStep b).aurMake = b.aurMake ∧
      (l.foldl ord.repoStep b).aurLen = b.aurLen ∧
      (l.foldl ord.repoStep b).aurMakeLen = b.aurMakeLen := by
  induction l generalizing b with
  | nil => simp [concatEntries]
  | cons p rest ih =>
    simp only [List.foldl_cons]
    obtain ⟨h1, h2, h3, h4, h5, h6, h7, h8⟩ := ih (ord.repoStep b p)
    rw [h1, h2, h3, h4, h5, h6, h7, h8]
    cases hr : ord.inRuntime p.Name with
    | true =>
      have hstep : ord.repoStep b p =
          { b with repo := b.repo ++ repoEntry p, repoLen := b.repoLen + 1 } := by
        unfold depOrder.repoStep repoEntry
        rw [if_pos hr]
      rw [hstep]
      refine ⟨?_, ?_, ?_, ?_, rfl, rfl, rfl, rfl⟩
      · simp only [List.filter_cons, hr, if_true, List.length_cons, Nat.cast_add, Nat.cast_one]
        omega
      · simp only [List.filter_cons, hr, Bool.not_true, Bool.false_eq_true, if_false]
      · simp only [List.filter_cons, hr, if_true, List.map_cons, concatEntries,
          String.append_assoc]
      · simp only [List.filter_cons, hr, Bool.not_true, Bool.false_eq_true, if_false]
    | false =>
      have hstep : ord.repoStep b p =
          { b with repoMake := b.repoMake ++ repoEntry p, repoMakeLen := b.repoMakeLen + 1 } := by
        unfold depOrder.repoStep repoEntry
        rw [if_neg (by simp [hr])]
      rw [hstep]
      refine ⟨?_, ?_, ?_, ?_, rfl, rfl, rfl, rfl⟩
      · simp only [List.filter_cons, hr, Bool.false_eq_true, if_false]
      · simp only [List.filter_cons, hr, Bool.not_false, if_true, List.length_cons,
          Nat.cast_add, Nat.cast_one]
        omega
      · simp only [List.filter_cons, hr, Bool.false_eq_true, if_false]
      · simp only [List.filter_cons, hr, Bool.not_false, if_true, List.map_cons, concatEntries,
          String.append_assoc]

theorem split_fold (ord : depOrder) (l : List Pkg) (s : SplitState) :
    (l.foldl ord.splitStep s).aurLen =
        s.aurLen + (((l.map Pkg.Name).filter ord.inRuntime).length : Int) ∧
      (l.foldl ord.splitStep s).aurMakeLen =
        s.aurMakeLen + (((l.map Pkg.Name).filter (fun n => !ord.inRuntime n)).length : Int) ∧
      (l.foldl ord.splitStep s).pkgStr.data =
        s.pkgStr.data ++
          (((l.map Pkg.Name).filter ord.inRuntime).map (fun n => n.data ++ [' '])).flatten ∧
      (l.foldl ord.splitStep s).pkgStrMake.data =
        s.pkgStrMake.data ++ (((l.map Pkg.Name).filter (fun n => !ord.inRuntime n)).map
          (fun n => n.data ++ [' '])).flatten ∧
      ((l.foldl ord.splitStep s).push = true ↔
        s.push = true ∨ (l.map Pkg.Name).filter ord.inRuntime ≠ []) ∧
      ((l.foldl ord.splitStep s).pushMake = true ↔
        s.pushMake = true ∨ (l.map Pkg.Name).filter (fun n => !ord.inRuntime n) ≠ []) := by
  induction l generalizing s with
  | nil => simp
  | cons p rest ih =>
    simp only [List.foldl_cons]
    obtain ⟨h1, h2, h3, h4, h5, h6⟩ := ih (ord.splitStep s p)
    rw [h1, h2, h3, h4, h5, h6]
    cases hr : ord.inRuntime p.Name with
    | true =>
      have hstep : ord.splitStep s p =
          { s with pkgStr := s.pkgStr ++ (p.Name ++ " "), aurLen := s.aurLen + 1,
                   push := true } := by
        unfold depOrder.splitStep
        rw [if_pos hr]
      rw [hstep]
      refine ⟨?_, ?_, ?_, ?_, ?_, ?_⟩
      · simp only [List.map_cons, List.filter_cons, hr, if_true, List.length_cons, Nat.cast_add,
          Nat.cast_one]
        omega
      · simp only [List.map_cons, List.filter_cons, hr, Bool.not_true, Bool.false_eq_true,
          if_false]
      · simp only [List.map_cons, List.filter_cons, hr, if_true, List.flatten_cons,
          String.data_append, List.append_assoc]
      · simp only [List.map_cons, List.filter_cons, hr, Bool.not_true, Bool.false_eq_true,
          if_false]
      · simp [List.filter_cons, hr]
      · simp only [List.map_cons, List.filter_cons, hr, Bool.not_true, Bool.false_eq_true,
          if_false]
    | false =>
      have hstep : ord.splitStep s p =
          { s with pkgStrMake := s.pkgStrMake ++ (p.Name ++ " "),
                   aurMakeLen := s.aurMakeLen + 1, pushMake := true } := by
        unfold depOrder.splitStep
        rw [if_neg (by simp [hr])]
      rw [hstep]
      refine ⟨?_, ?_, ?_, ?_, ?_, ?_⟩
      · simp only [List.map_cons, List.filter_cons, hr, Bool.false_eq_true, if_false]
      · simp only [List.map_cons, List.filter_cons, hr, Bool.not_false, if_true,
          List.length_cons, Nat.cast_add, Nat.cast_one]
        omega
      · simp only [List.map_cons, List.filter_cons, hr, Bool.false_eq_true, if_false]
      · simp only [List.map_cons, List.filter_cons, hr, Bool.not_false, if_true,
          List.flatten_cons, String.data_append, List.append_assoc]
      · simp only [List.map_cons, List.filter_cons, hr, Bool.false_eq_true, if_false]
      · simp [List.filter_cons, hr]

/-- The text between the parentheses: cutting the last byte off the names that
were appended, each with a space, leaves them separated by single spaces. -/
theorem entry_string (front : String) (names : List String) (hne : names ≠ []) (str : String)
    (h : str.data = front.data ++ (names.map (fun n => n.data ++ [' '])).flatten) :
    dropLastByte str ++ ")" = front ++ " ".intercalate names ++ ")" := by
  cases names with
  | nil => exact absurd rfl hne
  | cons a rest =>
    apply String.ext
    simp only [String.data_append, dropLastByte, h, String.intercalate, intercalate_go_data]
    have h3 := dropLast_spaced front.data a.data (rest.map (fun n => n.data))
    simp only [List.map_cons, List.map_map] at h3
    have h4 : (fun n : String => n.data ++ [' ']) =
        (fun n => n ++ [' ']) ∘ (fun n : String => n.data) := rfl
    have h5 : (fun a : String => ' ' :: a.data) =
        (fun n => ' ' :: n) ∘ (fun n : String => n.data) := rfl
    simp only [List.map_cons]
    rw [h4, h3, h5]

theorem baseStep_split (ord : depOrder) (b : Buckets) (first : Pkg) (tl : List Pkg)
    (hsplit : (first :: tl).length > 1 ∨ first.PackageBase ≠ first.Name) :
    ord.baseStep b (first :: tl) = some { b with
      aur := if ((first :: tl).foldl ord.splitStep
          ⟨"  " ++ first.PackageBase ++ "-" ++ first.Version ++ " (",
            "  " ++ first.PackageBase ++ "-" ++ first.Version ++ " (", b.aurLen, b.aurMakeLen,
            false, false⟩).push then
          b.aur ++ (dropLastByte ((first :: tl).foldl ord.splitStep
            ⟨"  " ++ first.PackageBase ++ "-" ++ first.Version ++ " (",
              "  " ++ first.PackageBase ++ "-" ++ first.Version ++ " (", b.aurLen, b.aurMakeLen,
              false, false⟩).pkgStr ++ ")")
        else b.aur,
      aurMake := if ((first :: tl).foldl ord.splitStep
          ⟨"  " ++ first.PackageBase ++ "-" ++ first.Version ++ " (",
            "  " ++ first.PackageBase ++ "-" ++ first.Version ++ " (", b.aurLen, b.aurMakeLen,
            false, false⟩).pushMake then
          b.aurMake ++ (dropLastByte ((first :: tl).foldl ord.splitStep
            ⟨"  " ++ first.PackageBase ++ "-" ++ first.Version ++ " (",
              "  " ++ first.PackageBase ++ "-" ++ first.Version ++ " (", b.aurLen, b.aurMakeLen,
              false, false⟩).pkgStrMake ++ ")")
        else b.aurMake,
      aurLen := ((first :: tl).foldl ord.splitStep
        ⟨"  " ++ first.PackageBase ++ "-" ++ first.Version ++ " (",
          "  " ++ first.PackageBase ++ "-" ++ first.Version ++ " (", b.aurLen, b.aurMakeLen,
          false, false⟩).aurLen,
      aurMakeLen := ((first :: tl).foldl ord.splitStep
        ⟨"  " ++ first.PackageBase ++ "-" ++ first.Version ++ " (",
          "  " ++ first.PackageBase ++ "-" ++ first.Version ++ " (", b.aurLen, b.aurMakeLen,
          false, false⟩).aurMakeLen } := by
  unfold depOrder.baseStep
  simp only [hsplit, if_true]

/-- What one turn of the loop over `do.Aur` adds for a base that is not empty. -/
theorem baseStep_spec (ord : depOrder) (b : Buckets) (first : Pkg) (tl : List Pkg) :
    ∃ b1, ord.baseStep b (first :: tl) = some b1 ∧
      b1.aur = b.aur ++ bucketEntry ord.inRuntime (first :: tl) ∧
      b1.aurMake = b.aurMake ++ bucketEntry (fun n => !ord.inRuntime n) (first :: tl) ∧
      b1.aurLen =
        b.aurLen + ((((first :: tl).map Pkg.Name).filter ord.inRuntime).length : Int) ∧
      b1.aurMakeLen = b.aurMakeLen +
        ((((first :: tl).map Pkg.Name).filter (fun n => !ord.inRuntime n)).length : Int) ∧
      b1.repo = b.repo ∧ b1.repoMake = b.repoMake ∧ b1.repoLen = b.repoLen ∧
      b1.repoMakeLen = b.repoMakeLen := by
  by_cases hsplit : (first :: tl).length > 1 ∨ first.PackageBase ≠ first.Name
  · obtain ⟨h1, h2, h3, h4, h5, h6⟩ := split_fold ord (first :: tl)
      ⟨"  " ++ first.PackageBase ++ "-" ++ first.Version ++ " (",
        "  " ++ first.PackageBase ++ "-" ++ first.Version ++ " (", b.aurLen, b.aurMakeLen,
        false, false⟩
    refine ⟨_, baseStep_split ord b first tl hsplit, ?_, ?_, h1, h2, rfl, rfl, rfl, rfl⟩
    · show (if _ then _ else _) = _
      by_cases hf : ((first :: tl).map Pkg.Name).filter ord.inRuntime = []
      · have hp : ¬ ((first :: tl).foldl ord.splitStep
            ⟨"  " ++ first.PackageBase ++ "-" ++ first.Version ++ " (",
              "  " ++ first.PackageBase ++ "-" ++ first.Version ++ " (", b.aurLen,
              b.aurMakeLen, false, false⟩).push = true := by
          rw [h5]
          rintro (h | h)
          · exact Bool.false_ne_true h
          · exact h hf
        rw [if_neg hp]
        unfold bucketEntry
        simp only [hf, if_true, String.append_empty]
      · have hp : ((first :: tl).foldl ord.splitStep
            ⟨"  " ++ first.PackageBase ++ "-" ++ first.Version ++ " (",
              "  " ++ first.PackageBase ++ "-" ++ first.Version ++ " (", b.aurLen,
              b.aurMakeLen, false, false⟩).push = true := by
          rw [h5]
          exact Or.inr hf
        rw [if_pos hp, entry_string _ _ hf _ h3]
        unfold bucketEntry
        simp only [hf, if_false, hsplit, if_true, String.append_assoc]
    · show (if _ then _ else _) = _
      by_cases hf : ((first :: tl).map Pkg.Name).filter (fun n => !ord.inRuntime n) = []
      · have hp : ¬ ((first :: tl).foldl ord.splitStep
            ⟨"  " ++ first.PackageBase ++ "-" ++ first.Version ++ " (",
              "  " ++ first.PackageBase ++ "-" ++ first.Version ++ " (", b.aurLen,
              b.aurMakeLen, false, false⟩).pushMake = true := by
          rw [h6]
          rintro (h | h)
          · exact Bool.false_ne_true h
          · exact h hf
        rw [if_neg hp]
        unfold bucketEntry
        simp only [hf, if_true, String.append_empty]
      · have hp : ((first :: tl).foldl ord.splitStep
            ⟨"  " ++ first.PackageBase ++ "-" ++ first.Version ++ " (",
              "  " ++ first.PackageBase ++ "-" ++ first.Version ++ " (", b.aurLen,
              b.aurMakeLen, false, false⟩).pushMake = true := by
          rw [h6]
          exact Or.inr hf
        rw [if_pos hp, entry_string _ _ hf _ h4]
        unfold bucketEntry
        simp only [hf, if_false, hsplit, if_true, String.append_assoc]
  · have htl : tl = [] := by
      cases tl with
      | nil => rfl
      | cons a as => exact absurd (Or.inl (by simp)) hsplit
    subst htl
    have hpb : first.PackageBase = first.Name := by
      by_contra hne
      exact hsplit (Or.inr hne)
    cases hr : ord.inRuntime first.Name with
    | true =>
      refine ⟨{ b with aur := b.aur ++ ("  " ++ first.PackageBase ++ "-" ++ first.Version),
                       aurLen := b.aurLen + 1 }, by
        unfold depOrder.baseStep
        simp only [hsplit, if_false, hr, if_true], ?_, ?_, ?_, ?_, rfl, rfl, rfl, rfl⟩
      · unfold bucketEntry
        simp [hr, hpb]
      · unfold bucketEntry
        simp [hr]
      · simp [hr]
      · simp [hr]
    | false =>
      refine ⟨{ b with aurMake := b.aurMake ++ ("  " ++ first.PackageBase ++ "-" ++ first.Version),
                       aurMakeLen := b.aurMakeLen + 1 }, by
        unfold depOrder.baseStep
        simp only [hsplit, if_false, hr, Bool.false_eq_true], ?_, ?_, ?_, ?_, rfl, rfl, rfl, rfl⟩
      · unfold bucketEntry
        simp [hr]
      · unfold bucketEntry
        simp [hr, hpb]
      · simp [hr]
      · simp [hr]

theorem aurLoop_spec (ord : depOrder) (bases : List Base) (hne : ∀ base ∈ bases, base ≠ [])
    (b : Buckets) :
    ∃ b1, ord.aurLoop bases b = some b1 ∧
      b1.aur = b.aur ++ concatEntries (bases.map (bucketEntry ord.inRuntime)) ∧
      b1.aurMake =
        b.aurMake ++ concatEntries (bases.map (bucketEntry (fun n => !ord.inRuntime n))) ∧
      b1.aurLen = b.aurLen + (((bases.flatten.map Pkg.Name).filter ord.inRuntime).length : Int) ∧
      b1.aurMakeLen = b.aurMakeLen +
        (((bases.flatten.map Pkg.Name).filter (fun n => !ord.inRuntime n)).length : Int) ∧
      b1.repo = b.repo ∧ b1.repoMake = b.repoMake ∧ b1.repoLen = b.repoLen ∧
      b1.repoMakeLen = b.repoMakeLen := by
  induction bases generalizing b with
  | nil =>
    exact ⟨b, rfl, by simp [concatEntries], by simp [concatEntries], by simp, by simp, rfl, rfl,
      rfl, rfl⟩
  | cons base rest ih =>
    cases base with
    | nil => exact absurd rfl (hne [] (List.mem_cons_self _ _))
    | cons first tl =>
      obtain ⟨b1, hb1, ha, hm, hal, hml, hr, hrm, hrl, hrml⟩ := baseStep_spec ord b first tl
      obtain ⟨b2, hb2, ha2, hm2, hal2, hml2, hr2, hrm2, hrl2, hrml2⟩ :=
        ih (fun x hx => hne x (List.mem_cons_of_mem _ hx)) b1
      refine ⟨b2, ?_, ?_, ?_, ?_, ?_, hr2.trans hr, hrm2.trans hrm, hrl2.trans hrl,
        hrml2.trans hrml⟩
      · simp only [depOrder.aurLoop, hb1]
        exact hb2
      · rw [ha2, ha]
        simp only [List.map_cons, concatEntries, String.append_assoc]
      · rw [hm2, hm]
        simp only [List.map_cons, concatEntries, String.append_assoc]
      · rw [hal2, hal]
        simp only [List.flatten_cons, List.map_append, List.filter_append, List.length_append,
          Nat.cast_add]
        omega
      · rw [hml2, hml]
        simp only [List.flatten_cons, List.map_append, List.filter_append, List.length_append,
          Nat.cast_add]
        omega

theorem filter_split_length {α : Type} (l : List α) (p : α → Bool) :
    (l.filter p).length + (l.filter (fun x => !p x)).length = l.length := by
  induction l with
  | nil => rfl
  | cons a rest ih =>
    cases hp : p a with
    | true =>
      simp only [List.filter_cons, hp, if_true, Bool.not_true, Bool.false_eq_true, if_false,
        List.length_cons]
      omega
    | false =>
      simp only [List.filter_cons, hp, Bool.false_eq_true, if_false, Bool.not_false, if_true,
        List.length_cons]
      omega

/-- C21: `depOrder.Print` partitions by membership in `Runtime`.  For a plan
whose bases are not empty the two loops end with: the count of each bucket is
the number of binary packages, or of packages of the source bases, whose name
is (runtime bucket) or is not (make bucket) in `Runtime`, so every package is
counted in exactly one of the two; the text of a binary bucket is made of the
entries of its packages; the text of a source bucket is made, base by base, of
the entry that lists exactly the names of the base that belong to the bucket,
in the order of the base, and of no entry for a base none of whose names
belongs to it; and `printDownloads` prints a bucket if and only if its count
is at least 1. -/
theorem Print_partitions (style : Style) (ord : depOrder)
    (hne : ∀ base ∈ ord.Aur, base ≠ []) :
    ∃ b, ord.buckets = some b ∧
      (b.repoLen = ((ord.Repo.filter (fun p => ord.inRuntime p.Name)).length : Int) ∧
        b.repoMakeLen = ((ord.Repo.filter (fun p => !ord.inRuntime p.Name)).length : Int) ∧
        b.aurLen = (((ord.Aur.flatten.map Pkg.Name).filter ord.inRuntime).length : Int) ∧
        b.aurMakeLen =
          (((ord.Aur.flatten.map Pkg.Name).filter (fun n => !ord.inRuntime n)).length : Int)) ∧
      (b.repoLen + b.repoMakeLen = (ord.Repo.length : Int) ∧
        b.aurLen + b.aurMakeLen = (ord.Aur.flatten.length : Int)) ∧
      (b.repo =
          concatEntries ((ord.Repo.filter (fun p => ord.inRuntime p.Name)).map repoEntry) ∧
        b.repoMake =
          concatEntries ((ord.Repo.filter (fun p => !ord.inRuntime p.Name)).map repoEntry) ∧
        b.aur = concatEntries (ord.Aur.map (bucketEntry ord.inRuntime)) ∧
        b.aurMake = concatEntries (ord.Aur.map (bucketEntry (fun n => !ord.inRuntime n)))) ∧
      ord.Print style = some ([printDownloads style "Repo" b.repoLen b.repo,
        printDownloads style "Repo Make" b.repoMakeLen b.repoMake,
        printDownloads style "Aur" b.aurLen b.aur,
        printDownloads style "Aur Make" b.aurMakeLen b.aurMake].filterMap id) ∧
      (∀ name len packages, (printDownloads style name len packages).isSome ↔ 1 ≤ len) := by
  obtain ⟨r1, r2, r3, r4, r5, r6, r7, r8⟩ :=
    repo_fold ord ord.Repo ⟨"", "", "", "", 0, 0, 0, 0⟩
  obtain ⟨b, hb, ha, hm, hal, hml, hr, hrm, hrl, hrml⟩ :=
    aurLoop_spec ord ord.Aur hne (ord.Repo.foldl ord.repoStep ⟨"", "", "", "", 0, 0, 0, 0⟩)
  have hbuckets : ord.buckets = some b := hb
  have c1 : b.repoLen = ((ord.Repo.filter (fun p => ord.inRuntime p.Name)).length : Int) := by
    rw [hrl, r1]
    simp
  have c2 : b.repoMakeLen =
      ((ord.Repo.filter (fun p => !ord.inRuntime p.Name)).length : Int) := by
    rw [hrml, r2]
    simp
  have c3 : b.aurLen =
      (((ord.Aur.flatten.map Pkg.Name).filter ord.inRuntime).length : Int) := by
    rw [hal, r7]
    simp
  have c4 : b.aurMakeLen =
      (((ord.Aur.flatten.map Pkg.Name).filter (fun n => !ord.inRuntime n)).length : Int) := by
    rw [hml, r8]
    simp
  refine ⟨b, hbuckets, ⟨c1, c2, c3, c4⟩, ⟨?_, ?_⟩, ⟨?_, ?_, ?_, ?_⟩, ?_, ?_⟩
  · rw [c1, c2]
    have := filter_split_length ord.Repo (fun p => ord.inRuntime p.Name)
    omega
  · rw [c3, c4]
    have := filter_split_length (ord.Aur.flatten.map Pkg.Name) ord.inRuntime
    simp only [List.length_map] at this
    omega
  · rw [hr, r3]
    simp
  · rw [hrm, r4]
    simp
  · rw [ha, r5]
    simp
  · rw [hm, r6]
    simp
  · unfold depOrder.Print
    rw [hbuckets]
    rfl
  · intro name len packages
    unfold printDownloads
    by_cases hl : len < 1
    · simp only [hl, if_true, Option.isSome_none, Bool.false_eq_true, false_iff]
      omega
    · simp only [hl, if_false, Option.isSome_some, true_iff]
      omega

/-- C21 on `straddlePlan`: the split base `base` has `foo` and `baz` in the
runtime bucket and `bar` in the make bucket, and all four buckets are printed. -/
theorem Print_partitions_witness :
    (∀ base ∈ straddlePlan.Aur, base ≠ []) ∧
      straddlePlan.Print plainStyle =
        some ["[Repo: 1]  glibc-1", "[Repo Make: 1]  cmake-1", "[Aur: 2]  base-1 (foo baz)",
          "[Aur Make: 2]  base-1 (bar)  solo-2"] ∧
      ∃ b, straddlePlan.buckets = some b ∧
        b.aur = concatEntries (straddlePlan.Aur.map (bucketEntry straddlePlan.inRuntime)) ∧
        b.aurLen + b.aurMakeLen = (straddlePlan.Aur.flatten.length : Int) :=
  ⟨by decide, by rfl,
    (Print_partitions plainStyle straddlePlan (by decide)).imp
      fun _ h => ⟨h.1, h.2.2.2.1.2.2.1, h.2.2.1.2⟩⟩

end Yay
